import Mathlib

/-!
# Hopscotch: a lazy, lock-based skip list (src/src/hopscotch.c)

Shallow embedding of the C sources.  Pointers are indices into a list of
allocated nodes, `none` is the NULL pointer, an element is its byte list (its
size is the length of the list), and every function that can dereference an
invalid pointer or fail to return yields an `Option`.
-/

namespace Hopscotch

/-- A node pointer: the index of the node among the allocated nodes. -/
abbrev Ptr := Nat

/-- An element `(data, size)`: the bytes `data[0 .. size-1]`.  Every byte is a
natural number (below 256 in the program); sizes are below `2^31`, where the
`(int)` casts of the comparator are the identity. -/
abbrev Elem := List Nat

/-- Result codes of `hopscotch_res_t` (hopscotch.h, lines 100-109). -/
inductive hopscotch_res_t where
  | SUCCESS
  | LIST__FIND_EL_VAL_NOT_FOUND
  | LIST_NEW_INVALID_LIST_PTR
  | LIST_NEW_INVALID_OPTS_PTR
  | MEM_ALLOC_FAIL
  | PTHREAD_MUTEX_INIT_FAIL
  | PTHREAD_MUTEX_LOCK_FAIL
  | PTHREAD_MUTEX_UNLOCK_FAIL
deriving DecidableEq, Repr

open hopscotch_res_t

/-- The bytes of `HOPSCOTCH_VAL_LIST_DEFAULT_MIN_VAL`, the C string
"<<<-INFINITY>>>", with its terminating NUL (`strlen + 1` bytes). -/
def MIN_VAL : Elem := [60, 60, 60, 45, 73, 78, 70, 73, 78, 73, 84, 89, 62, 62, 62, 0]

/-- The bytes of `HOPSCOTCH_VAL_LIST_DEFAULT_MAX_VAL`, the C string
"<<<+INFINITY>>>", with its terminating NUL. -/
def MAX_VAL : Elem := [60, 60, 60, 43, 73, 78, 70, 73, 78, 73, 84, 89, 62, 62, 62, 0]

def HOPSCOTCH_VAL_LIST_DEFAULT_MAX_LEVEL : Nat := 16

def HOPSCOTCH_VAL_LIST_DEFAULT_RAND_LEVEL_P : ℚ := 1 / 2

/-- The C library `memcmp(a, b, n)`: the difference of the first pair of
differing bytes among the first `n`, zero when there is none.  (Only the sign
is specified by C; the callers only test the sign.)  The callers never pass an
`n` beyond either buffer; the last equation is not reached by them. -/
def memcmp : Elem → Elem → Nat → Int
  | _, _, 0 => 0
  | x :: xs, y :: ys, n + 1 => if x = y then memcmp xs ys n else (x : Int) - (y : Int)
  | _, _, _ + 1 => 0

/-- A comparator `cmp(&res, a, a_size, b, b_size)`: the returned code and the
sign written to `res`. -/
abbrev Cmp := Elem → Elem → hopscotch_res_t × Int

/-- `_list_default_el_cmp` (hopscotch.c, lines 54-98). -/
def _list_default_el_cmp : Cmp := fun val_a val_b =>
  if val_a.length = MIN_VAL.length ∧ memcmp val_a MIN_VAL MIN_VAL.length = 0 then
    (SUCCESS, -1)
  else if val_a.length = MAX_VAL.length ∧ memcmp val_a MAX_VAL MAX_VAL.length = 0 then
    (SUCCESS, 1)
  else
    let cmp_size := if val_a.length < val_b.length then val_a.length else val_b.length
    (SUCCESS, memcmp val_a val_b cmp_size)

/-- The loop of `_list_rand_level` (hopscotch.c, lines 165-170): `rnd k` is the
`k`-th value returned by `genrand_real2()`; `n` bounds the iterations left. -/
def rand_level_loop (rnd : Nat → ℚ) (p : ℚ) (max_level : Nat) : Nat → Nat → Nat
  | 0, _level => _level
  | n + 1, _level =>
    if rnd _level < p ∧ _level ≤ max_level then
      rand_level_loop rnd p max_level n (_level + 1)
    else _level

/-- `_list_rand_level` (hopscotch.c, lines 162-174): the level written, after
the cast to `uint8_t`.  The loop leaves as soon as `_level` exceeds
`max_level`, so `max_level + 2` iterations are enough for it to leave. -/
def _list_rand_level (rnd : Nat → ℚ) (p : ℚ) (max_level : Nat) : Nat :=
  rand_level_loop rnd p max_level (max_level + 2) 0 % 256

/-! ## Nodes, the heap and the external calls -/

/-- `struct _hopscotch_node` (hopscotch.h, lines 132-142).  `forward` is the
array the `forward` pointer designates, `lock` tells whether the mutex is held,
`val` is `val.data[0 .. val.size-1]`. -/
structure hopscotch_node_t where
  forward : List (Option Ptr)
  fully_linked : Bool
  level : Nat
  lock : Bool
  marked : Bool
  val : Elem
deriving DecidableEq, Repr

/-- One call of an external routine that can fail (ghost record). -/
inductive Ev where
  | malloc
  | mutex_init
  | lock (p : Ptr)
  | unlock (p : Ptr)
  | failed
deriving DecidableEq, Repr

/-- The memory of one list: the allocated nodes (a pointer is an index) and the
record of the external calls made so far, most recent first. -/
structure Heap where
  nodes : List hopscotch_node_t
  log : List Ev
deriving DecidableEq, Repr

/-- The environment: `env k` tells whether the `k`-th external call (allocation,
mutex initialisation, lock, unlock) made on this heap fails. -/
abbrev Env := Nat → Bool

/-- The environment in which no external call fails. -/
def no_failure : Env := fun _ => false

/-- Dereference of a node pointer. -/
def Heap.node (h : Heap) (p : Ptr) : Option hopscotch_node_t := h.nodes[p]?

/-- Store to the node `p` designates. -/
def Heap.setNode (h : Heap) (p : Ptr) (n : hopscotch_node_t) : Heap :=
  { h with nodes := h.nodes.set p n }

/-- The read `p->forward[i]`: `none` when `p` is no node or `i` is outside the
array, `some none` for a NULL entry. -/
def Heap.rdFwd (h : Heap) (p : Ptr) (i : Nat) : Option (Option Ptr) :=
  (h.node p).bind (fun n => n.forward[i]?)

/-- The store `p->forward[i] = q`: `none` when `p` is no node or `i` is outside
the array. -/
def Heap.wrFwd (h : Heap) (p : Ptr) (i : Nat) (q : Option Ptr) : Option Heap :=
  match h.node p with
  | none => none
  | some n =>
    if i < n.forward.length then some (h.setNode p { n with forward := n.forward.set i q })
    else none

/-- An external call: it fails when the environment says so, and is recorded. -/
def ext_call (env : Env) (h : Heap) (e : Ev) : Bool × Heap :=
  if env h.log.length then (false, { h with log := Ev.failed :: h.log })
  else (true, { h with log := e :: h.log })

/-- `pthread_mutex_lock(&p->lock)`: whether it returned 0, and the heap after.
No result when `p` is no node, or when the mutex is already held: the calls are
made by a single thread, which would then wait forever. -/
def pthread_mutex_lock (env : Env) (h : Heap) (p : Ptr) : Option (Bool × Heap) :=
  match h.node p with
  | none => none
  | some n =>
    if env h.log.length then some (false, { h with log := Ev.failed :: h.log })
    else if n.lock then none
    else some (true, { nodes := h.nodes.set p { n with lock := true }, log := Ev.lock p :: h.log })

/-- `pthread_mutex_unlock(&p->lock)`: whether it returned 0, and the heap after.
Unlocking a mutex that is not held returns 0 and leaves it free (the behaviour
of a default glibc mutex). -/
def pthread_mutex_unlock (env : Env) (h : Heap) (p : Ptr) : Option (Bool × Heap) :=
  match h.node p with
  | none => none
  | some n =>
    if env h.log.length then some (false, { h with log := Ev.failed :: h.log })
    else some (true, { nodes := h.nodes.set p { n with lock := false }, log := Ev.unlock p :: h.log })

/-! ## Options and the list -/

/-- The allocator `opts->gc.malloc` designates. -/
inductive Allocator where
  | GC_malloc
  | custom (id : Nat)
deriving DecidableEq, Repr

/-- `struct _hopscotch_opts` (hopscotch.h, lines 144-157); `none` is a NULL
function pointer. -/
structure hopscotch_opts_t where
  cmp : Option Cmp
  gc_malloc : Option Allocator
  max_level : Nat
  rand_level_p : ℚ

/-- `struct _hopscotch_list` (hopscotch.h, lines 127-130). -/
structure hopscotch_list_t where
  head : Ptr
  opts : hopscotch_opts_t

/-! ## The Finder -/

/-- A local array `hopscotch_node_t * a[max_level]`: the entry at an index is
`none` as long as nothing was stored there (its content is indeterminate). -/
abbrev NodeArr := Nat → Option Ptr

/-- The outputs and the flag of `_list_find_el`: `level_found` is `none` as
long as `level_found[0]` was not written. -/
structure FindState where
  val_found : Bool
  level_found : Option Nat
  pred_nodes : NodeArr
  succ_nodes : NodeArr

/-- The inner `while (true)` of `_list_find_el` (hopscotch.c, lines 114-132) at
level `_level`, entered with `pred_node` and a non-NULL `curr_node`: the
comparator's failure code, or the final `(pred_node, curr_node)`.  No result
when a pointer that is NULL or outside its array is followed, or when the fuel
runs out. -/
def find_walk (cmp : Cmp) (h : Heap) (val : Elem) (_level : Nat) :
    Nat → Ptr → Ptr → Option (Except hopscotch_res_t (Ptr × Ptr))
  | 0, _, _ => none
  | fuel + 1, pred_node, curr_node =>
    match h.node curr_node with
    | none => none
    | some cn =>
      if (cmp cn.val val).1 ≠ SUCCESS then some (Except.error (cmp cn.val val).1)
      else if (cmp cn.val val).2 < 0 then
        match cn.forward[_level]? with
        | some (some nxt) => find_walk cmp h val _level fuel curr_node nxt
        | _ => none
      else some (Except.ok (pred_node, curr_node))

/-- The `for` loop of `_list_find_el` (hopscotch.c, lines 112-160) with `n`
levels left (`_level = n - 1` is the next one), and the final return.  The
inner loop is given `h.nodes.length + 1` steps: a walk that advances more often
than there are nodes visits one node twice at the same level and never stops. -/
def find_levels (cmp : Cmp) (h : Heap) (val : Elem) :
    Nat → Ptr → FindState → Option (hopscotch_res_t × FindState)
  | 0, _, st => some (if st.val_found then SUCCESS else LIST__FIND_EL_VAL_NOT_FOUND, st)
  | n + 1, pred_node, st =>
    match h.rdFwd pred_node n with
    | some (some first) =>
      match find_walk cmp h val n (h.nodes.length + 1) pred_node first with
      | none => none
      | some (Except.error e) => some (e, st)
      | some (Except.ok (pred_node1, curr_node)) =>
        match h.node curr_node with
        | none => none
        | some cn =>
          if (cmp cn.val val).1 ≠ SUCCESS then some ((cmp cn.val val).1, st)
          else
            let st1 : FindState :=
              if !st.val_found && (cmp cn.val val).2 == 0 then
                { st with val_found := true, level_found := some n }
              else st
            find_levels cmp h val n pred_node1
              { st1 with pred_nodes := Function.update st1.pred_nodes n (some pred_node1),
                         succ_nodes := Function.update st1.succ_nodes n (some curr_node) }
    | _ => none

/-- `_list_find_el` (hopscotch.c, lines 100-160): the returned code and the
values written to `level_found`, `pred_nodes` and `succ_nodes`. -/
def _list_find_el (list : hopscotch_list_t) (h : Heap) (val : Elem) :
    Option (hopscotch_res_t × FindState) :=
  match list.opts.cmp with
  | none => none
  | some cmp =>
    find_levels cmp h val list.opts.max_level list.head
      { val_found := false, level_found := none,
        pred_nodes := fun _ => none, succ_nodes := fun _ => none }

/-- `_list_can_del_el` (hopscotch.c, lines 43-52): the value written to `ans`. -/
def _list_can_del_el (el : hopscotch_node_t) (level : Nat) : Bool :=
  el.fully_linked && (el.level == level) && !el.marked

/-- `hopscotch_list_contains_el` (hopscotch.c, lines 384-410): the returned code
and the value written to `found`.  No result when the Finder has none, or when
`succ_nodes[level_found]` is read through a `level_found` that was not written
(which happens when the comparator failed before any match). -/
def hopscotch_list_contains_el (list : hopscotch_list_t) (h : Heap) (val : Elem) :
    Option (hopscotch_res_t × Bool) :=
  match _list_find_el list h val with
  | none => none
  | some (_tmp_001, fs) =>
    if _tmp_001 = LIST__FIND_EL_VAL_NOT_FOUND then some (SUCCESS, false)
    else
      match fs.level_found with
      | none => none
      | some level_found =>
        match (fs.succ_nodes level_found).bind h.node with
        | none => none
        | some sn => some (SUCCESS, sn.fully_linked && !sn.marked)

/-! ## The mutators -/

/-- How a predecessor-locking loop ended: a failed `pthread_mutex_lock`, or the
loop condition turning false with these `valid` and `highest_level_locked`. -/
inductive LockOut where
  | lock_fail (h : Heap)
  | finished (valid : Bool) (highest_level_locked : Int) (h : Heap)

/-- The locking step of both loops (hopscotch.c, lines 313-321 and 474-482):
whether the lock call returned 0 (true when none was made), and the new
`prev_pred_node`, `highest_level_locked` and heap. -/
def lock_if_new (env : Env) (h : Heap) (pred_node : Ptr) (prev_pred_node : Option Ptr)
    (highest_level_locked : Int) (_level : Nat) : Option (Bool × Option Ptr × Int × Heap) :=
  if some pred_node ≠ prev_pred_node then
    match pthread_mutex_lock env h pred_node with
    | none => none
    | some (false, h1) => some (false, prev_pred_node, highest_level_locked, h1)
    | some (true, h1) => some (true, some pred_node, (_level : Int), h1)
  else some (true, prev_pred_node, highest_level_locked, h)

/-- The locking and validation loop of `hopscotch_list_add_el` (hopscotch.c,
lines 310-331), entered with `valid` true and `n` levels left up to
`top_level`. -/
def add_lock_loop (env : Env) (pred_nodes succ_nodes : NodeArr) :
    Nat → Nat → Option Ptr → Int → Heap → Option LockOut
  | 0, _, _, highest_level_locked, h => some (LockOut.finished true highest_level_locked h)
  | n + 1, _level, prev_pred_node, highest_level_locked, h =>
    match pred_nodes _level, succ_nodes _level with
    | some pred_node, some succ_node =>
      match lock_if_new env h pred_node prev_pred_node highest_level_locked _level with
      | none => none
      | some (false, _, _, h1) => some (LockOut.lock_fail h1)
      | some (true, prev1, hl1, h1) =>
        match h1.node pred_node with
        | none => none
        | some pn =>
          if pn.marked then some (LockOut.finished false hl1 h1)
          else
            match h1.node succ_node with
            | none => none
            | some sn =>
              if sn.marked then some (LockOut.finished false hl1 h1)
              else
                match pn.forward[_level]? with
                | none => none
                | some f =>
                  if f = some succ_node then
                    add_lock_loop env pred_nodes succ_nodes n (_level + 1) prev1 hl1 h1
                  else some (LockOut.finished false hl1 h1)
    | _, _ => none

/-- The locking and validation loop of `hopscotch_list_del_el` (hopscotch.c,
lines 471-491). -/
def del_lock_loop (env : Env) (pred_nodes succ_nodes : NodeArr) :
    Nat → Nat → Option Ptr → Int → Heap → Option LockOut
  | 0, _, _, highest_level_locked, h => some (LockOut.finished true highest_level_locked h)
  | n + 1, _level, prev_pred_node, highest_level_locked, h =>
    match pred_nodes _level, succ_nodes _level with
    | some pred_node, some succ_node =>
      match lock_if_new env h pred_node prev_pred_node highest_level_locked _level with
      | none => none
      | some (false, _, _, h1) => some (LockOut.lock_fail h1)
      | some (true, prev1, hl1, h1) =>
        match h1.node pred_node with
        | none => none
        | some pn =>
          if pn.marked then some (LockOut.finished false hl1 h1)
          else
            match pn.forward[_level]? with
            | none => none
            | some f =>
              if f = some succ_node then
                del_lock_loop env pred_nodes succ_nodes n (_level + 1) prev1 hl1 h1
              else some (LockOut.finished false hl1 h1)
    | _, _ => none

/-- The lock-releasing loops (hopscotch.c, lines 358-364, 370-376, 504-510,
517-523), with `n` levels left from `_b`: whether every unlock returned 0. -/
def unlock_loop (env : Env) (pred_nodes : NodeArr) : Nat → Nat → Heap → Option (Bool × Heap)
  | 0, _, h => some (true, h)
  | n + 1, _b, h =>
    match pred_nodes _b with
    | none => none
    | some p =>
      match pthread_mutex_unlock env h p with
      | none => none
      | some (false, h1) => some (false, h1)
      | some (true, h1) => unlock_loop env pred_nodes n (_b + 1) h1

/-- The linking loop of `hopscotch_list_add_el` (hopscotch.c, lines 350-353),
with `n` levels left from `_a`. -/
def add_link_loop (pred_nodes succ_nodes : NodeArr) (new_node : Ptr) : Nat → Nat → Heap → Option Heap
  | 0, _, h => some h
  | n + 1, _a, h =>
    match pred_nodes _a, succ_nodes _a with
    | some p, some s =>
      match h.wrFwd new_node _a (some s) with
      | none => none
      | some h1 =>
        match h1.wrFwd p _a (some new_node) with
        | none => none
        | some h2 => add_link_loop pred_nodes succ_nodes new_node n (_a + 1) h2
    | _, _ => none

/-- The unlinking loop of `hopscotch_list_del_el` (hopscotch.c, lines 494-496),
with `n` levels left (`_a = n - 1` is the next one). -/
def del_unlink_loop (pred_nodes : NodeArr) (node_to_del : Ptr) : Nat → Heap → Option Heap
  | 0, h => some h
  | n + 1, h =>
    match pred_nodes n, h.rdFwd node_to_del n with
    | some p, some q =>
      match h.wrFwd p n q with
      | none => none
      | some h1 => del_unlink_loop pred_nodes node_to_del n h1
    | _, _ => none

/-- `hopscotch_list_add_el` (hopscotch.c, lines 271-382): the returned code, the
value written to `added` (`none` when nothing was written) and the heap after.
`rnd` holds the values `genrand_real2()` returns during the call.

The body of the `while (true)` is run once.  A pass that ends in `continue`, or
that spins on `fully_linked`, is repeated by the single caller on the same
pointers and flags and ends the same way: such a call has no result here, like
one that follows an invalid pointer or reads an array entry that was not
stored. -/
def hopscotch_list_add_el (env : Env) (rnd : Nat → ℚ) (list : hopscotch_list_t) (h : Heap)
    (val : Elem) : Option (hopscotch_res_t × Option Bool × Heap) :=
  let top_level := _list_rand_level rnd list.opts.rand_level_p list.opts.max_level
  match _list_find_el list h val with
  | none => none
  | some (_tmp_001, fs) =>
    if _tmp_001 ≠ LIST__FIND_EL_VAL_NOT_FOUND then
      match (fs.level_found.bind fs.succ_nodes).bind h.node with
      | none => none
      | some node_found =>
        if !node_found.marked then
          if node_found.fully_linked then some (SUCCESS, some false, h) else none
        else none
    else
      match add_lock_loop env fs.pred_nodes fs.succ_nodes (top_level + 1) 0 none (-1) h with
      | none => none
      | some (LockOut.lock_fail h1) => some (PTHREAD_MUTEX_LOCK_FAIL, none, h1)
      | some (LockOut.finished false highest_level_locked h1) =>
        match unlock_loop env fs.pred_nodes (highest_level_locked + 1).toNat 0 h1 with
        | some (false, h2) => some (PTHREAD_MUTEX_UNLOCK_FAIL, none, h2)
        | _ => none
      | some (LockOut.finished true highest_level_locked h1) =>
        match list.opts.gc_malloc with
        | none => none
        | some _ =>
          let a1 := ext_call env h1 Ev.malloc
          if !a1.1 then some (MEM_ALLOC_FAIL, none, a1.2)
          else
            let new_node : Ptr := a1.2.nodes.length
            let nn : hopscotch_node_t :=
              { forward := [], fully_linked := false, level := top_level % 256, lock := false,
                marked := false, val := val }
            let a2 := ext_call env { a1.2 with nodes := a1.2.nodes ++ [nn] } Ev.mutex_init
            if !a2.1 then some (PTHREAD_MUTEX_INIT_FAIL, none, a2.2)
            else
              let a3 := ext_call env a2.2 Ev.malloc
              if !a3.1 then some (MEM_ALLOC_FAIL, none, a3.2)
              else
                let h4 := a3.2.setNode new_node { nn with forward := List.replicate (top_level + 1) none }
                match add_link_loop fs.pred_nodes fs.succ_nodes new_node (top_level + 1) 0 h4 with
                | none => none
                | some h5 =>
                  match h5.node new_node with
                  | none => none
                  | some n5 =>
                    let h6 := h5.setNode new_node { n5 with fully_linked := true }
                    match unlock_loop env fs.pred_nodes (highest_level_locked + 1).toNat 0 h6 with
                    | none => none
                    | some (false, h7) => some (PTHREAD_MUTEX_UNLOCK_FAIL, some true, h7)
                    | some (true, h7) => some (SUCCESS, some true, h7)

/-- `hopscotch_list_del_el` (hopscotch.c, lines 412-534): the returned code, the
value written to `deleted` (`none` when nothing was written) and the heap after.

Line 436 hands `succ_nodes[level_found]` to `_list_can_del_el` before the
Finder's code is looked at.  When the Finder wrote no `level_found`, that read
goes through an indeterminate index, possibly past the `max_level` entries of
`succ_nodes`, and the node it designates is dereferenced: the call has no
result, as for the same read in `hopscotch_list_contains_el` and
`hopscotch_list_add_el`.  As in `hopscotch_list_add_el` the body of the
`while (true)` is run once, and a pass that ends in `continue` has no
result. -/
def hopscotch_list_del_el (env : Env) (list : hopscotch_list_t) (h : Heap)
    (val : Elem) : Option (hopscotch_res_t × Option Bool × Heap) :=
  match _list_find_el list h val with
  | none => none
  | some (_tmp_001, fs) =>
    let _can_delete : Option Bool :=
      match fs.level_found with
      | none => none
      | some level_found =>
        ((fs.succ_nodes level_found).bind h.node).map (fun el => _list_can_del_el el level_found)
    match _can_delete with
    | none => none
    | some can =>
      if _tmp_001 ≠ LIST__FIND_EL_VAL_NOT_FOUND ∧ can = true then
        match fs.level_found.bind fs.succ_nodes with
        | none => none
        | some node_to_del =>
          match h.node node_to_del with
          | none => none
          | some nd =>
            let top_level := nd.level
            match pthread_mutex_lock env h node_to_del with
            | none => none
            | some (false, h1) => some (PTHREAD_MUTEX_LOCK_FAIL, none, h1)
            | some (true, h1) =>
              match h1.node node_to_del with
              | none => none
              | some nd1 =>
                if nd1.marked then
                  match pthread_mutex_unlock env h1 node_to_del with
                  | none => none
                  | some (false, h2) => some (PTHREAD_MUTEX_UNLOCK_FAIL, none, h2)
                  | some (true, h2) => some (SUCCESS, some false, h2)
                else
                  let h2 := h1.setNode node_to_del { nd1 with marked := true }
                  match del_lock_loop env fs.pred_nodes fs.succ_nodes (top_level + 1) 0 none (-1) h2 with
                  | none => none
                  | some (LockOut.lock_fail h3) => some (PTHREAD_MUTEX_LOCK_FAIL, none, h3)
                  | some (LockOut.finished false highest_level_locked h3) =>
                    match unlock_loop env fs.pred_nodes (highest_level_locked + 1).toNat 0 h3 with
                    | some (false, h4) => some (PTHREAD_MUTEX_UNLOCK_FAIL, none, h4)
                    | _ => none
                  | some (LockOut.finished true highest_level_locked h3) =>
                    match del_unlink_loop fs.pred_nodes node_to_del (top_level + 1) h3 with
                    | none => none
                    | some h4 =>
                      match pthread_mutex_unlock env h4 node_to_del with
                      | none => none
                      | some (false, h5) => some (PTHREAD_MUTEX_UNLOCK_FAIL, none, h5)
                      | some (true, h5) =>
                        match unlock_loop env fs.pred_nodes (highest_level_locked + 1).toNat 0 h5 with
                        | none => none
                        | some (false, h6) => some (PTHREAD_MUTEX_UNLOCK_FAIL, none, h6)
                        | some (true, h6) => some (SUCCESS, some true, h6)
      else some (SUCCESS, some false, h)

/-- The empty memory a list is created in. -/
def Heap.empty : Heap := { nodes := [], log := [] }

/-- A sentinel node as `hopscotch_list_new` leaves it (hopscotch.c, lines
212-256). -/
def sentinel_node (max_level : Nat) (val : Elem) (forward : Option Ptr) : hopscotch_node_t :=
  { forward := List.replicate max_level forward, fully_linked := true,
    level := (max_level + 255) % 256, lock := false, marked := false, val := val }

/-- The options after the defaulting of `hopscotch_list_new` (hopscotch.c, lines
187-202). -/
def default_opts (opts : hopscotch_opts_t) : hopscotch_opts_t :=
  { cmp := if opts.cmp.isNone then some _list_default_el_cmp else opts.cmp,
    max_level := if opts.max_level = 0 then HOPSCOTCH_VAL_LIST_DEFAULT_MAX_LEVEL else opts.max_level,
    gc_malloc := if opts.gc_malloc.isNone then some Allocator.GC_malloc else opts.gc_malloc,
    rand_level_p :=
      if opts.rand_level_p = 0 then HOPSCOTCH_VAL_LIST_DEFAULT_RAND_LEVEL_P else opts.rand_level_p }

/-- `hopscotch_list_new` (hopscotch.c, lines 176-269): the returned code, the
content of `list[0]` and of `*opts` after the call, and the memory of the new
list.  `list` is the content of `list[0]` before the call, `opts` is `none` for
a NULL `opts`.  The left sentinel is node 0, the right sentinel node 1. -/
def hopscotch_list_new (env : Env) (list : Option hopscotch_list_t)
    (opts : Option hopscotch_opts_t) :
    hopscotch_res_t × Option hopscotch_list_t × Option hopscotch_opts_t × Heap :=
  match list with
  | some l => (LIST_NEW_INVALID_LIST_PTR, some l, opts, Heap.empty)
  | none =>
    match opts with
    | none => (LIST_NEW_INVALID_OPTS_PTR, none, none, Heap.empty)
    | some o =>
      let opts1 := default_opts o
      let m := opts1.max_level
      let a1 := ext_call env Heap.empty Ev.malloc
      if !a1.1 then (MEM_ALLOC_FAIL, none, some opts1, a1.2)
      else
        let left0 : hopscotch_node_t :=
          { forward := [], fully_linked := false, level := (m + 255) % 256, lock := false,
            marked := false, val := MIN_VAL }
        let a2 := ext_call env { a1.2 with nodes := [left0] } Ev.mutex_init
        if !a2.1 then (PTHREAD_MUTEX_INIT_FAIL, none, some opts1, a2.2)
        else
          let a3 := ext_call env a2.2 Ev.malloc
          if !a3.1 then (MEM_ALLOC_FAIL, none, some opts1, a3.2)
          else
            let right0 : hopscotch_node_t :=
              { forward := [], fully_linked := false, level := (m + 255) % 256, lock := false,
                marked := false, val := MAX_VAL }
            let a4 := ext_call env { a3.2 with nodes := [left0, right0] } Ev.mutex_init
            if !a4.1 then (PTHREAD_MUTEX_INIT_FAIL, none, some opts1, a4.2)
            else
              let a5 := ext_call env a4.2 Ev.malloc
              if !a5.1 then (MEM_ALLOC_FAIL, none, some opts1, a5.2)
              else
                let a6 := ext_call env a5.2 Ev.malloc
                if !a6.1 then (MEM_ALLOC_FAIL, none, some opts1, a6.2)
                else
                  let a7 := ext_call env
                    { a6.2 with nodes := [sentinel_node m MIN_VAL (some 1), sentinel_node m MAX_VAL none] }
                    Ev.malloc
                  if !a7.1 then (MEM_ALLOC_FAIL, none, some opts1, a7.2)
                  else (SUCCESS, some { head := 0, opts := opts1 }, some opts1, a7.2)

/-- The options `test.c` passes: everything left unset. -/
def unset_opts : hopscotch_opts_t :=
  { cmp := none, gc_malloc := none, max_level := 0, rand_level_p := 0 }

/-- The list `hopscotch_list_new` creates from `opts` when no call fails. -/
def new_list (opts : hopscotch_opts_t) : hopscotch_list_t :=
  { head := 0, opts := default_opts opts }

/-- The memory `hopscotch_list_new` creates from `opts` when no call fails. -/
def new_heap (opts : hopscotch_opts_t) : Heap :=
  (hopscotch_list_new no_failure none (some opts)).2.2.2

/-! ## Specification-side definitions -/

/-- Spec wording ("lexicographic byte compare up to the shorter length"): the
first pair of differing bytes among the first `min |a| |b|` bytes. -/
def first_diff : Elem → Elem → Option (Nat × Nat)
  | x :: xs, y :: ys => if x = y then first_diff xs ys else some (x, y)
  | _, _ => none

/-- Spec wording: the sign of the first differing byte, zero when there is
none. -/
def lex_sign (a b : Elem) : Int :=
  match first_diff a b with
  | none => 0
  | some (x, y) => if x < y then -1 else 1

/-! ## The abstract skip list

The nodes reachable from the head, in the order of the level-0 chain, form a
list `L` of pointers; the chain of level `i` consists of the nodes of `L` whose
level is at least `i`.  The functions below describe the Finder on `L`. -/

/-- The level of the node `p` designates (0 when there is none). -/
def Heap.lev (h : Heap) (p : Ptr) : Nat :=
  match h.node p with
  | some n => n.level
  | none => 0

/-- The value of the node `p` designates (empty when there is none). -/
def Heap.valOf (h : Heap) (p : Ptr) : Elem :=
  match h.node p with
  | some n => n.val
  | none => []

/-- The last node of level at least `i` in a list, `d` when there is none. -/
def lastAt (lev : Ptr → Nat) (i : Nat) : Ptr → List Ptr → Ptr
  | d, [] => d
  | d, p :: ps => if i ≤ lev p then lastAt lev i p ps else lastAt lev i d ps

/-- The last node of a list, `d` when it is empty. -/
def lastOr : Ptr → List Ptr → Ptr
  | d, [] => d
  | _, p :: ps => lastOr p ps

/-- The first node of level at least `i` in a list, `d` when there is none. -/
def firstAt (lev : Ptr → Nat) (i : Nat) (d : Ptr) : List Ptr → Ptr
  | [] => d
  | p :: ps => if i ≤ lev p then p else firstAt lev i d ps

/-- How many nodes of `rest` the walk of level `n` leaves behind: it passes the
nodes of level at least `n` as long as they compare below the query (`lt`), and
with them the lower nodes in between. -/
def reach (lt : Ptr → Bool) (lev : Ptr → Nat) (n : Nat) : List Ptr → Nat
  | [] => 0
  | p :: ps =>
    if n ≤ lev p then (if lt p then reach lt lev n ps + 1 else 0)
    else (if reach lt lev n ps = 0 then 0 else reach lt lev n ps + 1)

/-- The Finder's descent through the levels `n - 1, ..., 0` on the abstract
list, from the split `(pre, rest)`: the nodes left behind and those ahead. -/
def descend (lt : Ptr → Bool) (lev : Ptr → Nat) : Nat → List Ptr × List Ptr → List Ptr × List Ptr
  | 0, x => x
  | n + 1, x =>
    descend lt lev n (x.1 ++ x.2.take (reach lt lev n x.2), x.2.drop (reach lt lev n x.2))

/-- The highest level below `n` at which the first node ahead compares equal to
the query (`eqv`), if any: the Finder's `level_found`. -/
def matchLevel (eqv : Ptr → Bool) (lev : Ptr → Nat) (rest : List Ptr) : Nat → Option Nat
  | 0 => none
  | n + 1 => if eqv (firstAt lev n 1 rest) then some n else matchLevel eqv lev rest n

/-- The chain of level `i` runs through the nodes of level at least `i` of the
list, in order, and continues with `e`: every such node points at level `i` to
the first node of level at least `i` after it, or to `e` when there is none. -/
def Chained (h : Heap) (i : Nat) (e : Ptr) : List Ptr → Prop
  | [] => True
  | p :: ps =>
    (i ≤ h.lev p → h.rdFwd p i = some (some (firstAt h.lev i e ps))) ∧ Chained h i e ps

/-- Everything in a node but its forward pointers and its mutex: value, level,
`fully_linked`, `marked`, and the size of the forward array. -/
def Heap.shape (h : Heap) (p : Ptr) : Option (Elem × Nat × Bool × Bool × Nat) :=
  (h.node p).map (fun nd => (nd.val, nd.level, nd.fully_linked, nd.marked, nd.forward.length))

/-- Whether the mutex of node `p` is held. -/
def Heap.held (h : Heap) (p : Ptr) : Bool :=
  match h.node p with
  | some nd => nd.lock
  | none => false

/-- The representation invariant: the heap holds a skip list of `m` levels
whose nodes, in level-0 order between the left sentinel (node 0) and the right
sentinel (node 1), are `L`.  The sentinels carry the MIN and MAX byte strings,
have level `m - 1` and `m` forward pointers, those of the right sentinel being
NULL; every node of `L` is fully linked and unmarked and has one forward
pointer per level; no mutex is held. -/
structure Rep (m : Nat) (h : Heap) (L : List Ptr) : Prop where
  left : h.shape 0 = some (MIN_VAL, m - 1, true, false, m)
  right : h.shape 1 = some (MAX_VAL, m - 1, true, false, m)
  right_null : ∀ i, i < m → h.rdFwd 1 i = some none
  nodup : L.Nodup
  mem : ∀ p ∈ L, 2 ≤ p ∧ ∃ val lvl, lvl < m ∧ h.shape p = some (val, lvl, true, false, lvl + 1)
  free : ∀ p, h.held p = false
  link : ∀ i, i < m → Chained h i 1 (0 :: L)

/-- Whether the value of node `p` compares below the query `v`. -/
def ltq (cmp : Cmp) (h : Heap) (v : Elem) : Ptr → Bool :=
  fun p => decide ((cmp (h.valOf p) v).2 < 0)

/-- Whether the value of node `p` compares equal to the query `v`. -/
def eqq (cmp : Cmp) (h : Heap) (v : Elem) : Ptr → Bool :=
  fun p => decide ((cmp (h.valOf p) v).2 = 0)

/-- The split of the abstract list `L` at which the Finder stops for the query
`v`: the nodes it leaves behind and the nodes ahead. -/
def split_at (cmp : Cmp) (h : Heap) (v : Elem) (m : Nat) (L : List Ptr) : List Ptr × List Ptr :=
  descend (ltq cmp h v) h.lev m ([], L)

/-- The list handle designates the left sentinel and carries the comparator
`cmp`, `m` levels and an allocator. -/
structure Uses (list : hopscotch_list_t) (cmp : Cmp) (m : Nat) : Prop where
  head : list.head = 0
  cmp : list.opts.cmp = some cmp
  max_level : list.opts.max_level = m
  malloc : list.opts.gc_malloc.isSome = true

/-- The heap with every mutex released and the record of external calls
dropped. -/
def Heap.calm (h : Heap) : Heap :=
  { nodes := h.nodes.map (fun nd => { nd with lock := false }), log := [] }

/-! ## Calls and runs -/

/-- A call on a list: `rnd` holds the values `genrand_real2()` returns during
an add. -/
inductive Op where
  | add (v : Elem) (rnd : Nat → ℚ)
  | contains (v : Elem)
  | remove (v : Elem)

/-- The element a call is about. -/
def Op.elem : Op → Elem
  | Op.add v _ => v
  | Op.contains v => v
  | Op.remove v => v

/-- One call, made by a single thread, no external call failing: the returned
code, the boolean written, and the heap after. -/
def step (list : hopscotch_list_t) (h : Heap) : Op → Option (hopscotch_res_t × Option Bool × Heap)
  | Op.add v rnd => hopscotch_list_add_el no_failure rnd list h v
  | Op.contains v => (hopscotch_list_contains_el list h v).map (fun r => (r.1, some r.2, h))
  | Op.remove v => hopscotch_list_del_el no_failure list h v

/-- A sequence of calls: the results in order and the final heap; no result as
soon as one call has none. -/
def run (list : hopscotch_list_t) : Heap → List Op →
    Option (List (hopscotch_res_t × Option Bool) × Heap)
  | h, [] => some ([], h)
  | h, op :: ops =>
    match step list h op with
    | none => none
    | some (r, b, h1) =>
      match run list h1 ops with
      | none => none
      | some (rs, h2) => some ((r, b) :: rs, h2)

/-- The level drawn for an add lies in `[0, max_level - 1]`. -/
def level_ok (list : hopscotch_list_t) : Op → Prop
  | Op.add _ rnd =>
    _list_rand_level rnd list.opts.rand_level_p list.opts.max_level < list.opts.max_level
  | _ => True

/-- The memory of the list of `test.c` after `add("h")` with level 0 drawn. -/
def heap_after_add : Heap :=
  match hopscotch_list_add_el no_failure (fun _ => 1) (new_list unset_opts) (new_heap unset_opts)
    [104, 0] with
  | some (_, _, h) => h
  | none => Heap.empty

/-- A comparator that finds any two elements equal (it does not honour the
sentinel contract). -/
def zero_cmp : Cmp := fun _ _ => (SUCCESS, 0)

/-- Options that carry `zero_cmp` and leave everything else unset. -/
def zero_cmp_opts : hopscotch_opts_t :=
  { cmp := some zero_cmp, gc_malloc := none, max_level := 0, rand_level_p := 0 }

/-- The memory of the list of `test.c` after an add of the MIN byte string with
level 0 drawn. -/
def heap_after_add_min : Heap :=
  match hopscotch_list_add_el no_failure (fun _ => 1) (new_list unset_opts) (new_heap unset_opts)
    MIN_VAL with
  | some (_, _, h) => h
  | none => Heap.empty

/-- The memory of the list of `test.c` after `add("h")` and `add("x")`, level 0
drawn for both. -/
def heap_after_two : Heap :=
  match hopscotch_list_add_el no_failure (fun _ => 1) (new_list unset_opts) heap_after_add
    [120, 0] with
  | some (_, _, h) => h
  | none => Heap.empty

/-! ## The comparator contract, the sorted list and the mathematical set -/

/-- The contract of a comparator on the set `U` of the elements in use: it
returns SUCCESS on them (and with the MAX byte string as first operand), it is
a strict total order on `U` whose zero means byte-identical, and it ranks the
right sentinel's value above every element of `U`. -/
structure OrderedOn (cmp : Cmp) (U : Elem → Prop) : Prop where
  ok : ∀ a b, U a ∨ a = MAX_VAL → U b → (cmp a b).1 = SUCCESS
  zero : ∀ a b, U a → U b → ((cmp a b).2 = 0 ↔ a = b)
  asymm : ∀ a b, U a → U b → ((cmp a b).2 < 0 ↔ 0 < (cmp b a).2)
  trans : ∀ a b c, U a → U b → U c → (cmp a b).2 < 0 → (cmp b c).2 < 0 → (cmp a c).2 < 0
  max : ∀ b, U b → 0 < (cmp MAX_VAL b).2

/-- The comparator ranks the sentinels' values as strict extremes of `U` when
they stand on the side the chains compare them: the MIN byte string below
every element and below the MAX byte string, every element below the MAX byte
string. -/
structure Extremes (cmp : Cmp) (U : Elem → Prop) : Prop where
  min : ∀ b, U b → (cmp MIN_VAL b).2 < 0
  max : ∀ a, U a → (cmp a MAX_VAL).2 < 0
  ends : (cmp MIN_VAL MAX_VAL).2 < 0

/-- The values of the nodes of `L` lie in `U` and ascend strictly under the
comparator. -/
def Sorted (cmp : Cmp) (U : Elem → Prop) (h : Heap) (L : List Ptr) : Prop :=
  (∀ p ∈ L, U (h.valOf p)) ∧ L.Pairwise (fun p q => (cmp (h.valOf p) (h.valOf q)).2 < 0)

/-- One call on a mathematical set: the boolean and the set after.  `add(v)`
is true iff `v` was absent and `v` is then present; `contains(v)` is true iff
`v` is present; `remove(v)` is true iff `v` was present and `v` is then
absent. -/
def set_step (S : Finset Elem) : Op → Bool × Finset Elem
  | Op.add v _ => (decide (v ∉ S), insert v S)
  | Op.contains v => (decide (v ∈ S), S)
  | Op.remove v => (decide (v ∈ S), S.erase v)

/-- The booleans a mathematical set gives for a sequence of calls. -/
def set_run : Finset Elem → List Op → List Bool
  | _, [] => []
  | S, op :: ops => (set_step S op).1 :: set_run (set_step S op).2 ops

/-- The mathematical set after a sequence of calls. -/
def set_after : Finset Elem → List Op → Finset Elem
  | S, [] => S
  | S, op :: ops => set_after (set_step S op).2 ops

/-- Whether `x` is present after one more call of a history: an `add(x)` that
reported true makes it present, a `remove(x)` that reported true makes it
absent, every other call leaves it as it was. -/
def present_step (x : Elem) (cur : Bool) (e : Op × Option Bool) : Bool :=
  match e with
  | (Op.add v _, some true) => if v = x then true else cur
  | (Op.remove v, some true) => if v = x then false else cur
  | _ => cur

/-- Whether `x` is present after a history of calls with the booleans they
reported: a previous `add(x)` reported true and no `remove(x)` reported true
since. -/
def present (x : Elem) (hist : List (Op × Option Bool)) : Bool :=
  hist.foldl (present_step x) false

/-- The chain of level `i` from node `p`: the nodes met by following
`forward[i]` up to the NULL pointer; no result on an invalid read or when the
`fuel` is used up before NULL is met. -/
def chain (h : Heap) (i : Nat) : Nat → Ptr → Option (List Ptr)
  | 0, _ => none
  | fuel + 1, p =>
    match h.rdFwd p i with
    | none => none
    | some none => some [p]
    | some (some q) => (chain h i fuel q).map (fun ps => p :: ps)

/-- The set of the two elements "h" and "x", passed with their terminator. -/
def test_set : Elem → Prop := fun a => a = [104, 0] ∨ a = [120, 0]

/-- The set of the two elements "1" and "2", passed with their terminator. -/
def digit_set : Elem → Prop := fun a => a = [49, 0] ∨ a = [50, 0]

/-! ## Result codes, failure injection and observations of a call -/

/-- The integer value of a result code (the enumeration of hopscotch.h, lines
100-109, starts at `HOPSCOTCH_RES__SUCCESS = 0`). -/
def hopscotch_res_t.code : hopscotch_res_t → Nat
  | SUCCESS => 0
  | LIST__FIND_EL_VAL_NOT_FOUND => 1
  | LIST_NEW_INVALID_LIST_PTR => 2
  | LIST_NEW_INVALID_OPTS_PTR => 3
  | MEM_ALLOC_FAIL => 4
  | PTHREAD_MUTEX_INIT_FAIL => 5
  | PTHREAD_MUTEX_LOCK_FAIL => 6
  | PTHREAD_MUTEX_UNLOCK_FAIL => 7

/-- The environment in which exactly the `k`-th external call fails. -/
def fail_at (k : Nat) : Env := fun n => n == k

/-- The external calls made between the heap `h` and the later heap `h1`, in the
order they were made. -/
def call_log (h h1 : Heap) : List Ev :=
  (h1.log.take (h1.log.length - h.log.length)).reverse

/-- The node `hopscotch_list_del_el` selects as `node_to_del` (hopscotch.c,
lines 425-445): `succ_nodes[level_found]` when the Finder's code is not
`FIND_EL_VAL_NOT_FOUND` and the eligibility check passed, no node otherwise. -/
def del_victim (list : hopscotch_list_t) (h : Heap) (val : Elem) : Option Ptr :=
  match _list_find_el list h val with
  | none => none
  | some (_tmp_001, fs) =>
    let _can_delete : Option Bool :=
      match fs.level_found with
      | none => none
      | some level_found =>
        ((fs.succ_nodes level_found).bind h.node).map (fun el => _list_can_del_el el level_found)
    match _can_delete with
    | none => none
    | some can =>
      if _tmp_001 ≠ LIST__FIND_EL_VAL_NOT_FOUND ∧ can = true then
        fs.level_found.bind fs.succ_nodes
      else none

/-- Samples of `genrand_real2()` of which exactly the first `k` fall below
every positive `p`: the level drawn is `k` (for `k` up to `max_level + 1`). -/
def draws (k : Nat) : Nat → ℚ := fun n => if n < k then 0 else 1

/-- A caller-supplied comparator that fails, with the code of a failed
allocation, whenever its first operand is the element "b", and is the default
comparator otherwise. -/
def failing_cmp : Cmp := fun a b =>
  if a = [98, 0] then (MEM_ALLOC_FAIL, 0) else _list_default_el_cmp a b

/-- Options that carry `failing_cmp` and leave everything else unset. -/
def failing_cmp_opts : hopscotch_opts_t :=
  { cmp := some failing_cmp, gc_malloc := none, max_level := 0, rand_level_p := 0 }

/-- The heap a run reaches, the empty memory when it has no result. -/
def heap_of (r : Option (List (hopscotch_res_t × Option Bool) × Heap)) : Heap :=
  match r with
  | some (_, h) => h
  | none => Heap.empty

/-- The list with `failing_cmp` after `add("v")` with level 1 drawn and
`add("b")` with level 0 drawn: "b" (node 3) precedes "v" (node 2) at level 0. -/
def failing_heap : Heap :=
  heap_of (run (new_list failing_cmp_opts) (new_heap failing_cmp_opts)
    [Op.add [118, 0] (draws 1), Op.add [98, 0] (draws 0)])

/-- The list of `test.c` after `add("1")` with level 1 drawn (node 2). -/
def leveled_heap : Heap :=
  heap_of (run (new_list unset_opts) (new_heap unset_opts) [Op.add [49, 0] (draws 1)])

/-- The memory of the list of `test.c` after `add("h")`, `add("x")` (level 0
drawn for both) and `remove("h")`. -/
def heap_after_remove : Heap :=
  match hopscotch_list_del_el no_failure (new_list unset_opts) heap_after_two [104, 0] with
  | some (_, _, h) => h
  | none => Heap.empty

/-- The last node of a chain whose value compares below the query `v`, `d`
when there is none. -/
def lastBelow (cmp : Cmp) (h : Heap) (v : Elem) : Ptr → List Ptr → Ptr
  | d, [] => d
  | d, p :: ps =>
    if (cmp (h.valOf p) v).2 < 0 then lastBelow cmp h v p ps else lastBelow cmp h v d ps

/-- A list of two levels with the default comparator. -/
def crossed_list : hopscotch_list_t :=
  { head := 0,
    opts := { cmp := some _list_default_el_cmp, gc_malloc := some Allocator.GC_malloc,
              max_level := 2, rand_level_p := 1 / 2 } }

/-- A memory for `crossed_list` in which the chain of level 1 runs through the
node "5" (node 2) and the chain of level 0 through the node "3" (node 3): both
chains ascend and end at the right sentinel, but node 2 is not on the chain of
level 0. -/
def crossed_heap : Heap :=
  { nodes :=
      [{ forward := [some 3, some 2], fully_linked := true, level := 1, lock := false,
         marked := false, val := MIN_VAL },
       { forward := [none, none], fully_linked := true, level := 1, lock := false,
         marked := false, val := MAX_VAL },
       { forward := [some 1, some 1], fully_linked := true, level := 1, lock := false,
         marked := false, val := [53, 0] },
       { forward := [some 1], fully_linked := true, level := 0, lock := false,
         marked := false, val := [51, 0] }],
    log := [] }

/-! ## Interleaved executions

A call of `hopscotch_list_add_el` cut at the points where another thread can
run in between: after the locking loop, and before each iteration of the
releasing loop.  The memory is shared; the local variables of a call are kept
in its frame.  A mutex has no owner here: `pthread_mutex_unlock` releases it
whoever locked it, as a default glibc mutex does. -/

/-- The local variables of a call of `hopscotch_list_add_el` whose locking loop
ended with `valid` true. -/
structure AddFrame where
  top_level : Nat
  pred_nodes : NodeArr
  succ_nodes : NodeArr
  highest_level_locked : Int

/-- `hopscotch_list_add_el` up to the end of its locking loop (hopscotch.c,
lines 271-331): the call has returned (code, `added`, heap), or it goes on with
the frame and the heap given. -/
def add_lock_phase (env : Env) (rnd : Nat → ℚ) (list : hopscotch_list_t) (h : Heap)
    (val : Elem) : Option ((hopscotch_res_t × Option Bool × Heap) ⊕ (AddFrame × Heap)) :=
  let top_level := _list_rand_level rnd list.opts.rand_level_p list.opts.max_level
  match _list_find_el list h val with
  | none => none
  | some (_tmp_001, fs) =>
    if _tmp_001 ≠ LIST__FIND_EL_VAL_NOT_FOUND then
      match (fs.level_found.bind fs.succ_nodes).bind h.node with
      | none => none
      | some node_found =>
        if !node_found.marked then
          if node_found.fully_linked then some (Sum.inl (SUCCESS, some false, h)) else none
        else none
    else
      match add_lock_loop env fs.pred_nodes fs.succ_nodes (top_level + 1) 0 none (-1) h with
      | none => none
      | some (LockOut.lock_fail h1) => some (Sum.inl (PTHREAD_MUTEX_LOCK_FAIL, none, h1))
      | some (LockOut.finished false highest_level_locked h1) =>
        match unlock_loop env fs.pred_nodes (highest_level_locked + 1).toNat 0 h1 with
        | some (false, h2) => some (Sum.inl (PTHREAD_MUTEX_UNLOCK_FAIL, none, h2))
        | _ => none
      | some (LockOut.finished true highest_level_locked h1) =>
        some (Sum.inr ({ top_level := top_level, pred_nodes := fs.pred_nodes,
                         succ_nodes := fs.succ_nodes,
                         highest_level_locked := highest_level_locked }, h1))

/-- `hopscotch_list_add_el` from the allocation of the new node to
`added[0] = true` (hopscotch.c, lines 332-355): the call has returned, or it
goes on to its releasing loop with the heap given. -/
def add_link_phase (env : Env) (list : hopscotch_list_t) (fr : AddFrame) (h1 : Heap)
    (val : Elem) : Option ((hopscotch_res_t × Option Bool × Heap) ⊕ Heap) :=
  match list.opts.gc_malloc with
  | none => none
  | some _ =>
    let a1 := ext_call env h1 Ev.malloc
    if !a1.1 then some (Sum.inl (MEM_ALLOC_FAIL, none, a1.2))
    else
      let new_node : Ptr := a1.2.nodes.length
      let nn : hopscotch_node_t :=
        { forward := [], fully_linked := false, level := fr.top_level % 256, lock := false,
          marked := false, val := val }
      let a2 := ext_call env { a1.2 with nodes := a1.2.nodes ++ [nn] } Ev.mutex_init
      if !a2.1 then some (Sum.inl (PTHREAD_MUTEX_INIT_FAIL, none, a2.2))
      else
        let a3 := ext_call env a2.2 Ev.malloc
        if !a3.1 then some (Sum.inl (MEM_ALLOC_FAIL, none, a3.2))
        else
          let h4 := a3.2.setNode new_node
            { nn with forward := List.replicate (fr.top_level + 1) none }
          match add_link_loop fr.pred_nodes fr.succ_nodes new_node (fr.top_level + 1) 0 h4 with
          | none => none
          | some h5 =>
            match h5.node new_node with
            | none => none
            | some n5 => some (Sum.inr (h5.setNode new_node { n5 with fully_linked := true }))

/-- The releasing loop of a successful `hopscotch_list_add_el` (hopscotch.c,
lines 356-366), `n` iterations of it from level `_b`, and the return when the
loop is over. -/
def add_release_phase (env : Env) (fr : AddFrame) (n _b : Nat) (h : Heap) :
    Option (hopscotch_res_t × Option Bool × Heap) :=
  match unlock_loop env fr.pred_nodes n _b h with
  | none => none
  | some (false, h7) => some (PTHREAD_MUTEX_UNLOCK_FAIL, some true, h7)
  | some (true, h7) => some (SUCCESS, some true, h7)

/-- The three phases run one after the other, without another thread in
between. -/
def add_phases (env : Env) (rnd : Nat → ℚ) (list : hopscotch_list_t) (h : Heap) (val : Elem) :
    Option (hopscotch_res_t × Option Bool × Heap) :=
  match add_lock_phase env rnd list h val with
  | none => none
  | some (Sum.inl r) => some r
  | some (Sum.inr (fr, h1)) =>
    match add_link_phase env list fr h1 val with
    | none => none
    | some (Sum.inl r) => some r
    | some (Sum.inr h6) => add_release_phase env fr (fr.highest_level_locked + 1).toNat 0 h6

/-- An execution of three calls of `hopscotch_list_add_el` by different threads
on `leveled_heap` (which holds "1", level 1, node 2), then two calls of
`hopscotch_list_contains_el` made after the three have returned:

* call A, `add("2")` with level 2 drawn, runs up to and including the first
  iteration of its releasing loop, which unlocks node 2;
* call B, `add("15")` with level 0 drawn, runs its locking loop and locks
  node 2;
* call A runs the rest of its releasing loop, whose second iteration unlocks
  node 2 again, and returns;
* call C, `add("17")` with level 0 drawn, runs from start to return;
* call B runs to its return.

The results of A, B, C, `contains("17")` and `contains("15")`, in this order. -/
def lost_insert : Option (List (hopscotch_res_t × Option Bool)) := do
  let list := new_list unset_opts
  let Sum.inr (frA, h1) ← add_lock_phase no_failure (draws 2) list leveled_heap [50, 0] | none
  let Sum.inr h2 ← add_link_phase no_failure list frA h1 [50, 0] | none
  let (true, h3) ← unlock_loop no_failure frA.pred_nodes 1 0 h2 | none
  let Sum.inr (frB, h4) ← add_lock_phase no_failure (draws 0) list h3 [49, 53, 0] | none
  let (resA, addedA, h5) ←
    add_release_phase no_failure frA ((frA.highest_level_locked + 1).toNat - 1) 1 h4
  let (resC, addedC, h6) ← hopscotch_list_add_el no_failure (draws 0) list h5 [49, 55, 0]
  let Sum.inr h7 ← add_link_phase no_failure list frB h6 [49, 53, 0] | none
  let (resB, addedB, h8) ←
    add_release_phase no_failure frB (frB.highest_level_locked + 1).toNat 0 h7
  let (res17, found17) ← hopscotch_list_contains_el list h8 [49, 55, 0]
  let (res15, found15) ← hopscotch_list_contains_el list h8 [49, 53, 0]
  pure [(resA, addedA), (resB, addedB), (resC, addedC), (res17, some found17),
    (res15, some found15)]

/-- Line 436 of hopscotch.c, `_list_can_del_el(&_can_delete,
succ_nodes[(int) level_found], (uint8_t) level_found)`, which
`hopscotch_list_del_el` runs right after the Finder and before it looks at the
Finder's code: the index `level_found` used and the entry of `succ_nodes` read
(`none` when the Finder stored nothing there).  `garbage` is the content the
uninitialised `uint8_t _level_found` has when the Finder did not write it. -/
def del_eligibility_read (garbage : Nat) (list : hopscotch_list_t) (h : Heap) (val : Elem) :
    Option (Nat × Option Ptr) :=
  match _list_find_el list h val with
  | none => none
  | some (_, fs) =>
    let level_found :=
      match fs.level_found with
      | some l => l
      | none => garbage % 256
    some (level_found, fs.succ_nodes level_found)

/-- Two calls that are the same call up to the levels drawn for a new node. -/
def same_call : Op → Op → Prop
  | Op.add v _, Op.add w _ => v = w
  | Op.contains v, Op.contains w => v = w
  | Op.remove v, Op.remove w => v = w
  | _, _ => False

/-! # Theorems -/

/-! ## The default comparator and the level generator -/

theorem memcmp_self (a : Elem) (n : Nat) : memcmp a a n = 0 := by
  induction a generalizing n with
  | nil => cases n <;> simp [memcmp]
  | cons x xs ih => cases n <;> simp [memcmp, ih]

theorem memcmp_eq_zero_iff (a b : Elem) (n : Nat) (ha : n ≤ a.length) (hb : n ≤ b.length) :
    memcmp a b n = 0 ↔ a.take n = b.take n := by
  induction n generalizing a b with
  | zero => simp [memcmp]
  | succ n ih =>
    cases a with
    | nil => simp at ha
    | cons x xs =>
      cases b with
      | nil => simp at hb
      | cons y ys =>
        simp only [List.length_cons, Nat.add_le_add_iff_right] at ha hb
        by_cases hxy : x = y
        · simp [memcmp, hxy, ih xs ys ha hb]
        · have : (x : Int) - (y : Int) ≠ 0 := by omega
          simp [memcmp, hxy, this]

theorem is_sentinel_iff (a s : Elem) :
    (a.length = s.length ∧ memcmp a s s.length = 0) ↔ a = s := by
  constructor
  · rintro ⟨hl, hm⟩
    have := (memcmp_eq_zero_iff a s s.length (by omega) (le_refl _)).1 hm
    rw [← hl, List.take_length] at this
    rw [this, hl, List.take_length]
  · rintro rfl
    exact ⟨rfl, memcmp_self _ _⟩

theorem default_cmp_MIN (x : Elem) : _list_default_el_cmp MIN_VAL x = (SUCCESS, -1) := by
  have h := (is_sentinel_iff MIN_VAL MIN_VAL).2 rfl
  simp only [_list_default_el_cmp, h, and_self, if_true]

theorem default_cmp_MAX (x : Elem) : _list_default_el_cmp MAX_VAL x = (SUCCESS, 1) := by
  have h := (is_sentinel_iff MAX_VAL MAX_VAL).2 rfl
  have h2 : ¬ (MAX_VAL.length = MIN_VAL.length ∧ memcmp MAX_VAL MIN_VAL MIN_VAL.length = 0) := by
    rw [is_sentinel_iff]; decide
  simp only [_list_default_el_cmp, h, h2, and_self, if_true, if_false]

theorem default_cmp_plain (a b : Elem) (h1 : a ≠ MIN_VAL) (h2 : a ≠ MAX_VAL) :
    _list_default_el_cmp a b = (SUCCESS, memcmp a b (min a.length b.length)) := by
  have e1 : ¬ (a.length = MIN_VAL.length ∧ memcmp a MIN_VAL MIN_VAL.length = 0) := by
    rw [is_sentinel_iff]; exact h1
  have e2 : ¬ (a.length = MAX_VAL.length ∧ memcmp a MAX_VAL MAX_VAL.length = 0) := by
    rw [is_sentinel_iff]; exact h2
  simp only [_list_default_el_cmp, e1, e2, if_false]
  congr 2
  by_cases h : a.length < b.length
  · simp [h, Nat.min_eq_left (le_of_lt h)]
  · simp [h, Nat.min_eq_right (not_lt.1 h)]

theorem default_cmp_ok (a b : Elem) : (_list_default_el_cmp a b).1 = SUCCESS := by
  unfold _list_default_el_cmp
  split_ifs <;> rfl

theorem rand_level_loop_all_below (rnd : Nat → ℚ) (p : ℚ) (m : Nat) (hr : ∀ k, rnd k < p)
    (n l : Nat) : rand_level_loop rnd p m n l =
      if l + n ≤ m + 1 then l + n else if l ≤ m + 1 then m + 1 else l := by
  induction n generalizing l with
  | zero => simp only [rand_level_loop]; split_ifs <;> omega
  | succ n ih =>
    simp only [rand_level_loop, hr, true_and]
    by_cases hl : l ≤ m
    · rw [if_pos hl, ih]
      by_cases h2 : l + (n + 1) ≤ m + 1
      · rw [if_pos h2, if_pos (by omega)]; omega
      · rw [if_neg h2, if_neg (by omega), if_pos (by omega), if_pos (by omega)]
    · rw [if_neg hl, if_neg (by omega)]; split_ifs <;> omega

theorem rand_level_loop_le (rnd : Nat → ℚ) (p : ℚ) (m : Nat) (n l : Nat) (hl : l ≤ m + 1) :
    rand_level_loop rnd p m n l ≤ m + 1 := by
  induction n generalizing l with
  | zero => simpa [rand_level_loop] using hl
  | succ n ih =>
    simp only [rand_level_loop]
    split_ifs with h
    · exact ih _ (by omega)
    · exact hl

theorem memcmp_sign (a b : Elem) :
    Int.sign (memcmp a b (min a.length b.length)) = lex_sign a b := by
  induction a generalizing b with
  | nil => simp [memcmp, lex_sign, first_diff]
  | cons x xs ih =>
    cases b with
    | nil => simp [memcmp, lex_sign, first_diff]
    | cons y ys =>
      have hm : min (x :: xs).length (y :: ys).length = min xs.length ys.length + 1 := by
        simp [Nat.succ_min_succ]
      rw [hm]
      by_cases hxy : x = y
      · have := ih ys
        simp only [memcmp, hxy, if_true, lex_sign, first_diff] at this ⊢
        exact this
      · simp only [memcmp, hxy, if_false, lex_sign, first_diff]
        by_cases hlt : x < y
        · rw [if_pos hlt]; exact Int.sign_eq_neg_one_of_neg (by omega)
        · rw [if_neg hlt]; exact Int.sign_eq_one_of_pos (by omega)

theorem memcmp_zero_iff_related (a b : Elem) :
    memcmp a b (min a.length b.length) = 0 ↔ (a <+: b ∨ b <+: a) := by
  rw [memcmp_eq_zero_iff a b _ (Nat.min_le_left _ _) (Nat.min_le_right _ _)]
  constructor
  · intro h
    rcases Nat.le_total a.length b.length with hl | hl
    · left
      rw [Nat.min_eq_left hl, List.take_length] at h
      rw [h]; exact List.take_prefix _ _
    · right
      rw [Nat.min_eq_right hl, List.take_length] at h
      rw [← h]; exact List.take_prefix _ _
  · rintro (h | h)
    · have hl := h.length_le
      rw [Nat.min_eq_left hl, List.take_length]
      exact (List.prefix_iff_eq_take.1 h)
    · have hl := h.length_le
      rw [Nat.min_eq_right hl, List.take_length]
      exact (List.prefix_iff_eq_take.1 h).symm

/-- C7 (level generator range), evaluated where the code leaves the range: with
`max_level = 16`, `p = 1/2` and every sample equal to 0 (below `p`), the level
`_list_rand_level` writes is 17, outside `[0, max_level - 1] = [0, 15]`. -/
theorem C7_rand_level_leaves_range :
    _list_rand_level (fun _ => 0) (1 / 2) 16 = 17 ∧
      ¬ (_list_rand_level (fun _ => 0) (1 / 2) 16 ≤ 16 - 1) := by
  have h : _list_rand_level (fun _ => 0) (1 / 2) 16 = 17 := by
    unfold _list_rand_level
    rw [rand_level_loop_all_below _ _ _ (by intro k; norm_num)]
    norm_num
  rw [h]
  exact ⟨rfl, by decide⟩

/-- C8 as stated fails: the one-byte string `a` (97) and the two-byte string
`ab` (97, 98) are no sentinels and agree on their first `min |a| |b| = 1` bytes,
`|a| < |b|`, and yet `_list_default_el_cmp` writes 0, not a negative sign. -/
theorem C8_shorter_is_not_smaller :
    ([97] : Elem) ≠ MIN_VAL ∧ ([97] : Elem) ≠ MAX_VAL ∧
      ([97] : Elem).length < ([97, 98] : Elem).length ∧
      first_diff [97] [97, 98] = none ∧
      _list_default_el_cmp [97] [97, 98] = (SUCCESS, 0) := by
  decide

/-- C8, amended: for all byte strings `a` and `b`, `a` not being a sentinel byte
string, `_list_default_el_cmp(a, b)` returns SUCCESS and the sign it writes is
the sign of the first differing byte among the first `min |a| |b|` bytes; when
those bytes are all equal it writes zero whatever the lengths, so the result is
zero exactly when one of `a`, `b` is a byte-prefix of the other. -/
theorem C8_default_cmp_lexicographic (a b : Elem) (h1 : a ≠ MIN_VAL) (h2 : a ≠ MAX_VAL) :
    (_list_default_el_cmp a b).1 = SUCCESS ∧
      Int.sign (_list_default_el_cmp a b).2 = lex_sign a b ∧
      ((_list_default_el_cmp a b).2 = 0 ↔ (a <+: b ∨ b <+: a)) := by
  rw [default_cmp_plain a b h1 h2]
  exact ⟨rfl, memcmp_sign a b, memcmp_zero_iff_related a b⟩

theorem C8_default_cmp_lexicographic_witness :
    (_list_default_el_cmp [104, 111] [104, 101]).1 = SUCCESS ∧
      Int.sign (_list_default_el_cmp [104, 111] [104, 101]).2 = lex_sign [104, 111] [104, 101] ∧
      ((_list_default_el_cmp [104, 111] [104, 101]).2 = 0 ↔
        (([104, 111] : Elem) <+: [104, 101] ∨ ([104, 101] : Elem) <+: [104, 111])) :=
  C8_default_cmp_lexicographic [104, 111] [104, 101] (by decide) (by decide)

/-- C9 as stated fails with the sentinel as second operand: the one-byte user
element `!` (33) is no sentinel, yet `_list_default_el_cmp(x, MIN)` writes a
negative value, and for the one-byte element `z` (122)
`_list_default_el_cmp(x, MAX)` writes a positive one. -/
theorem C9_sentinel_as_second_operand :
    ([33] : Elem) ≠ MIN_VAL ∧ ([33] : Elem) ≠ MAX_VAL ∧
      ¬ (0 < (_list_default_el_cmp [33] MIN_VAL).2) ∧
      ([122] : Elem) ≠ MIN_VAL ∧ ([122] : Elem) ≠ MAX_VAL ∧
      ¬ ((_list_default_el_cmp [122] MAX_VAL).2 < 0) := by
  decide

/-- C9, amended: the default comparator treats a sentinel as a strict extreme
when it is the first operand (the element already in the list): for every byte
string `x`, `_list_default_el_cmp(MIN, x)` returns SUCCESS and writes -1, and
`_list_default_el_cmp(MAX, x)` returns SUCCESS and writes 1.  With the sentinel
as second operand and `x` no sentinel byte string, the result is the plain
comparison of the first `min |x| 16` bytes. -/
theorem C9_sentinel_as_first_operand (x : Elem) :
    _list_default_el_cmp MIN_VAL x = (SUCCESS, -1) ∧
      _list_default_el_cmp MAX_VAL x = (SUCCESS, 1) ∧
      (x ≠ MIN_VAL ∧ x ≠ MAX_VAL →
        _list_default_el_cmp x MIN_VAL = (SUCCESS, memcmp x MIN_VAL (min x.length 16)) ∧
        _list_default_el_cmp x MAX_VAL = (SUCCESS, memcmp x MAX_VAL (min x.length 16))) :=
  ⟨default_cmp_MIN x, default_cmp_MAX x, fun h =>
    ⟨default_cmp_plain x MIN_VAL h.1 h.2, default_cmp_plain x MAX_VAL h.1 h.2⟩⟩

theorem C9_sentinel_as_first_operand_witness :
    _list_default_el_cmp MIN_VAL [33] = (SUCCESS, -1) ∧
      _list_default_el_cmp MAX_VAL [33] = (SUCCESS, 1) ∧
      (([33] : Elem) ≠ MIN_VAL ∧ ([33] : Elem) ≠ MAX_VAL →
        _list_default_el_cmp [33] MIN_VAL = (SUCCESS, memcmp [33] MIN_VAL (min ([33] : Elem).length 16)) ∧
        _list_default_el_cmp [33] MAX_VAL = (SUCCESS, memcmp [33] MAX_VAL (min ([33] : Elem).length 16))) :=
  C9_sentinel_as_first_operand [33]

/-! ## The abstract skip list -/

section abstract_list
variable (lt : Ptr → Bool) (lev : Ptr → Nat)

theorem firstAt_append_low (i : Nat) (d : Ptr) (A B : List Ptr) (hA : ∀ p ∈ A, lev p < i) :
    firstAt lev i d (A ++ B) = firstAt lev i d B := by
  induction A with
  | nil => rfl
  | cons p ps ih =>
    have hp : ¬ i ≤ lev p := by have := hA p (by simp); omega
    simp only [List.cons_append, firstAt, hp, if_false]
    exact ih (fun q hq => hA q (by simp [hq]))

theorem lastAt_append (i : Nat) (d : Ptr) (A B : List Ptr) :
    lastAt lev i d (A ++ B) = lastAt lev i (lastAt lev i d A) B := by
  induction A generalizing d with
  | nil => rfl
  | cons p ps ih =>
    simp only [List.cons_append, lastAt]
    split_ifs <;> exact ih _

theorem lastAt_low (i : Nat) (d : Ptr) (A : List Ptr) (hA : ∀ p ∈ A, lev p < i) :
    lastAt lev i d A = d := by
  induction A generalizing d with
  | nil => rfl
  | cons p ps ih =>
    have hp : ¬ i ≤ lev p := by have := hA p (by simp); omega
    simp only [lastAt, hp, if_false]
    exact ih d (fun q hq => hA q (by simp [hq]))

theorem reach_le (n : Nat) (rest : List Ptr) : reach lt lev n rest ≤ rest.length := by
  induction rest with
  | nil => simp [reach]
  | cons p ps ih =>
    simp only [reach, List.length_cons]
    split_ifs <;> omega

/-- Nodes left behind by the walk of level `n'` are below level `n` when the
first node of level `n` ahead does not compare below the query. -/
theorem reach_take_low (n' n : Nat) (hn : n' ≤ n) (rest : List Ptr)
    (hstop : lt (firstAt lev n 1 rest) = false) :
    ∀ p ∈ rest.take (reach lt lev n' rest), lev p < n := by
  induction rest with
  | nil => simp [reach]
  | cons p ps ih =>
    intro q hq
    by_cases hp : n ≤ lev p
    · have h1 : n' ≤ lev p := le_trans hn hp
      have h2 : lt p = false := by simpa [firstAt, hp] using hstop
      simp [reach, h1, h2] at hq
    · have hstop' : lt (firstAt lev n 1 ps) = false := by simpa [firstAt, hp] using hstop
      have hsub : q = p ∨ q ∈ ps.take (reach lt lev n' ps) := by
        simp only [reach] at hq
        split_ifs at hq <;> simp_all
      rcases hsub with rfl | hq'
      · omega
      · exact ih hstop' q hq'


end abstract_list
section abstract_list2
variable (lt : Ptr → Bool) (lev : Ptr → Nat)

theorem firstAt_mem_or (i : Nat) (d : Ptr) (A : List Ptr) :
    (firstAt lev i d A ∈ A ∧ i ≤ lev (firstAt lev i d A)) ∨
      ((∀ p ∈ A, lev p < i) ∧ firstAt lev i d A = d) := by
  induction A with
  | nil => right; simp [firstAt]
  | cons p ps ih =>
    by_cases hp : i ≤ lev p
    · left; simp [firstAt, hp]
    · rcases ih with ⟨h1, h2⟩ | ⟨h1, h2⟩
      · left; simp [firstAt, hp, h1, h2]
      · right
        refine ⟨?_, by simp [firstAt, hp, h2]⟩
        intro q hq
        rcases List.mem_cons.1 hq with rfl | hq
        · omega
        · exact h1 q hq

theorem lastAt_mem_or (i : Nat) (d : Ptr) (A : List Ptr) :
    (lastAt lev i d A ∈ A ∧ i ≤ lev (lastAt lev i d A)) ∨
      ((∀ p ∈ A, lev p < i) ∧ lastAt lev i d A = d) := by
  induction A generalizing d with
  | nil => right; simp [lastAt]
  | cons p ps ih =>
    by_cases hp : i ≤ lev p
    · left
      simp only [lastAt, hp, if_true]
      rcases ih p with ⟨h1, h2⟩ | ⟨_, h2⟩
      · exact ⟨List.mem_cons_of_mem _ h1, h2⟩
      · rw [h2]; exact ⟨List.mem_cons_self _ _, hp⟩
    · simp only [lastAt, hp, if_false]
      rcases ih d with ⟨h1, h2⟩ | ⟨h1, h2⟩
      · left; exact ⟨List.mem_cons_of_mem _ h1, h2⟩
      · right
        refine ⟨?_, h2⟩
        intro q hq
        rcases List.mem_cons.1 hq with rfl | hq
        · omega
        · exact h1 q hq

theorem firstAt_default (i : Nat) (d d' : Ptr) (A : List Ptr) (hA : ∃ p ∈ A, i ≤ lev p) :
    firstAt lev i d A = firstAt lev i d' A := by
  induction A with
  | nil => simp at hA
  | cons p ps ih =>
    by_cases hp : i ≤ lev p
    · simp [firstAt, hp]
    · simp only [firstAt, hp, if_false]
      apply ih
      obtain ⟨q, hq, hql⟩ := hA
      rcases List.mem_cons.1 hq with rfl | hq
      · exact absurd hql hp
      · exact ⟨q, hq, hql⟩

theorem lastOr_append (d : Ptr) (A B : List Ptr) :
    lastOr d (A ++ B) = lastOr (lastOr d A) B := by
  induction A generalizing d with
  | nil => rfl
  | cons p ps ih => simp only [List.cons_append, lastOr]; exact ih p

theorem lastOr_mem (d : Ptr) (A : List Ptr) (hne : A ≠ []) : lastOr d A ∈ A := by
  induction A generalizing d with
  | nil => exact absurd rfl hne
  | cons p ps ih =>
    simp only [lastOr]
    cases ps with
    | nil => simp [lastOr]
    | cons q qs => exact List.mem_cons_of_mem _ (ih p (by simp))

theorem lastAt_eq_lastOr (i : Nat) (d : Ptr) (A : List Ptr) (hne : A ≠ [])
    (hl : i ≤ lev (lastOr d A)) : lastAt lev i d A = lastOr d A := by
  induction A using List.reverseRecOn with
  | nil => exact absurd rfl hne
  | append_singleton B x _ =>
    have hx : lastOr d (B ++ [x]) = x := by rw [lastOr_append]; rfl
    rw [hx] at hl ⊢
    rw [lastAt_append]
    simp [lastAt, hl]

theorem lastAt_level (i : Nat) (d : Ptr) (A : List Ptr) (hd : i ≤ lev d) :
    i ≤ lev (lastAt lev i d A) := by
  rcases lastAt_mem_or lev i d A with ⟨_, h⟩ | ⟨_, h⟩
  · exact h
  · rw [h]; exact hd

theorem lastAt_split (i : Nat) (d : Ptr) (A : List Ptr) :
    ∃ A1 A2, d :: A = A1 ++ lastAt lev i d A :: A2 ∧ ∀ p ∈ A2, lev p < i := by
  induction A generalizing d with
  | nil => exact ⟨[], [], rfl, by simp⟩
  | cons p ps ih =>
    by_cases hp : i ≤ lev p
    · obtain ⟨A1, A2, h1, h2⟩ := ih p
      refine ⟨d :: A1, A2, ?_, h2⟩
      simp only [lastAt, hp, if_true, List.cons_append, h1]
    · obtain ⟨A1, A2, h1, h2⟩ := ih d
      simp only [lastAt, hp, if_false]
      cases A1 with
      | nil =>
        simp only [List.nil_append, List.cons.injEq] at h1
        refine ⟨[], p :: A2, ?_, ?_⟩
        · simp only [List.nil_append, List.cons.injEq, true_and]
          rw [← h1.1, h1.2]
          exact ⟨rfl, rfl⟩
        · intro q hq
          rcases List.mem_cons.1 hq with rfl | hq
          · omega
          · exact h2 q hq
      | cons a A1 =>
        simp only [List.cons_append, List.cons.injEq] at h1
        refine ⟨d :: p :: A1, A2, ?_, h2⟩
        simp only [List.cons_append, List.cons.injEq, true_and]
        exact h1.2

theorem lastAt_of_split (k : Nat) (d x : Ptr) (A A1 A2 : List Ptr)
    (h : d :: A = A1 ++ x :: A2) (hx : k ≤ lev x) (h2 : ∀ p ∈ A2, lev p < k) :
    lastAt lev k d A = x := by
  cases A1 with
  | nil =>
    simp only [List.nil_append, List.cons.injEq] at h
    rw [h.1, h.2]
    exact lastAt_low lev k x A2 h2
  | cons a A1 =>
    simp only [List.cons_append, List.cons.injEq] at h
    rw [h.2, lastAt_append]
    simp only [lastAt, hx, if_true]
    exact lastAt_low lev k x A2 h2

/-- Predecessors shared by two levels are shared by the levels in between. -/
theorem lastAt_interval (i j k : Nat) (d : Ptr) (A : List Ptr) (hjk : j ≤ k) (hki : k ≤ i)
    (hd : i ≤ lev d) (h : lastAt lev j d A = lastAt lev i d A) :
    lastAt lev k d A = lastAt lev i d A := by
  obtain ⟨A1, A2, h1, h2⟩ := lastAt_split lev j d A
  rw [h] at h1
  exact lastAt_of_split lev k d _ A A1 A2 h1
    (le_trans hki (lastAt_level lev i d A hd)) (fun p hp => lt_of_lt_of_le (h2 p hp) hjk)

end abstract_list2
section abstract_list3
variable (lt : Ptr → Bool) (lev : Ptr → Nat)

theorem reach_stop (n : Nat) (rest : List Ptr) (h1 : lt 1 = false) :
    lt (firstAt lev n 1 (rest.drop (reach lt lev n rest))) = false := by
  induction rest with
  | nil => simpa [reach, firstAt] using h1
  | cons p ps ih =>
    by_cases hp : n ≤ lev p
    · by_cases hl : lt p = true
      · simpa [reach, hp, hl] using ih
      · simp only [Bool.not_eq_true] at hl
        simp [reach, hp, hl, firstAt]
    · by_cases hr : reach lt lev n ps = 0
      · rw [hr] at ih
        simpa [reach, hp, hr, firstAt] using ih
      · simpa [reach, hp, hr] using ih

theorem reach_last (n : Nat) (rest : List Ptr) (s : Ptr) (hr : reach lt lev n rest ≠ 0) :
    n ≤ lev (lastOr s (rest.take (reach lt lev n rest))) ∧
      rest.take (reach lt lev n rest) ≠ [] := by
  induction rest generalizing s with
  | nil => simp [reach] at hr
  | cons p ps ih =>
    by_cases hp : n ≤ lev p
    · by_cases hl : lt p = true
      · simp only [reach, hp, hl, if_true, List.take_succ_cons]
        refine ⟨?_, by simp⟩
        by_cases hr' : reach lt lev n ps = 0
        · simp [hr', hp, lastOr]
        · exact (ih p hr').1
      · simp [reach, hp, hl] at hr
    · have hr' : reach lt lev n ps ≠ 0 := by
        intro h0; simp [reach, hp, h0] at hr
      simp only [reach, hp, hr', if_false, List.take_succ_cons]
      refine ⟨?_, by simp⟩
      exact (ih p hr').1

theorem descend_spec (n' : Nat) (pre rest : List Ptr) :
    ∃ mid rest', descend lt lev n' (pre, rest) = (pre ++ mid, rest') ∧ rest = mid ++ rest' ∧
      ∀ n, n' ≤ n → lt (firstAt lev n 1 rest) = false → ∀ p ∈ mid, lev p < n := by
  induction n' generalizing pre rest with
  | zero => exact ⟨[], rest, by simp [descend], rfl, by simp⟩
  | succ k ih =>
    obtain ⟨mid, rest', h1, h2, h3⟩ :=
      ih (pre ++ rest.take (reach lt lev k rest)) (rest.drop (reach lt lev k rest))
    refine ⟨rest.take (reach lt lev k rest) ++ mid, rest', ?_, ?_, ?_⟩
    · simp only [descend, h1, List.append_assoc]
    · rw [List.append_assoc, ← h2, List.take_append_drop]
    · intro n hn hstop p hp
      have hlow := reach_take_low lt lev k n (by omega) rest hstop
      rcases List.mem_append.1 hp with hp | hp
      · exact hlow p hp
      · refine h3 n (by omega) ?_ p hp
        have := firstAt_append_low lev n 1 _ (rest.drop (reach lt lev k rest)) hlow
        rw [List.take_append_drop] at this
        rw [← this]; exact hstop

end abstract_list3

/-! ## The Finder on a represented list -/

theorem held_of_node {h : Heap} {p : Ptr} {nd : hopscotch_node_t} (hn : h.node p = some nd) :
    h.held p = nd.lock := by
  simp [Heap.held, hn]

theorem valOf_of_node {h : Heap} {p : Ptr} {nd : hopscotch_node_t} (hn : h.node p = some nd) :
    h.valOf p = nd.val := by
  simp [Heap.valOf, hn]

theorem lev_of_node {h : Heap} {p : Ptr} {nd : hopscotch_node_t} (hn : h.node p = some nd) :
    h.lev p = nd.level := by
  simp [Heap.lev, hn]

theorem forward_of_rdFwd {h : Heap} {p : Ptr} {nd : hopscotch_node_t} {i : Nat} {q : Option Ptr}
    (hn : h.node p = some nd) (hf : h.rdFwd p i = some q) : nd.forward[i]? = some q := by
  simpa [Heap.rdFwd, hn] using hf

theorem find_walk_spec (cmp : Cmp) (h : Heap) (v : Elem) (n : Nat) (rest : List Ptr)
    (hnode : ∀ p ∈ rest, ∃ nd, h.node p = some nd)
    (hright : ∃ nd, h.node 1 = some nd)
    (hok : ∀ p, p = 1 ∨ p ∈ rest → (cmp (h.valOf p) v).1 = SUCCESS)
    (hstop : ltq cmp h v 1 = false)
    (hch : Chained h n 1 rest) (s : Ptr) (fuel : Nat) (hfuel : rest.length < fuel) :
    find_walk cmp h v n fuel s (firstAt h.lev n 1 rest) =
      some (Except.ok (lastOr s (rest.take (reach (ltq cmp h v) h.lev n rest)),
        firstAt h.lev n 1 (rest.drop (reach (ltq cmp h v) h.lev n rest)))) := by
  induction rest generalizing s fuel with
  | nil =>
    obtain ⟨nd, hnd⟩ := hright
    cases fuel with
    | zero => simp at hfuel
    | succ fuel =>
      have h1 := hok 1 (Or.inl rfl)
      have h2 : ¬ (cmp nd.val v).2 < 0 := by
        simpa [ltq, valOf_of_node hnd] using hstop
      rw [valOf_of_node hnd] at h1
      simp [find_walk, firstAt, reach, lastOr, hnd, h1, h2]
  | cons p ps ih =>
    have hnode' : ∀ q ∈ ps, ∃ nd, h.node q = some nd := fun q hq => hnode q (by simp [hq])
    have hok' : ∀ q, q = 1 ∨ q ∈ ps → (cmp (h.valOf q) v).1 = SUCCESS := by
      intro q hq
      rcases hq with hq | hq
      · exact hok q (Or.inl hq)
      · exact hok q (Or.inr (by simp [hq]))
    cases fuel with
    | zero => simp at hfuel
    | succ fuel =>
      have hfuel' : ps.length < fuel := by simpa using hfuel
      by_cases hp : n ≤ h.lev p
      · obtain ⟨nd, hnd⟩ := hnode p (by simp)
        have h1 := hok p (Or.inr (by simp))
        rw [valOf_of_node hnd] at h1
        have hfw := forward_of_rdFwd hnd (hch.1 hp)
        by_cases hl : ltq cmp h v p = true
        · have h2 : (cmp nd.val v).2 < 0 := by simpa [ltq, valOf_of_node hnd] using hl
          have := ih hnode' hok' hch.2 p fuel hfuel'
          simp only [firstAt, hp, if_true, find_walk, hnd, h1, ne_eq, not_true_eq_false,
            if_false, h2, hfw, this, reach, hl, List.take_succ_cons, lastOr, List.drop_succ_cons]
        · have h2 : ¬ (cmp nd.val v).2 < 0 := by simpa [ltq, valOf_of_node hnd] using hl
          simp only [Bool.not_eq_true] at hl
          simp [firstAt, hp, find_walk, hnd, h1, h2, reach, hl, lastOr]
      · have := ih hnode' hok' hch.2 s (fuel + 1) (by omega)
        simp only [firstAt, hp, if_false, this, reach]
        by_cases hr : reach (ltq cmp h v) h.lev n ps = 0
        · simp [hr, lastOr, firstAt, hp]
        · have hne := (reach_last (ltq cmp h v) h.lev n ps s hr).2
          simp only [hr, if_false, List.take_succ_cons, lastOr, List.drop_succ_cons]
          congr 3
          cases hX : ps.take (reach (ltq cmp h v) h.lev n ps) with
          | nil => exact absurd hX hne
          | cons a as => rfl

theorem chained_append (h : Heap) (i : Nat) (e : Ptr) (A B : List Ptr) :
    Chained h i e (A ++ B) ↔ Chained h i (firstAt h.lev i e B) A ∧ Chained h i e B := by
  induction A with
  | nil => simp [Chained]
  | cons p ps ih =>
    have hf : firstAt h.lev i e (ps ++ B) = firstAt h.lev i (firstAt h.lev i e B) ps := by
      clear ih
      induction ps with
      | nil => rfl
      | cons q qs ih2 => simp only [List.cons_append, firstAt]; split_ifs <;> [rfl; exact ih2]
    rw [List.cons_append]
    show (_ ∧ Chained h i e (ps ++ B)) ↔ _
    rw [ih, hf]
    simp only [Chained, and_assoc]

/-- The last node of level `i` of a chained list points to what follows. -/
theorem chained_last_link (h : Heap) (i : Nat) (e d : Ptr) (A : List Ptr)
    (hch : Chained h i e (d :: A)) (hd : i ≤ h.lev d) :
    h.rdFwd (lastAt h.lev i d A) i = some (some e) := by
  induction A generalizing d with
  | nil => simpa [lastAt, firstAt] using hch.1 hd
  | cons p ps ih =>
    by_cases hp : i ≤ h.lev p
    · simp only [lastAt, hp, if_true]
      exact ih p hch.2 hp
    · simp only [lastAt, hp, if_false]
      apply ih d _ hd
      refine ⟨fun _ => ?_, hch.2.2⟩
      have := hch.1 hd
      simpa [firstAt, hp] using this

theorem node_lt_length {h : Heap} {p : Ptr} {nd : hopscotch_node_t} (hn : h.node p = some nd) :
    p < h.nodes.length := by
  simp only [Heap.node] at hn
  exact (List.getElem?_eq_some.1 hn).1

theorem shape_node {h : Heap} {p : Ptr} {s : Elem × Nat × Bool × Bool × Nat}
    (hs : h.shape p = some s) :
    ∃ nd, h.node p = some nd ∧ nd.val = s.1 ∧ nd.level = s.2.1 ∧ nd.fully_linked = s.2.2.1 ∧
      nd.marked = s.2.2.2.1 ∧ nd.forward.length = s.2.2.2.2 := by
  simp only [Heap.shape] at hs
  cases hn : h.node p with
  | none => simp [hn] at hs
  | some nd =>
    simp only [hn, Option.map_some', Option.some.injEq] at hs
    subst hs
    exact ⟨nd, rfl, rfl, rfl, rfl, rfl, rfl⟩

theorem rep_length {m : Nat} {h : Heap} {L : List Ptr} (hrep : Rep m h L) :
    L.length + 2 ≤ h.nodes.length := by
  obtain ⟨nd, hnd, _⟩ := shape_node hrep.right
  have h1len : (1 : Nat) < h.nodes.length := node_lt_length hnd
  have hsub : L.toFinset ⊆ Finset.Ico 2 h.nodes.length := by
    intro p hp
    obtain ⟨h2, val, lvl, _, hs⟩ := hrep.mem p (List.mem_toFinset.1 hp)
    obtain ⟨nd, hnd, _⟩ := shape_node hs
    exact Finset.mem_Ico.2 ⟨h2, node_lt_length hnd⟩
  have h1 := Finset.card_le_card hsub
  rw [List.toFinset_card_of_nodup hrep.nodup, Nat.card_Ico] at h1
  omega

theorem rep_lev_left {m : Nat} {h : Heap} {L : List Ptr} (hrep : Rep m h L) : h.lev 0 = m - 1 := by
  obtain ⟨nd, hnd, _, hl, _⟩ := shape_node hrep.left
  rw [lev_of_node hnd, hl]

theorem rep_node {m : Nat} {h : Heap} {L : List Ptr} (hrep : Rep m h L) (p : Ptr)
    (hp : p = 0 ∨ p = 1 ∨ p ∈ L) : ∃ nd, h.node p = some nd := by
  rcases hp with rfl | rfl | hp
  · obtain ⟨nd, hnd, _⟩ := shape_node hrep.left; exact ⟨nd, hnd⟩
  · obtain ⟨nd, hnd, _⟩ := shape_node hrep.right; exact ⟨nd, hnd⟩
  · obtain ⟨_, _, _, _, hs⟩ := hrep.mem p hp
    obtain ⟨nd, hnd, _⟩ := shape_node hs; exact ⟨nd, hnd⟩

theorem find_levels_spec (cmp : Cmp) (h : Heap) (v : Elem) (m : Nat) (L : List Ptr)
    (hrep : Rep m h L)
    (hok : ∀ p, p = 1 ∨ p ∈ L → (cmp (h.valOf p) v).1 = SUCCESS)
    (hstop : ltq cmp h v 1 = false) :
    ∀ n, n ≤ m → ∀ (pre rest : List Ptr) (st : FindState), L = pre ++ rest →
      (pre ≠ [] → n ≤ h.lev (lastOr 0 pre) + 1) →
      ∃ st', find_levels cmp h v n (lastOr 0 pre) st =
          some (if st'.val_found then SUCCESS else LIST__FIND_EL_VAL_NOT_FOUND, st') ∧
        (∀ i, i < n →
          st'.pred_nodes i =
            some (lastAt h.lev i 0 (descend (ltq cmp h v) h.lev n (pre, rest)).1) ∧
          st'.succ_nodes i =
            some (firstAt h.lev i 1 (descend (ltq cmp h v) h.lev n (pre, rest)).2)) ∧
        (∀ i, n ≤ i → st'.pred_nodes i = st.pred_nodes i ∧ st'.succ_nodes i = st.succ_nodes i) ∧
        st'.val_found = (st.val_found ||
          (matchLevel (eqq cmp h v) h.lev (descend (ltq cmp h v) h.lev n (pre, rest)).2 n).isSome) ∧
        st'.level_found = (if st.val_found then st.level_found else
          match matchLevel (eqq cmp h v) h.lev (descend (ltq cmp h v) h.lev n (pre, rest)).2 n with
          | some l => some l
          | none => st.level_found) := by
  intro n
  induction n with
  | zero =>
    intro _ pre rest st _ _
    refine ⟨st, ?_, ?_, ?_, ?_, ?_⟩
    · simp [find_levels]
    · intro i hi; omega
    · intro i _; exact ⟨rfl, rfl⟩
    · simp [matchLevel]
    · simp [matchLevel]
  | succ n ih =>
    intro hn pre rest st hL hpre
    have hnm : n < m := by omega
    -- the chain of level n, split at the current position
    have hch := hrep.link n hnm
    rw [hL, ← List.cons_append, chained_append] at hch
    have hlev0 : n ≤ h.lev 0 := by rw [rep_lev_left hrep]; omega
    have hs : lastAt h.lev n 0 pre = lastOr 0 pre := by
      by_cases hne : pre = []
      · subst hne; rfl
      · exact lastAt_eq_lastOr h.lev n 0 pre hne (by have := hpre hne; omega)
    have hfirst : h.rdFwd (lastOr 0 pre) n = some (some (firstAt h.lev n 1 rest)) := by
      rw [← hs]; exact chained_last_link h n _ 0 pre hch.1 hlev0
    have hnode : ∀ p ∈ rest, ∃ nd, h.node p = some nd := fun p hp =>
      rep_node hrep p (Or.inr (Or.inr (by rw [hL]; simp [hp])))
    have hok' : ∀ p, p = 1 ∨ p ∈ rest → (cmp (h.valOf p) v).1 = SUCCESS := by
      intro p hp
      rcases hp with hp | hp
      · exact hok p (Or.inl hp)
      · exact hok p (Or.inr (by rw [hL]; simp [hp]))
    have hlen : rest.length < h.nodes.length + 1 := by
      have := rep_length hrep
      rw [hL, List.length_append] at this
      omega
    have hwalk := find_walk_spec cmp h v n rest hnode (rep_node hrep 1 (Or.inr (Or.inl rfl)))
      hok' hstop hch.2 (lastOr 0 pre) (h.nodes.length + 1) hlen
    set r := reach (ltq cmp h v) h.lev n rest with hr
    set c := firstAt h.lev n 1 (rest.drop r) with hc
    have hcmem : c = 1 ∨ c ∈ rest := by
      rcases firstAt_mem_or h.lev n 1 (rest.drop r) with ⟨hm, _⟩ | ⟨_, he⟩
      · exact Or.inr (List.mem_of_mem_drop hm)
      · exact Or.inl he
    obtain ⟨cn, hcn⟩ : ∃ nd, h.node c = some nd := by
      rcases hcmem with h1 | h1
      · rw [h1]; exact rep_node hrep 1 (Or.inr (Or.inl rfl))
      · exact hnode c h1
    have hcok : (cmp cn.val v).1 = SUCCESS := by
      have := hok' c hcmem
      rwa [valOf_of_node hcn] at this
    have hL' : L = (pre ++ rest.take r) ++ rest.drop r := by
      rw [List.append_assoc, List.take_append_drop]; exact hL
    have hlast' : lastOr 0 (pre ++ rest.take r) = lastOr (lastOr 0 pre) (rest.take r) :=
      lastOr_append 0 pre _
    have hpre' : pre ++ rest.take r ≠ [] → n ≤ h.lev (lastOr 0 (pre ++ rest.take r)) := by
      intro hne
      rw [hlast']
      by_cases hr0 : r = 0
      · have hpne : pre ≠ [] := by
          intro hp; apply hne; simp [hp, hr0]
        have := hpre hpne
        simp only [hr0, List.take_zero, lastOr]
        omega
      · exact (reach_last (ltq cmp h v) h.lev n rest (lastOr 0 pre) hr0).1
    -- the state handed to the lower levels
    set st1 : FindState :=
      if !st.val_found && (cmp cn.val v).2 == 0 then
        { st with val_found := true, level_found := some n }
      else st with hst1
    set st2 : FindState :=
      { st1 with pred_nodes := Function.update st1.pred_nodes n (some (lastOr 0 (pre ++ rest.take r))),
                 succ_nodes := Function.update st1.succ_nodes n (some c) } with hst2
    obtain ⟨st', hfind, harr, hkeep, hvf, hlf⟩ :=
      ih (by omega) (pre ++ rest.take r) (rest.drop r) st2 hL' (fun hne => by
        have := hpre' hne; omega)
    have hstep : find_levels cmp h v (n + 1) (lastOr 0 pre) st =
        find_levels cmp h v n (lastOr 0 (pre ++ rest.take r)) st2 := by
      simp only [find_levels, hfirst, hwalk, hcn, hcok, ne_eq, not_true_eq_false, if_false]
      simp only [hst2, hst1, hlast']
    have hdesc : descend (ltq cmp h v) h.lev (n + 1) (pre, rest) =
        descend (ltq cmp h v) h.lev n (pre ++ rest.take r, rest.drop r) := rfl
    obtain ⟨mid, rest2, hd, hsplit, hlow⟩ :=
      descend_spec (ltq cmp h v) h.lev n (pre ++ rest.take r) (rest.drop r)
    have hmid : ∀ p ∈ mid, h.lev p < n :=
      hlow n (le_refl n) (reach_stop (ltq cmp h v) h.lev n rest hstop)
    have hpredn : lastAt h.lev n 0 (pre ++ rest.take r ++ mid) = lastOr 0 (pre ++ rest.take r) := by
      rw [lastAt_append, lastAt_low h.lev n _ mid hmid]
      by_cases hne : pre ++ rest.take r = []
      · rw [hne]; rfl
      · exact lastAt_eq_lastOr h.lev n 0 _ hne (hpre' hne)
    have hsuccn : firstAt h.lev n 1 rest2 = c := by
      rw [hc, hsplit, firstAt_append_low h.lev n 1 mid rest2 hmid]
    have hst1arr : st1.pred_nodes = st.pred_nodes ∧ st1.succ_nodes = st.succ_nodes := by
      rw [hst1]; split_ifs <;> exact ⟨rfl, rfl⟩
    have heq : eqq cmp h v c = decide ((cmp cn.val v).2 = 0) := by
      simp only [eqq, valOf_of_node hcn]
    rw [hdesc, hd]
    rw [hd] at harr hvf hlf
    refine ⟨st', by rw [hstep]; exact hfind, ?_, ?_, ?_, ?_⟩
    · intro i hi
      rcases Nat.lt_succ_iff_lt_or_eq.1 hi with hi | rfl
      · exact harr i hi
      · have := hkeep i (le_refl i)
        rw [this.1, this.2, hpredn, hsuccn]
        simp [hst2]
    · intro i hi
      have := hkeep i (by omega)
      have hne : i ≠ n := by omega
      rw [this.1, this.2]
      simp [hst2, Function.update_noteq hne, hst1arr.1, hst1arr.2]
    · rw [hvf]
      simp only [matchLevel, hsuccn, heq, hst2, hst1]
      by_cases hvf0 : st.val_found = true <;> by_cases hz : (cmp cn.val v).2 = 0 <;>
        simp [hvf0, hz]
    · rw [hlf]
      simp only [matchLevel, hsuccn, heq, hst2, hst1]
      by_cases hvf0 : st.val_found = true <;> by_cases hz : (cmp cn.val v).2 = 0 <;>
        simp [hvf0, hz]

section abstract_list4
variable (lt : Ptr → Bool) (lev : Ptr → Nat)

theorem reach_last_lt (n : Nat) (rest : List Ptr) (s : Ptr) (hr : reach lt lev n rest ≠ 0) :
    lt (lastOr s (rest.take (reach lt lev n rest))) = true := by
  induction rest generalizing s with
  | nil => simp [reach] at hr
  | cons p ps ih =>
    by_cases hp : n ≤ lev p
    · by_cases hl : lt p = true
      · simp only [reach, hp, hl, if_true, List.take_succ_cons]
        by_cases hr' : reach lt lev n ps = 0
        · simp [hr', lastOr, hl]
        · exact ih p hr'
      · simp [reach, hp, hl] at hr
    · have hr' : reach lt lev n ps ≠ 0 := by
        intro h0; simp [reach, hp, h0] at hr
      simp only [reach, hp, hr', if_false, List.take_succ_cons]
      exact ih p hr'

/-- After the descent the first node ahead at every level does not compare
below the query, and the last node left behind does. -/
theorem descend_stop (h1 : lt 1 = false) (n : Nat) (pre rest : List Ptr) :
    (∀ i, i < n → lt (firstAt lev i 1 (descend lt lev n (pre, rest)).2) = false) ∧
      ((pre = [] ∨ lt (lastOr 0 pre) = true) →
        ((descend lt lev n (pre, rest)).1 = [] ∨
          lt (lastOr 0 (descend lt lev n (pre, rest)).1) = true)) := by
  induction n generalizing pre rest with
  | zero => exact ⟨fun i hi => by omega, fun h => h⟩
  | succ n ih =>
    have hdesc : descend lt lev (n + 1) (pre, rest) =
        descend lt lev n (pre ++ rest.take (reach lt lev n rest),
          rest.drop (reach lt lev n rest)) := rfl
    obtain ⟨ih1, ih2⟩ := ih (pre ++ rest.take (reach lt lev n rest))
      (rest.drop (reach lt lev n rest))
    rw [hdesc]
    constructor
    · intro i hi
      rcases Nat.lt_succ_iff_lt_or_eq.1 hi with hi | rfl
      · exact ih1 i hi
      · obtain ⟨mid, rest2, hd, hsplit, hlow⟩ :=
          descend_spec lt lev i (pre ++ rest.take (reach lt lev i rest))
            (rest.drop (reach lt lev i rest))
        have hstop := reach_stop lt lev i rest h1
        have hmid := hlow i (le_refl i) hstop
        rw [hd]
        rw [hsplit, firstAt_append_low lev i 1 mid rest2 hmid] at hstop
        exact hstop
    · intro hpre
      apply ih2
      by_cases hr : reach lt lev n rest = 0
      · rcases hpre with hp | hp
        · left; simp [hp, hr]
        · right; simpa [hr] using hp
      · right
        rw [lastOr_append]
        exact reach_last_lt lt lev n rest _ hr

theorem firstAt_raise (l l' : Nat) (d : Ptr) (A : List Ptr) (hll : l ≤ l')
    (hmem : firstAt lev l d A ∈ A) (hl : l' ≤ lev (firstAt lev l d A)) :
    firstAt lev l' d A = firstAt lev l d A := by
  induction A with
  | nil => simp at hmem
  | cons p ps ih =>
    by_cases hp : l ≤ lev p
    · simp only [firstAt, hp, if_true] at hl ⊢
      simp [hl]
    · have hp' : ¬ l' ≤ lev p := by omega
      simp only [firstAt, hp, hp', if_false] at hmem hl ⊢
      rcases List.mem_cons.1 hmem with he | hm
      · rw [he] at hl; omega
      · exact ih hm hl

theorem matchLevel_some (eqv : Ptr → Bool) (rest : List Ptr) (n l : Nat)
    (h : matchLevel eqv lev rest n = some l) :
    l < n ∧ eqv (firstAt lev l 1 rest) = true ∧
      ∀ i, l < i → i < n → eqv (firstAt lev i 1 rest) = false := by
  induction n with
  | zero => simp [matchLevel] at h
  | succ n ih =>
    simp only [matchLevel] at h
    by_cases he : eqv (firstAt lev n 1 rest) = true
    · simp only [he, if_true, Option.some.injEq] at h
      subst h
      exact ⟨by omega, he, fun i h1 h2 => by omega⟩
    · simp only [he, if_false] at h
      obtain ⟨h1, h2, h3⟩ := ih h
      refine ⟨by omega, h2, fun i hi1 hi2 => ?_⟩
      rcases Nat.lt_succ_iff_lt_or_eq.1 hi2 with hi2 | rfl
      · exact h3 i hi1 hi2
      · simpa using he

theorem matchLevel_none (eqv : Ptr → Bool) (rest : List Ptr) (n : Nat) :
    matchLevel eqv lev rest n = none ↔ ∀ i, i < n → eqv (firstAt lev i 1 rest) = false := by
  induction n with
  | zero => simp [matchLevel]
  | succ n ih =>
    simp only [matchLevel]
    by_cases he : eqv (firstAt lev n 1 rest) = true
    · simp only [he, if_true]
      constructor
      · intro h; cases h
      · intro h; have := h n (by omega); simp [he] at this
    · have he' : eqv (firstAt lev n 1 rest) = false := by simpa using he
      rw [he']
      simp only [Bool.false_eq_true, if_false]
      rw [ih]
      constructor
      · intro h i hi
        rcases Nat.lt_succ_iff_lt_or_eq.1 hi with hi | rfl
        · exact h i hi
        · exact he'
      · intro h i hi; exact h i (by omega)

end abstract_list4

theorem find_spec (list : hopscotch_list_t) (cmp : Cmp) (h : Heap) (v : Elem) (m : Nat)
    (L : List Ptr) (hu : Uses list cmp m) (hrep : Rep m h L)
    (hok : ∀ p, p = 1 ∨ p ∈ L → (cmp (h.valOf p) v).1 = SUCCESS)
    (hstop : ltq cmp h v 1 = false) :
    ∃ fs, _list_find_el list h v =
        some (if (matchLevel (eqq cmp h v) h.lev (split_at cmp h v m L).2 m).isSome then SUCCESS
          else LIST__FIND_EL_VAL_NOT_FOUND, fs) ∧
      fs.level_found = matchLevel (eqq cmp h v) h.lev (split_at cmp h v m L).2 m ∧
      (∀ i, i < m →
        fs.pred_nodes i = some (lastAt h.lev i 0 (split_at cmp h v m L).1) ∧
        fs.succ_nodes i = some (firstAt h.lev i 1 (split_at cmp h v m L).2)) ∧
      (∀ i, m ≤ i → fs.pred_nodes i = none ∧ fs.succ_nodes i = none) := by
  obtain ⟨st', hfind, harr, hkeep, hvf, hlf⟩ :=
    find_levels_spec cmp h v m L hrep hok hstop m (le_refl m) [] L
      { val_found := false, level_found := none,
        pred_nodes := fun _ => none, succ_nodes := fun _ => none } rfl (fun hne => absurd rfl hne)
  refine ⟨st', ?_, ?_, harr, hkeep⟩
  · simp only [_list_find_el, hu.cmp, hu.max_level, hu.head]
    simp only [lastOr] at hfind
    rw [hfind, hvf]
    simp [split_at]
  · rw [hlf]
    simp only [split_at]
    cases matchLevel (eqq cmp h v) h.lev (descend (ltq cmp h v) h.lev m ([], L)).2 m <;> simp

theorem split_at_append (cmp : Cmp) (h : Heap) (v : Elem) (m : Nat) (L : List Ptr) :
    L = (split_at cmp h v m L).1 ++ (split_at cmp h v m L).2 := by
  obtain ⟨mid, rest, hd, hs, _⟩ := descend_spec (ltq cmp h v) h.lev m [] L
  simp only [split_at, hd, List.nil_append]
  exact hs

theorem rep_live {m : Nat} {h : Heap} {L : List Ptr} (hrep : Rep m h L) (p : Ptr)
    (hp : p = 0 ∨ p = 1 ∨ p ∈ L) :
    ∃ nd, h.node p = some nd ∧ nd.fully_linked = true ∧ nd.marked = false ∧ nd.lock = false := by
  have hfree : ∀ nd, h.node p = some nd → nd.lock = false := fun nd hnd => by
    rw [← held_of_node hnd]; exact hrep.free p
  rcases hp with rfl | rfl | hp
  · obtain ⟨nd, hnd, _, _, h1, h2, _⟩ := shape_node hrep.left
    exact ⟨nd, hnd, h1, h2, hfree nd hnd⟩
  · obtain ⟨nd, hnd, _, _, h1, h2, _⟩ := shape_node hrep.right
    exact ⟨nd, hnd, h1, h2, hfree nd hnd⟩
  · obtain ⟨_, _, _, _, hs⟩ := hrep.mem p hp
    obtain ⟨nd, hnd, _, _, h1, h2, _⟩ := shape_node hs
    exact ⟨nd, hnd, h1, h2, hfree nd hnd⟩

theorem split_succ_mem (cmp : Cmp) (h : Heap) (v : Elem) (m : Nat) (L : List Ptr) (i : Nat) :
    firstAt h.lev i 1 (split_at cmp h v m L).2 = 1 ∨
      firstAt h.lev i 1 (split_at cmp h v m L).2 ∈ L := by
  rcases firstAt_mem_or h.lev i 1 (split_at cmp h v m L).2 with ⟨hm, _⟩ | ⟨_, he⟩
  · right
    have hx := List.mem_append_right (split_at cmp h v m L).1 hm
    rwa [← split_at_append cmp h v m L] at hx
  · exact Or.inl he

theorem split_pred_mem (cmp : Cmp) (h : Heap) (v : Elem) (m : Nat) (L : List Ptr) (i : Nat) :
    lastAt h.lev i 0 (split_at cmp h v m L).1 = 0 ∨
      lastAt h.lev i 0 (split_at cmp h v m L).1 ∈ L := by
  rcases lastAt_mem_or h.lev i 0 (split_at cmp h v m L).1 with ⟨hm, _⟩ | ⟨_, he⟩
  · right
    have hx := List.mem_append_left (split_at cmp h v m L).2 hm
    rwa [← split_at_append cmp h v m L] at hx
  · exact Or.inl he

/-- On a represented list `hopscotch_list_contains_el` returns SUCCESS and
reports whether the Finder matched. -/
theorem contains_spec (list : hopscotch_list_t) (cmp : Cmp) (h : Heap) (v : Elem) (m : Nat)
    (L : List Ptr) (hu : Uses list cmp m) (hrep : Rep m h L)
    (hok : ∀ p, p = 1 ∨ p ∈ L → (cmp (h.valOf p) v).1 = SUCCESS)
    (hstop : ltq cmp h v 1 = false) :
    hopscotch_list_contains_el list h v =
      some (SUCCESS, (matchLevel (eqq cmp h v) h.lev (split_at cmp h v m L).2 m).isSome) := by
  obtain ⟨fs, hfind, hlf, harr, _⟩ := find_spec list cmp h v m L hu hrep hok hstop
  simp only [hopscotch_list_contains_el, hfind]
  cases hml : matchLevel (eqq cmp h v) h.lev (split_at cmp h v m L).2 m with
  | none => simp
  | some l =>
    obtain ⟨hlm, _, _⟩ := matchLevel_some h.lev _ _ _ _ hml
    obtain ⟨nd, hnd, hfl, hmk, _⟩ := rep_live hrep _
      (Or.inr (split_succ_mem cmp h v m L l))
    simp [hlf, hml, (harr l hlm).2, hnd, hfl, hmk]

/-! ## The external calls and the locks -/

theorem calm_node (h : Heap) (p : Ptr) :
    h.calm.node p = (h.node p).map (fun nd => { nd with lock := false }) := by
  simp [Heap.calm, Heap.node, List.getElem?_map]

theorem node_set_self (h : Heap) (p : Ptr) (nd nd' : hopscotch_node_t) (hn : h.node p = some nd)
    (log : List Ev) : (Heap.mk (h.nodes.set p nd') log).node p = some nd' := by
  have hlt : p < h.nodes.length := node_lt_length hn
  simp [Heap.node, List.getElem?_set, hlt]

theorem node_set_other (h : Heap) (p q : Ptr) (nd' : hopscotch_node_t) (hq : q ≠ p)
    (log : List Ev) : (Heap.mk (h.nodes.set p nd') log).node q = h.node q := by
  simp [Heap.node, List.getElem?_set, Ne.symm hq]

theorem calm_set_lock (h : Heap) (p : Ptr) (nd : hopscotch_node_t) (hn : h.node p = some nd)
    (b : Bool) (log : List Ev) :
    (Heap.mk (h.nodes.set p { nd with lock := b }) log).calm = h.calm := by
  simp only [Heap.calm, Heap.mk.injEq, and_true]
  apply List.ext_getElem?
  intro q
  simp only [List.getElem?_map, List.getElem?_set]
  have hlt : p < h.nodes.length := node_lt_length hn
  by_cases hq : p = q
  · subst hq
    simp only [Heap.node] at hn
    simp [hlt, hn]
  · simp [hq]

theorem lock_ok (h : Heap) (p : Ptr) (nd : hopscotch_node_t) (hn : h.node p = some nd)
    (hfree : nd.lock = false) :
    ∃ h', pthread_mutex_lock no_failure h p = some (true, h') ∧ h'.calm = h.calm ∧
      ∀ q, h'.held q = if q = p then true else h.held q := by
  refine ⟨Heap.mk (h.nodes.set p { nd with lock := true }) (Ev.lock p :: h.log),
    by simp [pthread_mutex_lock, hn, no_failure, hfree], calm_set_lock h p nd hn true _, ?_⟩
  intro q
  by_cases hq : q = p
  · subst hq
    simp [Heap.held, node_set_self h q nd _ hn]
  · simp [Heap.held, node_set_other h p q _ hq, hq]

theorem unlock_ok (h : Heap) (p : Ptr) (nd : hopscotch_node_t) (hn : h.node p = some nd) :
    ∃ h', pthread_mutex_unlock no_failure h p = some (true, h') ∧ h'.calm = h.calm ∧
      ∀ q, h'.held q = if q = p then false else h.held q := by
  refine ⟨Heap.mk (h.nodes.set p { nd with lock := false }) (Ev.unlock p :: h.log),
    by simp [pthread_mutex_unlock, hn, no_failure], calm_set_lock h p nd hn false _, ?_⟩
  intro q
  by_cases hq : q = p
  · subst hq
    simp [Heap.held, node_set_self h q nd _ hn]
  · simp [Heap.held, node_set_other h p q _ hq, hq]

/-- A node of the calm heap is the node of the heap, mutex aside. -/
theorem node_of_calm {h : Heap} {p : Ptr} {nd : hopscotch_node_t}
    (hn : h.calm.node p = some nd) :
    ∃ nd', h.node p = some nd' ∧ nd = { nd' with lock := false } := by
  rw [calm_node] at hn
  cases hx : h.node p with
  | none => simp [hx] at hn
  | some nd' => exact ⟨nd', rfl, by simpa [hx] using hn.symm⟩

theorem add_lock_loop_ok (pred succ : NodeArr) (P S : Nat → Ptr) (g : Heap) (X : Ptr → Prop)
    (t : Nat)
    (hP : ∀ i, i ≤ t → pred i = some (P i) ∧ succ i = some (S i))
    (hval : ∀ i, i ≤ t → ∃ pn sn, g.node (P i) = some pn ∧ pn.marked = false ∧
      g.node (S i) = some sn ∧ sn.marked = false ∧ pn.forward[i]? = some (some (S i)))
    (hint : ∀ j k i, j ≤ k → k ≤ i → i ≤ t → P j = P i → P k = P i)
    (hX : ∀ i, i ≤ t → ¬ X (P i)) :
    ∀ (n a : Nat) (prev : Option Ptr) (hl : Int) (h : Heap), a + n = t + 1 → h.calm = g →
      (prev = if a = 0 then none else some (P (a - 1))) → hl < (a : Int) →
      (∀ q, h.held q = true → X q ∨ ∃ j, j < a ∧ (j : Int) ≤ hl ∧ P j = q) →
      ∃ hl' h', add_lock_loop no_failure pred succ n a prev hl h =
          some (LockOut.finished true hl' h') ∧ h'.calm = g ∧ hl' ≤ (t : Int) ∧
        (∀ q, h'.held q = true → X q ∨ ∃ j, j ≤ t ∧ (j : Int) ≤ hl' ∧ P j = q) := by
  intro n
  induction n with
  | zero =>
    intro a prev hl h ha hg _ hhl hheld
    refine ⟨hl, h, rfl, hg, by omega, fun q hq => ?_⟩
    rcases hheld q hq with hx | ⟨j, hj, hjl, hjq⟩
    · exact Or.inl hx
    · exact Or.inr ⟨j, by omega, hjl, hjq⟩
  | succ n ih =>
    intro a prev hl h ha hg hprev hhl hheld
    have hat : a ≤ t := by omega
    obtain ⟨hpa, hsa⟩ := hP a hat
    obtain ⟨pn, sn, hpn, hpm, hsn, hsm, hfw⟩ := hval a hat
    -- the validation succeeds in every heap that is `g` up to the locks
    have hvalid : ∀ (h1 : Heap), h1.calm = g → ∃ pn' sn', h1.node (P a) = some pn' ∧
        pn'.marked = false ∧ h1.node (S a) = some sn' ∧ sn'.marked = false ∧
        pn'.forward[a]? = some (some (S a)) := by
      intro h1 hg1
      rw [← hg1] at hpn hsn
      obtain ⟨pn', hpn', hpe⟩ := node_of_calm hpn
      obtain ⟨sn', hsn', hse⟩ := node_of_calm hsn
      refine ⟨pn', sn', hpn', ?_, hsn', ?_, ?_⟩
      · rw [hpe] at hpm; exact hpm
      · rw [hse] at hsm; exact hsm
      · rw [hpe] at hfw; exact hfw
    by_cases hnew : some (P a) = prev
    · subst hnew
      obtain ⟨hl', h', hrun, hc, hle, hh⟩ := ih (a + 1) (some (P a)) hl h (by omega) hg
        (by simp) (by omega) (fun q hq => by
          rcases hheld q hq with hx | ⟨j, hj, hjl, hjq⟩
          · exact Or.inl hx
          · exact Or.inr ⟨j, by omega, hjl, hjq⟩)
      refine ⟨hl', h', ?_, hc, hle, hh⟩
      obtain ⟨pn', sn', e1, e2, e3, e4, e5⟩ := hvalid h hg
      simp only [add_lock_loop, hpa, hsa, lock_if_new, ne_eq, not_true_eq_false, if_false,
        e1, e2, e3, e4, e5, Bool.false_eq_true, if_true]
      exact hrun
    · -- the predecessor is not held yet
      have hfreeP : h.held (P a) = false := by
        by_contra hc
        simp only [Bool.not_eq_false] at hc
        rcases hheld _ hc with hx | ⟨j, hj, _, hjq⟩
        · exact hX a hat hx
        · have ha0 : a ≠ 0 := by omega
          have := hint j (a - 1) a (by omega) (by omega) hat hjq
          apply hnew
          rw [hprev, if_neg ha0, this]
      have hpn0 := hpn
      rw [← hg] at hpn0
      obtain ⟨pn', hpn', _⟩ := node_of_calm hpn0
      have hlk : pn'.lock = false := by rw [← held_of_node hpn']; exact hfreeP
      obtain ⟨h1, hlock, hc1, hheld1⟩ := lock_ok h (P a) pn' hpn' hlk
      obtain ⟨hl', h', hrun, hc, hle, hh⟩ := ih (a + 1) (some (P a)) (a : Int) h1 (by omega)
        (by rw [hc1]; exact hg) (by simp) (by omega) (fun q hq => by
          rw [hheld1] at hq
          by_cases hqa : q = P a
          · exact Or.inr ⟨a, by omega, le_refl _, hqa.symm⟩
          · rw [if_neg hqa] at hq
            rcases hheld q hq with hx | ⟨j, hj, hjl, hjq⟩
            · exact Or.inl hx
            · exact Or.inr ⟨j, by omega, by omega, hjq⟩)
      refine ⟨hl', h', ?_, hc, hle, hh⟩
      obtain ⟨pn1, sn1, e1, e2, e3, e4, e5⟩ := hvalid h1 (by rw [hc1]; exact hg)
      simp only [add_lock_loop, hpa, hsa, lock_if_new, hnew, ne_eq, not_false_eq_true, if_true,
        hlock, e1, e2, e3, e4, e5, Bool.false_eq_true, if_false]
      exact hrun

theorem del_lock_loop_ok (pred succ : NodeArr) (P S : Nat → Ptr) (g : Heap) (X : Ptr → Prop)
    (t : Nat)
    (hP : ∀ i, i ≤ t → pred i = some (P i) ∧ succ i = some (S i))
    (hval : ∀ i, i ≤ t → ∃ pn, g.node (P i) = some pn ∧ pn.marked = false ∧
      pn.forward[i]? = some (some (S i)))
    (hint : ∀ j k i, j ≤ k → k ≤ i → i ≤ t → P j = P i → P k = P i)
    (hX : ∀ i, i ≤ t → ¬ X (P i)) :
    ∀ (n a : Nat) (prev : Option Ptr) (hl : Int) (h : Heap), a + n = t + 1 → h.calm = g →
      (prev = if a = 0 then none else some (P (a - 1))) → hl < (a : Int) →
      (∀ q, h.held q = true → X q ∨ ∃ j, j < a ∧ (j : Int) ≤ hl ∧ P j = q) →
      ∃ hl' h', del_lock_loop no_failure pred succ n a prev hl h =
          some (LockOut.finished true hl' h') ∧ h'.calm = g ∧ hl' ≤ (t : Int) ∧
        (∀ q, h'.held q = true → X q ∨ ∃ j, j ≤ t ∧ (j : Int) ≤ hl' ∧ P j = q) := by
  intro n
  induction n with
  | zero =>
    intro a prev hl h ha hg _ hhl hheld
    refine ⟨hl, h, rfl, hg, by omega, fun q hq => ?_⟩
    rcases hheld q hq with hx | ⟨j, hj, hjl, hjq⟩
    · exact Or.inl hx
    · exact Or.inr ⟨j, by omega, hjl, hjq⟩
  | succ n ih =>
    intro a prev hl h ha hg hprev hhl hheld
    have hat : a ≤ t := by omega
    obtain ⟨hpa, hsa⟩ := hP a hat
    obtain ⟨pn, hpn, hpm, hfw⟩ := hval a hat
    -- the validation succeeds in every heap that is `g` up to the locks
    have hvalid : ∀ (h1 : Heap), h1.calm = g → ∃ pn', h1.node (P a) = some pn' ∧
        pn'.marked = false ∧ pn'.forward[a]? = some (some (S a)) := by
      intro h1 hg1
      rw [← hg1] at hpn
      obtain ⟨pn', hpn', hpe⟩ := node_of_calm hpn
      refine ⟨pn', hpn', ?_, ?_⟩
      · rw [hpe] at hpm; exact hpm
      · rw [hpe] at hfw; exact hfw
    by_cases hnew : some (P a) = prev
    · subst hnew
      obtain ⟨hl', h', hrun, hc, hle, hh⟩ := ih (a + 1) (some (P a)) hl h (by omega) hg
        (by simp) (by omega) (fun q hq => by
          rcases hheld q hq with hx | ⟨j, hj, hjl, hjq⟩
          · exact Or.inl hx
          · exact Or.inr ⟨j, by omega, hjl, hjq⟩)
      refine ⟨hl', h', ?_, hc, hle, hh⟩
      obtain ⟨pn', e1, e2, e5⟩ := hvalid h hg
      simp only [del_lock_loop, hpa, hsa, lock_if_new, ne_eq, not_true_eq_false, if_false,
        e1, e2, e5, Bool.false_eq_true, if_true]
      exact hrun
    · -- the predecessor is not held yet
      have hfreeP : h.held (P a) = false := by
        by_contra hc
        simp only [Bool.not_eq_false] at hc
        rcases hheld _ hc with hx | ⟨j, hj, _, hjq⟩
        · exact hX a hat hx
        · have ha0 : a ≠ 0 := by omega
          have := hint j (a - 1) a (by omega) (by omega) hat hjq
          apply hnew
          rw [hprev, if_neg ha0, this]
      have hpn0 := hpn
      rw [← hg] at hpn0
      obtain ⟨pn', hpn', _⟩ := node_of_calm hpn0
      have hlk : pn'.lock = false := by rw [← held_of_node hpn']; exact hfreeP
      obtain ⟨h1, hlock, hc1, hheld1⟩ := lock_ok h (P a) pn' hpn' hlk
      obtain ⟨hl', h', hrun, hc, hle, hh⟩ := ih (a + 1) (some (P a)) (a : Int) h1 (by omega)
        (by rw [hc1]; exact hg) (by simp) (by omega) (fun q hq => by
          rw [hheld1] at hq
          by_cases hqa : q = P a
          · exact Or.inr ⟨a, by omega, le_refl _, hqa.symm⟩
          · rw [if_neg hqa] at hq
            rcases hheld q hq with hx | ⟨j, hj, hjl, hjq⟩
            · exact Or.inl hx
            · exact Or.inr ⟨j, by omega, by omega, hjq⟩)
      refine ⟨hl', h', ?_, hc, hle, hh⟩
      obtain ⟨pn1, e1, e2, e5⟩ := hvalid h1 (by rw [hc1]; exact hg)
      simp only [del_lock_loop, hpa, hsa, lock_if_new, hnew, ne_eq, not_false_eq_true, if_true,
        hlock, e1, e2, e5, Bool.false_eq_true, if_false]
      exact hrun

theorem unlock_loop_ok (pred : NodeArr) (P : Nat → Ptr) (g : Heap) (X : Ptr → Prop) (N : Nat)
    (hP : ∀ i, i < N → pred i = some (P i) ∧ ∃ pn, g.node (P i) = some pn) :
    ∀ (n b : Nat) (h : Heap), b + n = N → h.calm = g →
      (∀ q, h.held q = true → X q ∨ ∃ j, b ≤ j ∧ j < N ∧ P j = q) →
      ∃ h', unlock_loop no_failure pred n b h = some (true, h') ∧ h'.calm = g ∧
        ∀ q, h'.held q = true → X q := by
  intro n
  induction n with
  | zero =>
    intro b h hb hg hheld
    refine ⟨h, rfl, hg, fun q hq => ?_⟩
    rcases hheld q hq with hx | ⟨j, h1, h2, _⟩
    · exact hx
    · omega
  | succ n ih =>
    intro b h hb hg hheld
    obtain ⟨hpb, pn, hpn⟩ := hP b (by omega)
    rw [← hg] at hpn
    obtain ⟨pn', hpn', _⟩ := node_of_calm hpn
    obtain ⟨h1, hun, hc1, hheld1⟩ := unlock_ok h (P b) pn' hpn'
    obtain ⟨h', hrun, hc, hh⟩ := ih (b + 1) h1 (by omega) (by rw [hc1]; exact hg) (fun q hq => by
      rw [hheld1] at hq
      by_cases hqb : q = P b
      · simp [hqb] at hq
      · rw [if_neg hqb] at hq
        rcases hheld q hq with hx | ⟨j, h1, h2, h3⟩
        · exact Or.inl hx
        · refine Or.inr ⟨j, ?_, h2, h3⟩
          rcases Nat.eq_or_lt_of_le h1 with he | hlt
          · exact absurd (he ▸ h3.symm) hqb
          · exact hlt)
    exact ⟨h', by simp only [unlock_loop, hpb, hun]; exact hrun, hc, hh⟩

/-! ## What the stores change -/

theorem shape_calm (h : Heap) (p : Ptr) : h.calm.shape p = h.shape p := by
  simp only [Heap.shape, calm_node]
  cases h.node p <;> rfl

theorem rdFwd_calm (h : Heap) (p : Ptr) (i : Nat) : h.calm.rdFwd p i = h.rdFwd p i := by
  simp only [Heap.rdFwd, calm_node]
  cases h.node p <;> rfl

theorem shape_of_calm_eq {h h' : Heap} (hc : h.calm = h'.calm) (p : Ptr) :
    h.shape p = h'.shape p := by
  rw [← shape_calm h, ← shape_calm h', hc]

theorem rdFwd_of_calm_eq {h h' : Heap} (hc : h.calm = h'.calm) (p : Ptr) (i : Nat) :
    h.rdFwd p i = h'.rdFwd p i := by
  rw [← rdFwd_calm h, ← rdFwd_calm h', hc]

theorem lev_of_shape {h h' : Heap} {p : Ptr} (hs : h.shape p = h'.shape p) : h.lev p = h'.lev p := by
  simp only [Heap.shape] at hs
  simp only [Heap.lev]
  cases h1 : h.node p <;> cases h2 : h'.node p <;> simp_all

theorem valOf_of_shape {h h' : Heap} {p : Ptr} (hs : h.shape p = h'.shape p) :
    h.valOf p = h'.valOf p := by
  simp only [Heap.shape] at hs
  simp only [Heap.valOf]
  cases h1 : h.node p <;> cases h2 : h'.node p <;> simp_all

theorem wrFwd_obs (h : Heap) (p : Ptr) (i : Nat) (q : Option Ptr) (nd : hopscotch_node_t)
    (hn : h.node p = some nd) (hi : i < nd.forward.length) :
    ∃ h', h.wrFwd p i q = some h' ∧ (∀ p', h'.shape p' = h.shape p') ∧
      (∀ p', h'.held p' = h.held p') ∧ h'.log = h.log ∧
      (∀ p' i', h'.rdFwd p' i' = if p' = p ∧ i' = i then some q else h.rdFwd p' i') := by
  refine ⟨h.setNode p { nd with forward := nd.forward.set i q }, by simp [Heap.wrFwd, hn, hi],
    ?_, ?_, rfl, ?_⟩
  · intro p'
    by_cases hp : p' = p
    · subst hp
      simp [Heap.shape, Heap.setNode, node_set_self h p' nd _ hn, hn]
    · simp [Heap.shape, Heap.setNode, node_set_other h p p' _ hp]
  · intro p'
    by_cases hp : p' = p
    · subst hp
      simp [Heap.held, Heap.setNode, node_set_self h p' nd _ hn, hn]
    · simp [Heap.held, Heap.setNode, node_set_other h p p' _ hp]
  · intro p' i'
    by_cases hp : p' = p
    · subst hp
      simp only [Heap.rdFwd, Heap.setNode, node_set_self h p' nd _ hn, hn, Option.some_bind,
        true_and, List.getElem?_set]
      by_cases hii : i' = i
      · subst hii; simp [hi]
      · simp [hii, Ne.symm hii]
    · simp [Heap.rdFwd, Heap.setNode, node_set_other h p p' _ hp, hp]

theorem set_fully_linked_obs (h : Heap) (p : Ptr) (nd : hopscotch_node_t)
    (hn : h.node p = some nd) :
    (∀ p', p' ≠ p → (h.setNode p { nd with fully_linked := true }).shape p' = h.shape p') ∧
      (h.setNode p { nd with fully_linked := true }).shape p =
        some (nd.val, nd.level, true, nd.marked, nd.forward.length) ∧
      (∀ p', (h.setNode p { nd with fully_linked := true }).held p' = h.held p') ∧
      (∀ p' i', (h.setNode p { nd with fully_linked := true }).rdFwd p' i' = h.rdFwd p' i') := by
  refine ⟨?_, ?_, ?_, ?_⟩
  · intro p' hp
    simp [Heap.shape, Heap.setNode, node_set_other h p p' _ hp]
  · simp [Heap.shape, Heap.setNode, node_set_self h p nd _ hn]
  · intro p'
    by_cases hp : p' = p
    · subst hp
      simp [Heap.held, Heap.setNode, node_set_self h p' nd _ hn, hn]
    · simp [Heap.held, Heap.setNode, node_set_other h p p' _ hp]
  · intro p' i'
    by_cases hp : p' = p
    · subst hp
      simp [Heap.rdFwd, Heap.setNode, node_set_self h p' nd _ hn, hn]
    · simp [Heap.rdFwd, Heap.setNode, node_set_other h p p' _ hp]

theorem node_append_old (h : Heap) (nn : hopscotch_node_t) (p : Ptr) (hp : p < h.nodes.length) :
    (Heap.mk (h.nodes ++ [nn]) h.log).node p = h.node p := by
  simp [Heap.node, List.getElem?_append_left hp]

theorem node_append_new (h : Heap) (nn : hopscotch_node_t) :
    (Heap.mk (h.nodes ++ [nn]) h.log).node h.nodes.length = some nn := by
  simp [Heap.node]

theorem node_none_of_ge (h : Heap) (p : Ptr) (hp : h.nodes.length ≤ p) : h.node p = none := by
  simp [Heap.node, hp]

theorem add_link_loop_obs (pred succ : NodeArr) (P S : Nat → Ptr) (new : Ptr) (t : Nat)
    (hP : ∀ i, i ≤ t → pred i = some (P i) ∧ succ i = some (S i))
    (hne : ∀ i, i ≤ t → P i ≠ new) :
    ∀ (n a : Nat) (h : Heap), a + n = t + 1 →
      (∀ i, a ≤ i → i ≤ t → (∃ s, h.shape (P i) = some s ∧ i < s.2.2.2.2) ∧
        (∃ s, h.shape new = some s ∧ i < s.2.2.2.2)) →
      ∃ h', add_link_loop pred succ new n a h = some h' ∧ (∀ p', h'.shape p' = h.shape p') ∧
        (∀ p', h'.held p' = h.held p') ∧ h'.log = h.log ∧
        (∀ p' i', h'.rdFwd p' i' =
          if a ≤ i' ∧ i' ≤ t ∧ p' = P i' then some (some new)
          else if a ≤ i' ∧ i' ≤ t ∧ p' = new then some (some (S i'))
          else h.rdFwd p' i') := by
  intro n
  induction n with
  | zero =>
    intro a h ha _
    refine ⟨h, rfl, fun _ => rfl, fun _ => rfl, rfl, fun p' i' => ?_⟩
    have h1 : ¬ (a ≤ i' ∧ i' ≤ t ∧ p' = P i') := by omega
    have h2 : ¬ (a ≤ i' ∧ i' ≤ t ∧ p' = new) := by omega
    rw [if_neg h1, if_neg h2]
  | succ n ih =>
    intro a h ha hlen
    have hat : a ≤ t := by omega
    obtain ⟨hpa, hsa⟩ := hP a hat
    obtain ⟨⟨sp, hsp, hspl⟩, ⟨sn, hsn, hsnl⟩⟩ := hlen a (le_refl a) hat
    obtain ⟨nn, hnn, _, _, _, _, hnl⟩ := shape_node hsn
    obtain ⟨h1, hw1, hs1, hh1, hl1, hr1⟩ := wrFwd_obs h new a (some (S a)) nn hnn (by omega)
    have hsp1 : h1.shape (P a) = some sp := by rw [hs1]; exact hsp
    obtain ⟨np, hnp, _, _, _, _, hpl⟩ := shape_node hsp1
    obtain ⟨h2, hw2, hs2, hh2, hl2, hr2⟩ := wrFwd_obs h1 (P a) a (some new) np hnp (by omega)
    obtain ⟨h', hrun, hs', hh', hl', hr'⟩ := ih (a + 1) h2 (by omega) (fun i hi hit => by
      have := hlen i (by omega) hit
      simpa only [hs2, hs1] using this)
    refine ⟨h', ?_, ?_, ?_, ?_, ?_⟩
    · simp only [add_link_loop, hpa, hsa, hw1, hw2]
      exact hrun
    · intro p'; rw [hs', hs2, hs1]
    · intro p'; rw [hh', hh2, hh1]
    · rw [hl', hl2, hl1]
    · intro p' i'
      rw [hr', hr2, hr1]
      have hPn := hne a hat
      by_cases hia : i' = a
      · subst hia
        by_cases hp1 : p' = P i'
        · simp [hp1, hat]
        · by_cases hp2 : p' = new
          · simp [hp2, hat, Ne.symm hPn]
          · simp [hp1, hp2]
      · have e1 : (a + 1 ≤ i' ∧ i' ≤ t ∧ p' = P i') ↔ (a ≤ i' ∧ i' ≤ t ∧ p' = P i') := by
          constructor
          · rintro ⟨x, y, z⟩; exact ⟨by omega, y, z⟩
          · rintro ⟨x, y, z⟩; exact ⟨by omega, y, z⟩
        have e2 : (a + 1 ≤ i' ∧ i' ≤ t ∧ p' = new) ↔ (a ≤ i' ∧ i' ≤ t ∧ p' = new) := by
          constructor
          · rintro ⟨x, y, z⟩; exact ⟨by omega, y, z⟩
          · rintro ⟨x, y, z⟩; exact ⟨by omega, y, z⟩
        simp only [e1, e2, hia, and_false, if_false]

/-! ## Chains under stores -/

theorem firstAt_congr (lev lev' : Ptr → Nat) (i : Nat) (d : Ptr) (A : List Ptr)
    (hA : ∀ p ∈ A, lev' p = lev p) : firstAt lev' i d A = firstAt lev i d A := by
  induction A with
  | nil => rfl
  | cons p ps ih =>
    simp only [firstAt, hA p (by simp)]
    rw [ih (fun q hq => hA q (by simp [hq]))]

theorem lastAt_congr (lev lev' : Ptr → Nat) (i : Nat) (d : Ptr) (A : List Ptr)
    (hA : ∀ p ∈ A, lev' p = lev p) : lastAt lev' i d A = lastAt lev i d A := by
  induction A generalizing d with
  | nil => rfl
  | cons p ps ih =>
    simp only [lastAt, hA p (by simp)]
    split_ifs <;> exact ih _ (fun q hq => hA q (by simp [hq]))

theorem chained_frame (h h' : Heap) (i : Nat) (e : Ptr) (A : List Ptr)
    (hlev : ∀ p ∈ A, h'.lev p = h.lev p)
    (hfw : ∀ p ∈ A, i ≤ h.lev p → h'.rdFwd p i = h.rdFwd p i)
    (hch : Chained h i e A) : Chained h' i e A := by
  induction A with
  | nil => trivial
  | cons p ps ih =>
    have hl' : ∀ q ∈ ps, h'.lev q = h.lev q := fun q hq => hlev q (by simp [hq])
    refine ⟨fun hp => ?_, ih hl' (fun q hq => hfw q (by simp [hq])) hch.2⟩
    rw [hlev p (by simp)] at hp
    rw [hfw p (by simp) hp, firstAt_congr h.lev h'.lev i e ps hl']
    exact hch.1 hp

/-- Redirecting the last node of level `i` of a chained list to `e'`. -/
theorem chained_retarget (h h' : Heap) (i : Nat) (e e' : Ptr) (A : List Ptr) (d : Ptr)
    (hnd : A.Nodup)
    (hlev : ∀ p ∈ A, h'.lev p = h.lev p)
    (hfw : ∀ p ∈ A, p ≠ lastAt h.lev i d A → i ≤ h.lev p → h'.rdFwd p i = h.rdFwd p i)
    (hlast : h'.rdFwd (lastAt h.lev i d A) i = some (some e'))
    (hch : Chained h i e A) : Chained h' i e' A := by
  induction A generalizing d with
  | nil => trivial
  | cons p ps ih =>
    have hl' : ∀ q ∈ ps, h'.lev q = h.lev q := fun q hq => hlev q (by simp [hq])
    have hnd' : ps.Nodup := (List.nodup_cons.1 hnd).2
    have hpn : p ∉ ps := (List.nodup_cons.1 hnd).1
    by_cases hp : i ≤ h.lev p
    · simp only [lastAt, hp, if_true] at hfw hlast
      refine ⟨fun _ => ?_, ih p hnd' hl' (fun q hq => hfw q (by simp [hq])) hlast hch.2⟩
      rw [firstAt_congr h.lev h'.lev i e' ps hl']
      rcases lastAt_mem_or h.lev i p ps with ⟨hm, _⟩ | ⟨hlow, hx⟩
      · have hne : p ≠ lastAt h.lev i p ps := fun he => hpn (he ▸ hm)
        rw [hfw p (by simp) hne hp, hch.1 hp]
        rw [firstAt_default h.lev i e e' ps ⟨_, hm, lastAt_level h.lev i p ps hp⟩]
      · rw [hx] at hlast
        have := firstAt_append_low h.lev i e' ps [] hlow
        rw [List.append_nil] at this
        rw [hlast, this]
        rfl
    · simp only [lastAt, hp, if_false] at hfw hlast
      refine ⟨fun hp' => ?_, ih d hnd' hl' (fun q hq => hfw q (by simp [hq])) hlast hch.2⟩
      rw [hlev p (by simp)] at hp'
      exact absurd hp' hp

theorem rep_mem_lt {m : Nat} {h : Heap} {L : List Ptr} (hrep : Rep m h L) (p : Ptr)
    (hp : p = 0 ∨ p = 1 ∨ p ∈ L) : p < h.nodes.length := by
  obtain ⟨nd, hnd⟩ := rep_node hrep p hp
  exact node_lt_length hnd

theorem lev_of_shape_some {h : Heap} {p : Ptr} {s : Elem × Nat × Bool × Bool × Nat}
    (hs : h.shape p = some s) : h.lev p = s.2.1 := by
  obtain ⟨nd, hnd, _, hl, _⟩ := shape_node hs
  rw [lev_of_node hnd, hl]

/-- Linking a new node of level `t` between the predecessors and successors the
Finder reported keeps the representation. -/
theorem rep_insert (m : Nat) (h h' : Heap) (L pre rest : List Ptr) (new : Ptr) (v : Elem)
    (t : Nat) (hrep : Rep m h L) (hL : L = pre ++ rest) (ht : t < m)
    (hnew : new = h.nodes.length)
    (hshape : ∀ p, p ≠ new → h'.shape p = h.shape p)
    (hshn : h'.shape new = some (v, t, true, false, t + 1))
    (hfree : ∀ p, h'.held p = false)
    (hfw : ∀ p i, h'.rdFwd p i =
      if i ≤ t ∧ p = lastAt h.lev i 0 pre then some (some new)
      else if i ≤ t ∧ p = new then some (some (firstAt h.lev i 1 rest))
      else h.rdFwd p i) :
    Rep m h' (pre ++ new :: rest) := by
  have hold : ∀ p, (p = 0 ∨ p = 1 ∨ p ∈ L) → p ≠ new := by
    intro p hp he
    have := rep_mem_lt hrep p hp
    rw [he, hnew] at this
    exact lt_irrefl _ this
  have hnewL : new ∉ L := fun hm => hold new (Or.inr (Or.inr hm)) rfl
  have hnew2 : 2 ≤ new := by have := rep_length hrep; simp only [Ptr] at *; omega
  have hlev : ∀ p, p ≠ new → h'.lev p = h.lev p := fun p hp => lev_of_shape (hshape p hp)
  have hlevn : h'.lev new = t := lev_of_shape_some hshn
  have hpre : ∀ p ∈ pre, p ∈ L := fun p hp => by rw [hL]; exact List.mem_append_left _ hp
  have hrest : ∀ p ∈ rest, p ∈ L := fun p hp => by rw [hL]; exact List.mem_append_right _ hp
  have hnd : (pre ++ rest).Nodup := hL ▸ hrep.nodup
  have h0L : (0 : Ptr) ∉ L := fun hm => by
    have := (hrep.mem 0 hm).1; simp only [Ptr] at *; omega
  have hPmem : ∀ i, lastAt h.lev i 0 pre = 0 ∨ lastAt h.lev i 0 pre ∈ pre := by
    intro i
    rcases lastAt_mem_or h.lev i 0 pre with ⟨hm, _⟩ | ⟨_, he⟩
    · exact Or.inr hm
    · exact Or.inl he
  have hPne : ∀ i, lastAt h.lev i 0 pre ≠ new := by
    intro i
    rcases hPmem i with he | hm
    · rw [he]; exact hold 0 (Or.inl rfl)
    · exact hold _ (Or.inr (Or.inr (hpre _ hm)))
  have hrestP : ∀ p ∈ rest, ∀ i, p ≠ lastAt h.lev i 0 pre := by
    intro p hp i he
    rcases hPmem i with h0 | hm
    · rw [h0] at he; rw [he] at hp; exact h0L (hrest _ hp)
    · rw [← he] at hm
      exact (List.nodup_append.1 hnd).2.2 hm hp
  constructor
  · rw [hshape 0 (hold 0 (Or.inl rfl))]; exact hrep.left
  · rw [hshape 1 (hold 1 (Or.inr (Or.inl rfl)))]; exact hrep.right
  · intro i hi
    have h1 : ¬ (i ≤ t ∧ (1 : Ptr) = lastAt h.lev i 0 pre) := by
      rintro ⟨_, he⟩
      rcases hPmem i with h0 | hm
      · rw [h0] at he; exact absurd he (by decide)
      · rw [← he] at hm
        have := (hrep.mem 1 (hpre _ hm)).1
        simp only [Ptr] at *; omega
    have h2 : ¬ (i ≤ t ∧ (1 : Ptr) = new) := by
      rintro ⟨_, he⟩; exact hold 1 (Or.inr (Or.inl rfl)) he
    rw [hfw, if_neg h1, if_neg h2]
    exact hrep.right_null i hi
  · rw [List.nodup_append] at hnd ⊢
    refine ⟨hnd.1, List.nodup_cons.2 ⟨fun hm => hnewL (hrest _ hm), hnd.2.1⟩, ?_⟩
    intro a ha hb
    rcases List.mem_cons.1 hb with he | hb
    · exact hnewL (he ▸ hpre a ha)
    · exact hnd.2.2 ha hb
  · intro p hp
    have hcases : p = new ∨ p ∈ L := by
      rcases List.mem_append.1 hp with hp | hp
      · exact Or.inr (hpre p hp)
      · rcases List.mem_cons.1 hp with hp | hp
        · exact Or.inl hp
        · exact Or.inr (hrest p hp)
    rcases hcases with he | hm
    · subst he; exact ⟨hnew2, v, t, ht, hshn⟩
    · rw [hshape p (hold p (Or.inr (Or.inr hm)))]; exact hrep.mem p hm
  · exact hfree
  · intro i hi
    have hch := hrep.link i hi
    rw [hL, ← List.cons_append, chained_append] at hch
    have hlev0 : i ≤ h.lev 0 := by rw [rep_lev_left hrep]; omega
    have hlevrest : ∀ p ∈ rest, h'.lev p = h.lev p := fun p hp =>
      hlev p (hold p (Or.inr (Or.inr (hrest p hp))))
    have hlevpre : ∀ p ∈ (0 : Ptr) :: pre, h'.lev p = h.lev p := by
      intro p hp
      rcases List.mem_cons.1 hp with he | hp
      · rw [he]; exact hlev 0 (hold 0 (Or.inl rfl))
      · exact hlev p (hold p (Or.inr (Or.inr (hpre p hp))))
    have hpreold : ∀ p ∈ (0 : Ptr) :: pre, p ≠ new := by
      intro p hp
      rcases List.mem_cons.1 hp with he | hp
      · rw [he]; exact hold 0 (Or.inl rfl)
      · exact hold p (Or.inr (Or.inr (hpre p hp)))
    have hfr : Chained h' i 1 rest := by
      refine chained_frame h h' i 1 rest hlevrest (fun p hp _ => ?_) hch.2
      have h1 : ¬ (i ≤ t ∧ p = lastAt h.lev i 0 pre) := fun hc => hrestP p hp i hc.2
      have h2 : ¬ (i ≤ t ∧ p = new) := fun hc => hold p (Or.inr (Or.inr (hrest p hp))) hc.2
      rw [hfw, if_neg h1, if_neg h2]
    have hfa : firstAt h'.lev i 1 rest = firstAt h.lev i 1 rest :=
      firstAt_congr h.lev h'.lev i 1 rest hlevrest
    rw [← List.cons_append, chained_append]
    by_cases hit : i ≤ t
    · have hf1 : firstAt h'.lev i 1 (new :: rest) = new := by simp [firstAt, hlevn, hit]
      rw [hf1]
      constructor
      · have hnd0 : ((0 : Ptr) :: pre).Nodup :=
          List.nodup_cons.2 ⟨fun hm => h0L (hpre 0 hm), (List.nodup_append.1 hnd).1⟩
        have hl0 : lastAt h.lev i 0 ((0 : Ptr) :: pre) = lastAt h.lev i 0 pre := by
          simp [lastAt, hlev0]
        refine chained_retarget h h' i _ new (0 :: pre) 0 hnd0 hlevpre (fun p hp hne _ => ?_) ?_
          hch.1
        · rw [hl0] at hne
          have h1 : ¬ (i ≤ t ∧ p = lastAt h.lev i 0 pre) := fun hc => hne hc.2
          have h2 : ¬ (i ≤ t ∧ p = new) := fun hc => hpreold p hp hc.2
          rw [hfw, if_neg h1, if_neg h2]
        · rw [hl0, hfw, if_pos ⟨hit, rfl⟩]
      · refine ⟨fun _ => ?_, hfr⟩
        have h1 : ¬ (i ≤ t ∧ new = lastAt h.lev i 0 pre) := fun hc => hPne i hc.2.symm
        rw [hfw, if_neg h1, if_pos ⟨hit, rfl⟩, hfa]
    · have hf1 : firstAt h'.lev i 1 (new :: rest) = firstAt h.lev i 1 rest := by
        have : ¬ i ≤ h'.lev new := by rw [hlevn]; exact hit
        simp only [firstAt, this, if_false, hfa]
      rw [hf1]
      constructor
      · refine chained_frame h h' i _ (0 :: pre) hlevpre (fun p hp _ => ?_) hch.1
        have h1 : ¬ (i ≤ t ∧ p = lastAt h.lev i 0 pre) := fun hc => hit hc.1
        have h2 : ¬ (i ≤ t ∧ p = new) := fun hc => hit hc.1
        rw [hfw, if_neg h1, if_neg h2]
      · refine ⟨fun hle => ?_, hfr⟩
        rw [hlevn] at hle
        exact absurd hle hit

/-! ## `hopscotch_list_add_el` on a represented list -/

theorem ext_call_ok (h : Heap) (e : Ev) :
    ext_call no_failure h e = (true, { h with log := e :: h.log }) := by
  simp [ext_call, no_failure]

theorem length_of_calm_eq {h h' : Heap} (hc : h.calm = h'.calm) :
    h.nodes.length = h'.nodes.length := by
  have := congrArg (fun x => x.nodes.length) hc
  simpa [Heap.calm] using this

theorem held_none_of_ge (h : Heap) (p : Ptr) (hp : h.nodes.length ≤ p) : h.held p = false := by
  simp [Heap.held, node_none_of_ge h p hp]

theorem shape_none_of_ge (h : Heap) (p : Ptr) (hp : h.nodes.length ≤ p) : h.shape p = none := by
  simp [Heap.shape, node_none_of_ge h p hp]

theorem rdFwd_none_of_ge (h : Heap) (p : Ptr) (i : Nat) (hp : h.nodes.length ≤ p) :
    h.rdFwd p i = none := by
  simp [Heap.rdFwd, node_none_of_ge h p hp]

/-- The Finder's predecessor and successor at a level below `m` are linked,
live nodes of the represented list. -/
theorem split_link (cmp : Cmp) (h : Heap) (v : Elem) (m : Nat) (L : List Ptr)
    (hrep : Rep m h L) (i : Nat) (hi : i < m) :
    h.rdFwd (lastAt h.lev i 0 (split_at cmp h v m L).1) i =
      some (some (firstAt h.lev i 1 (split_at cmp h v m L).2)) := by
  have hch := hrep.link i hi
  rw [split_at_append cmp h v m L, ← List.cons_append, chained_append] at hch
  have hlev0 : i ≤ h.lev 0 := by rw [rep_lev_left hrep]; omega
  have := chained_last_link h i _ 0 _ hch.1 hlev0
  exact this

theorem add_found (list : hopscotch_list_t) (cmp : Cmp) (h : Heap) (v : Elem) (m : Nat)
    (L : List Ptr) (env : Env) (rnd : Nat → ℚ) (hu : Uses list cmp m) (hrep : Rep m h L)
    (hok : ∀ p, p = 1 ∨ p ∈ L → (cmp (h.valOf p) v).1 = SUCCESS)
    (hstop : ltq cmp h v 1 = false)
    (hf : (matchLevel (eqq cmp h v) h.lev (split_at cmp h v m L).2 m).isSome = true) :
    hopscotch_list_add_el env rnd list h v = some (SUCCESS, some false, h) := by
  obtain ⟨fs, hfind, hlf, harr, _⟩ := find_spec list cmp h v m L hu hrep hok hstop
  obtain ⟨l, hml⟩ := Option.isSome_iff_exists.1 hf
  obtain ⟨hlm, _, _⟩ := matchLevel_some h.lev _ _ _ _ hml
  obtain ⟨nd, hnd, hfl, hmk, _⟩ := rep_live hrep _ (Or.inr (split_succ_mem cmp h v m L l))
  simp [hopscotch_list_add_el, hfind, hf, hlf, hml, (harr l hlm).2, hnd, hfl, hmk]

theorem set_append_last (l : List hopscotch_node_t) (a b : hopscotch_node_t) :
    (l ++ [a]).set l.length b = l ++ [b] := by
  induction l with
  | nil => rfl
  | cons x xs ih => simp [List.set, ih]

/-- The steps of a successful `hopscotch_list_add_el`, put together. -/
theorem add_compute (list : hopscotch_list_t) (h : Heap) (v : Elem) (rnd : Nat → ℚ)
    (fs : FindState) (hl : Int) (h1 h5 h7 : Heap) (n5 : hopscotch_node_t) (t : Nat)
    (ht : t = _list_rand_level rnd list.opts.rand_level_p list.opts.max_level)
    (hmalloc : list.opts.gc_malloc.isSome = true)
    (hfind : _list_find_el list h v = some (LIST__FIND_EL_VAL_NOT_FOUND, fs))
    (hlock : add_lock_loop no_failure fs.pred_nodes fs.succ_nodes (t + 1) 0 none (-1) h =
      some (LockOut.finished true hl h1))
    (hlink : add_link_loop fs.pred_nodes fs.succ_nodes h1.nodes.length (t + 1) 0
      { nodes := h1.nodes ++ [{ forward := List.replicate (t + 1) none, fully_linked := false,
                                level := t % 256, lock := false, marked := false, val := v }],
        log := Ev.malloc :: Ev.mutex_init :: Ev.malloc :: h1.log } = some h5)
    (hn5 : h5.node h1.nodes.length = some n5)
    (hunlock : unlock_loop no_failure fs.pred_nodes (hl + 1).toNat 0
      (h5.setNode h1.nodes.length { n5 with fully_linked := true }) = some (true, h7)) :
    hopscotch_list_add_el no_failure rnd list h v = some (SUCCESS, some true, h7) := by
  obtain ⟨al, hal⟩ := Option.isSome_iff_exists.1 hmalloc
  simp only [hopscotch_list_add_el, hfind, ← ht, ne_eq, not_true_eq_false, if_false, hlock, hal,
    ext_call_ok, Bool.not_true, Bool.false_eq_true, Heap.setNode, List.length_append,
    List.length_singleton]
  simp only [set_append_last]
  simp only [Heap.setNode] at hunlock
  rw [hlink]
  simp only [hn5, hunlock]

theorem calm_node_free {h : Heap} {p : Ptr} {nd : hopscotch_node_t} (hn : h.node p = some nd)
    (hf : nd.lock = false) : h.calm.node p = some nd := by
  rw [calm_node, hn]
  cases nd
  simp_all

/-- On a represented list, when the Finder reports no match and the drawn level
is below `max_level`, `hopscotch_list_add_el` links a new node after the
Finder's split and reports `added = true`. -/
theorem add_link (list : hopscotch_list_t) (cmp : Cmp) (h : Heap) (v : Elem) (m : Nat)
    (L : List Ptr) (rnd : Nat → ℚ) (hu : Uses list cmp m) (hrep : Rep m h L)
    (hok : ∀ p, p = 1 ∨ p ∈ L → (cmp (h.valOf p) v).1 = SUCCESS)
    (hstop : ltq cmp h v 1 = false)
    (hnf : matchLevel (eqq cmp h v) h.lev (split_at cmp h v m L).2 m = none)
    (ht : _list_rand_level rnd list.opts.rand_level_p list.opts.max_level < m) :
    ∃ h', hopscotch_list_add_el no_failure rnd list h v = some (SUCCESS, some true, h') ∧
      Rep m h' ((split_at cmp h v m L).1 ++ h.nodes.length :: (split_at cmp h v m L).2) ∧
      (∀ p, p ≠ h.nodes.length → h'.shape p = h.shape p) ∧
      h'.shape h.nodes.length =
        some (v, _list_rand_level rnd list.opts.rand_level_p list.opts.max_level, true, false,
          _list_rand_level rnd list.opts.rand_level_p list.opts.max_level + 1) := by
  obtain ⟨fs, hfind, _, harr, _⟩ := find_spec list cmp h v m L hu hrep hok hstop
  simp only [hnf, Option.isSome_none, Bool.false_eq_true, if_false] at hfind
  set t := _list_rand_level rnd list.opts.rand_level_p list.opts.max_level with htdef
  set pre := (split_at cmp h v m L).1 with hpre
  set rest := (split_at cmp h v m L).2 with hrest
  set P : Nat → Ptr := fun i => lastAt h.lev i 0 pre with hPdef
  set S : Nat → Ptr := fun i => firstAt h.lev i 1 rest with hSdef
  have hL : L = pre ++ rest := split_at_append cmp h v m L
  have hlev0 : h.lev 0 = m - 1 := rep_lev_left hrep
  have hPS : ∀ i, i ≤ t → fs.pred_nodes i = some (P i) ∧ fs.succ_nodes i = some (S i) :=
    fun i hi => harr i (by omega)
  have hPmem : ∀ i, P i = 0 ∨ P i = 1 ∨ P i ∈ L := fun i => by
    rcases split_pred_mem cmp h v m L i with h0 | hm
    · exact Or.inl h0
    · exact Or.inr (Or.inr hm)
  have hSmem : ∀ i, S i = 0 ∨ S i = 1 ∨ S i ∈ L := fun i => by
    rcases split_succ_mem cmp h v m L i with h0 | hm
    · exact Or.inr (Or.inl h0)
    · exact Or.inr (Or.inr hm)
  have hPlev : ∀ i, i < m → i ≤ h.lev (P i) := fun i hi =>
    lastAt_level h.lev i 0 pre (by rw [hlev0]; omega)
  -- the forward array of a predecessor reaches its level
  have hPlen : ∀ i, i < m → ∃ s, h.shape (P i) = some s ∧ i < s.2.2.2.2 := by
    intro i hi
    have hl := hPlev i hi
    rcases hPmem i with h0 | h1 | hm
    · rw [h0]; exact ⟨_, hrep.left, hi⟩
    · rw [h1]; exact ⟨_, hrep.right, hi⟩
    · obtain ⟨_, val, lvl, _, hs⟩ := hrep.mem _ hm
      rw [lev_of_shape_some hs] at hl
      exact ⟨_, hs, Nat.lt_succ_of_le hl⟩
  have hval : ∀ i, i ≤ t → ∃ pn sn, h.calm.node (P i) = some pn ∧ pn.marked = false ∧
      h.calm.node (S i) = some sn ∧ sn.marked = false ∧ pn.forward[i]? = some (some (S i)) := by
    intro i hi
    obtain ⟨pn, hpn, _, hpm, hpl⟩ := rep_live hrep (P i) (hPmem i)
    obtain ⟨sn, hsn, _, hsm, hsl⟩ := rep_live hrep (S i) (hSmem i)
    have hf := forward_of_rdFwd hpn (split_link cmp h v m L hrep i (by omega))
    exact ⟨_, _, calm_node_free hpn hpl, hpm, calm_node_free hsn hsl, hsm, hf⟩
  have hint : ∀ j k i, j ≤ k → k ≤ i → i ≤ t → P j = P i → P k = P i := by
    intro j k i hjk hki hit he
    exact lastAt_interval h.lev i j k 0 pre hjk hki (by rw [hlev0]; omega) he
  obtain ⟨hl, h1, hlock, hc1, hle, hheld1⟩ :=
    add_lock_loop_ok fs.pred_nodes fs.succ_nodes P S h.calm (fun _ => False) t hPS hval hint
      (fun _ _ hx => hx) (t + 1) 0 none (-1) h (by omega) rfl (by simp) (by omega)
      (fun q hq => by rw [hrep.free q] at hq; cases hq)
  have hlen1 : h1.nodes.length = h.nodes.length := length_of_calm_eq hc1
  have htm : t % 256 = t := by
    rw [htdef]; simp only [_list_rand_level, Nat.mod_mod]
  -- the heap with the new node allocated
  set nn : hopscotch_node_t :=
    { forward := List.replicate (t + 1) none, fully_linked := false, level := t % 256,
      lock := false, marked := false, val := v } with hnn
  set hA : Heap :=
    { nodes := h1.nodes ++ [nn], log := Ev.malloc :: Ev.mutex_init :: Ev.malloc :: h1.log }
    with hAdef
  have hAold : ∀ p, p < h.nodes.length → hA.node p = h1.node p := by
    intro p hp
    simp only [hAdef, Heap.node]
    exact List.getElem?_append_left (by rw [hlen1]; exact hp)
  have hAnew : hA.node h.nodes.length = some nn := by
    simp only [hAdef, Heap.node, ← hlen1]
    simp
  have hAbig : ∀ p, h.nodes.length < p → hA.node p = none := by
    intro p hp
    apply node_none_of_ge
    simp only [hAdef, List.length_append, List.length_singleton, hlen1]
    simp only [Ptr] at *; omega
  have hAshape : ∀ p, p ≠ h.nodes.length → hA.shape p = h.shape p := by
    intro p hp
    rcases Nat.lt_or_gt_of_ne hp with hlt | hgt
    · rw [← shape_of_calm_eq hc1 p]
      simp only [Heap.shape, hAold p hlt]
    · simp only [Heap.shape, hAbig p hgt]
      rw [node_none_of_ge h p (le_of_lt hgt)]
  have hAshn : hA.shape h.nodes.length = some (v, t, false, false, t + 1) := by
    simp [Heap.shape, hAnew, hnn, htm]
  have hAheld : ∀ p, hA.held p = true → h1.held p = true := by
    intro p hp
    rcases Nat.lt_trichotomy p h.nodes.length with hlt | he | hgt
    · simpa [Heap.held, hAold p hlt] using hp
    · rw [he] at hp; simp [Heap.held, hAnew, hnn] at hp
    · simp [Heap.held, hAbig p hgt] at hp
  have hAfw : ∀ p i, p ≠ h.nodes.length → hA.rdFwd p i = h.rdFwd p i := by
    intro p i hp
    rcases Nat.lt_or_gt_of_ne hp with hlt | hgt
    · rw [← rdFwd_of_calm_eq hc1 p i]
      simp only [Heap.rdFwd, hAold p hlt]
    · simp only [Heap.rdFwd, hAbig p hgt]
      rw [node_none_of_ge h p (le_of_lt hgt)]
  have hAfwn : ∀ i, t < i → hA.rdFwd h.nodes.length i = none := by
    intro i hi
    simp only [Heap.rdFwd, hAnew, Option.some_bind, hnn]
    simp; omega
  have hPold : ∀ i, P i ≠ h.nodes.length := fun i he => by
    have := rep_mem_lt hrep (P i) (hPmem i)
    rw [he] at this; exact lt_irrefl _ this
  obtain ⟨h5, hlink, hs5, hh5, _, hr5⟩ :=
    add_link_loop_obs fs.pred_nodes fs.succ_nodes P S h.nodes.length t hPS (fun i _ => hPold i)
      (t + 1) 0 hA (by omega) (fun i _ hi => by
        refine ⟨?_, ⟨_, hAshn, Nat.lt_succ_of_le hi⟩⟩
        rw [hAshape _ (hPold i)]
        exact hPlen i (by omega))
  obtain ⟨n5, hn5, hn5v, hn5l, _, hn5m, hn5f⟩ := shape_node ((hs5 _).trans hAshn)
  obtain ⟨hs6, hs6n, hh6, hr6⟩ := set_fully_linked_obs h5 h.nodes.length n5 hn5
  set h6 := h5.setNode h.nodes.length { n5 with fully_linked := true } with h6def
  have hNle : (hl + 1).toNat ≤ t + 1 := by omega
  obtain ⟨h7, hunlock, hc7, hh7⟩ :=
    unlock_loop_ok fs.pred_nodes P h6.calm (fun _ => False) (hl + 1).toNat (fun i hi => by
        refine ⟨(hPS i (by omega)).1, ?_⟩
        obtain ⟨s, hs, _⟩ := hPlen i (by omega)
        have : h6.calm.shape (P i) = some s := by
          rw [shape_calm, hs6 _ (hPold i), hs5, hAshape _ (hPold i)]; exact hs
        obtain ⟨nd, hnd, _⟩ := shape_node this
        exact ⟨nd, hnd⟩)
      (hl + 1).toNat 0 h6 (by omega) rfl (fun q hq => by
        rw [hh6, hh5] at hq
        rcases hheld1 q (hAheld q hq) with hx | ⟨j, _, hjl, hjq⟩
        · exact Or.inl hx
        · exact Or.inr ⟨j, by omega, by omega, hjq⟩)
  have h7shape : ∀ p, p ≠ h.nodes.length → h7.shape p = h.shape p := fun p hp => by
    rw [shape_of_calm_eq hc7 p, hs6 p hp, hs5, hAshape p hp]
  have h7shn : h7.shape h.nodes.length = some (v, t, true, false, t + 1) := by
    rw [shape_of_calm_eq hc7, hs6n]
    simp only [hn5v, hn5l, hn5m, hn5f]
  have h7free : ∀ p, h7.held p = false := fun p => by
    cases hp : h7.held p with
    | false => rfl
    | true => exact (hh7 p hp).elim
  have h7fw : ∀ p i, h7.rdFwd p i =
      if i ≤ t ∧ p = lastAt h.lev i 0 pre then some (some h.nodes.length)
      else if i ≤ t ∧ p = h.nodes.length then some (some (firstAt h.lev i 1 rest))
      else h.rdFwd p i := by
    intro p i
    rw [rdFwd_of_calm_eq hc7, hr6, hr5]
    simp only [Nat.zero_le, true_and]
    by_cases h1 : i ≤ t ∧ p = P i
    · rw [if_pos h1, if_pos h1]
    · rw [if_neg h1, if_neg h1]
      by_cases h2 : i ≤ t ∧ p = h.nodes.length
      · rw [if_pos h2, if_pos h2]
      · rw [if_neg h2, if_neg h2]
        by_cases hp : p = h.nodes.length
        · have hi : t < i := by
            by_contra hc; exact h2 ⟨by omega, hp⟩
          rw [hp, hAfwn i hi, rdFwd_none_of_ge h _ i (le_refl _)]
        · exact hAfw p i hp
  refine ⟨h7, ?_, ?_, h7shape, h7shn⟩
  · refine add_compute list h v rnd fs hl h1 h5 h7 n5 t htdef hu.malloc hfind hlock ?_ ?_ ?_
    · rw [hlen1]; exact hlink
    · rw [hlen1]; exact hn5
    · rw [hlen1]; exact hunlock
  · exact rep_insert m h h7 L pre rest h.nodes.length v t hrep hL ht rfl h7shape h7shn h7free h7fw

/-! ## `hopscotch_list_del_el` on a represented list -/

theorem firstAt_split (lev : Ptr → Nat) (l : Nat) (d : Ptr) (A : List Ptr)
    (hm : firstAt lev l d A ∈ A) (hl : l ≤ lev (firstAt lev l d A)) :
    ∃ seg rest2, A = seg ++ firstAt lev l d A :: rest2 ∧ ∀ p ∈ seg, lev p < l := by
  induction A with
  | nil => simp at hm
  | cons p ps ih =>
    by_cases hp : l ≤ lev p
    · exact ⟨[], ps, by simp [firstAt, hp], by simp⟩
    · simp only [firstAt, hp, if_false] at hm hl ⊢
      rcases List.mem_cons.1 hm with he | hm'
      · rw [he] at hl; exact absurd hl hp
      · obtain ⟨seg, rest2, h1, h2⟩ := ih hm' hl
        refine ⟨p :: seg, rest2, by rw [List.cons_append, ← h1], ?_⟩
        intro q hq
        rcases List.mem_cons.1 hq with rfl | hq
        · omega
        · exact h2 q hq

theorem del_unlink_loop_obs (pred : NodeArr) (P : Nat → Ptr) (c : Ptr) :
    ∀ (n : Nat) (h : Heap),
      (∀ i, i < n → pred i = some (P i) ∧ P i ≠ c ∧ (∃ s, h.shape (P i) = some s ∧ i < s.2.2.2.2) ∧
        ∃ q, h.rdFwd c i = some q) →
      ∃ h', del_unlink_loop pred c n h = some h' ∧ (∀ p', h'.shape p' = h.shape p') ∧
        (∀ p', h'.held p' = h.held p') ∧ h'.log = h.log ∧
        (∀ p' i', h'.rdFwd p' i' =
          if i' < n ∧ p' = P i' then h.rdFwd c i' else h.rdFwd p' i') := by
  intro n
  induction n with
  | zero =>
    intro h _
    exact ⟨h, rfl, fun _ => rfl, fun _ => rfl, rfl, fun p' i' => by simp⟩
  | succ n ih =>
    intro h hpre
    obtain ⟨hpn, hne, ⟨s, hs, hsl⟩, q, hq⟩ := hpre n (by omega)
    obtain ⟨nd, hnd, _, _, _, _, hlen⟩ := shape_node hs
    obtain ⟨h1, hw1, hs1, hh1, hl1, hr1⟩ := wrFwd_obs h (P n) n q nd hnd (by omega)
    have hc1 : ∀ i, h1.rdFwd c i = h.rdFwd c i := by
      intro i
      rw [hr1, if_neg (fun hc => hne hc.1.symm)]
    obtain ⟨h', hrun, hs', hh', hl', hr'⟩ := ih h1 (fun i hi => by
      obtain ⟨a, b, c', d⟩ := hpre i (by omega)
      refine ⟨a, b, ?_, ?_⟩
      · simpa only [hs1] using c'
      · rw [hc1]; exact d)
    refine ⟨h', ?_, ?_, ?_, ?_, ?_⟩
    · simp only [del_unlink_loop, hpn, hq, hw1]
      exact hrun
    · intro p'; rw [hs', hs1]
    · intro p'; rw [hh', hh1]
    · rw [hl', hl1]
    · intro p' i'
      rw [hr', hc1, hr1]
      by_cases hin : i' = n
      · subst hin
        by_cases hp : p' = P i'
        · simp [hp, hq]
        · simp [hp]
      · have e1 : (i' < n + 1 ∧ p' = P i') ↔ (i' < n ∧ p' = P i') := by
          constructor
          · rintro ⟨x, y⟩; exact ⟨by omega, y⟩
          · rintro ⟨x, y⟩; exact ⟨by omega, y⟩
        simp only [e1, hin, and_false, if_false]

/-- Swinging the predecessors of a node past it at all its levels removes it,
together with the lower nodes between the Finder's split and it, from the
represented list. -/
theorem rep_delete (m : Nat) (h h' : Heap) (L pre seg rest2 : List Ptr) (c : Ptr) (l : Nat)
    (hrep : Rep m h L) (hL : L = pre ++ (seg ++ c :: rest2)) (hlc : h.lev c = l)
    (hseg : ∀ p ∈ seg, h.lev p < l)
    (hshape : ∀ p, p ≠ c → h'.shape p = h.shape p)
    (hfree : ∀ p, h'.held p = false)
    (hfw : ∀ p i, h'.rdFwd p i =
      if i ≤ l ∧ p = lastAt h.lev i 0 pre then h.rdFwd c i else h.rdFwd p i) :
    Rep m h' (pre ++ rest2) := by
  have hnd : (pre ++ (seg ++ c :: rest2)).Nodup := hL ▸ hrep.nodup
  have hcL : c ∈ L := by rw [hL]; simp
  have hpre : ∀ p ∈ pre, p ∈ L := fun p hp => by rw [hL]; exact List.mem_append_left _ hp
  have hrest : ∀ p ∈ rest2, p ∈ L := fun p hp => by rw [hL]; simp [hp]
  have hprec : ∀ p ∈ pre, p ≠ c := by
    intro p hp he
    exact (List.nodup_append.1 hnd).2.2 hp (by rw [he]; simp)
  have hrestc : ∀ p ∈ rest2, p ≠ c := by
    intro p hp he
    have h1 := (List.nodup_append.1 hnd).2.1
    have h2 := (List.nodup_append.1 h1).2.1
    exact (List.nodup_cons.1 h2).1 (he ▸ hp)
  have h0L : (0 : Ptr) ∉ L := fun hm => by
    have := (hrep.mem 0 hm).1; simp only [Ptr] at *; omega
  have h1L : (1 : Ptr) ∉ L := fun hm => by
    have := (hrep.mem 1 hm).1; simp only [Ptr] at *; omega
  have hc0 : (0 : Ptr) ≠ c := fun he => h0L (he ▸ hcL)
  have hc1 : (1 : Ptr) ≠ c := fun he => h1L (he ▸ hcL)
  have hPmem : ∀ i, lastAt h.lev i 0 pre = 0 ∨ lastAt h.lev i 0 pre ∈ pre := by
    intro i
    rcases lastAt_mem_or h.lev i 0 pre with ⟨hm, _⟩ | ⟨_, he⟩
    · exact Or.inr hm
    · exact Or.inl he
  have hrestP : ∀ p ∈ rest2, ∀ i, p ≠ lastAt h.lev i 0 pre := by
    intro p hp i he
    rcases hPmem i with h0 | hm
    · rw [h0] at he; rw [he] at hp; exact h0L (hrest _ hp)
    · rw [← he] at hm
      exact (List.nodup_append.1 hnd).2.2 hm (by simp [hp])
  have hlev : ∀ p, p ≠ c → h'.lev p = h.lev p := fun p hp => lev_of_shape (hshape p hp)
  constructor
  · rw [hshape 0 hc0]; exact hrep.left
  · rw [hshape 1 hc1]; exact hrep.right
  · intro i hi
    have h1 : ¬ (i ≤ l ∧ (1 : Ptr) = lastAt h.lev i 0 pre) := by
      rintro ⟨_, he⟩
      rcases hPmem i with h0 | hm
      · rw [h0] at he; exact absurd he (by decide)
      · rw [← he] at hm; exact h1L (hpre _ hm)
    rw [hfw, if_neg h1]
    exact hrep.right_null i hi
  · have h1 := List.nodup_append.1 hnd
    have h2 := List.nodup_append.1 h1.2.1
    rw [List.nodup_append]
    refine ⟨h1.1, (List.nodup_cons.1 h2.2.1).2, ?_⟩
    intro a ha hb
    exact h1.2.2 ha (by simp [hb])
  · intro p hp
    rcases List.mem_append.1 hp with hp | hp
    · rw [hshape p (hprec p hp)]; exact hrep.mem p (hpre p hp)
    · rw [hshape p (hrestc p hp)]; exact hrep.mem p (hrest p hp)
  · exact hfree
  · intro i hi
    have hch := hrep.link i hi
    rw [hL, ← List.cons_append, chained_append, chained_append] at hch
    obtain ⟨hA, _, hB1, hB2⟩ := hch
    have hlev0 : i ≤ h.lev 0 := by rw [rep_lev_left hrep]; omega
    have hlevrest : ∀ p ∈ rest2, h'.lev p = h.lev p := fun p hp => hlev p (hrestc p hp)
    have hlevpre : ∀ p ∈ (0 : Ptr) :: pre, h'.lev p = h.lev p := by
      intro p hp
      rcases List.mem_cons.1 hp with he | hp
      · rw [he]; exact hlev 0 hc0
      · exact hlev p (hprec p hp)
    have hfr : Chained h' i 1 rest2 := by
      refine chained_frame h h' i 1 rest2 hlevrest (fun p hp _ => ?_) hB2
      have h1 : ¬ (i ≤ l ∧ p = lastAt h.lev i 0 pre) := fun hc => hrestP p hp i hc.2
      rw [hfw, if_neg h1]
    have hfa : firstAt h'.lev i 1 rest2 = firstAt h.lev i 1 rest2 :=
      firstAt_congr h.lev h'.lev i 1 rest2 hlevrest
    rw [← List.cons_append, chained_append, hfa]
    refine ⟨?_, hfr⟩
    by_cases hil : i ≤ l
    · have hnd0 : ((0 : Ptr) :: pre).Nodup :=
        List.nodup_cons.2 ⟨fun hm => h0L (hpre 0 hm), (List.nodup_append.1 hnd).1⟩
      have hl0 : lastAt h.lev i 0 ((0 : Ptr) :: pre) = lastAt h.lev i 0 pre := by
        simp [lastAt, hlev0]
      refine chained_retarget h h' i _ _ (0 :: pre) 0 hnd0 hlevpre (fun p hp hne _ => ?_) ?_ hA
      · rw [hl0] at hne
        have h1 : ¬ (i ≤ l ∧ p = lastAt h.lev i 0 pre) := fun hc => hne hc.2
        rw [hfw, if_neg h1]
      · rw [hl0, hfw, if_pos ⟨hil, rfl⟩]
        exact hB1 (by rw [hlc]; exact hil)
    · have hlow : ∀ p ∈ seg ++ [c], h.lev p < i := by
        intro p hp
        rcases List.mem_append.1 hp with hp | hp
        · have := hseg p hp; omega
        · rw [List.mem_singleton.1 hp, hlc]; omega
      have hend : firstAt h.lev i 1 (seg ++ c :: rest2) = firstAt h.lev i 1 rest2 := by
        have := firstAt_append_low h.lev i 1 (seg ++ [c]) rest2 hlow
        simpa using this
      rw [hend] at hA
      refine chained_frame h h' i _ (0 :: pre) hlevpre (fun p _ _ => ?_) hA
      have h1 : ¬ (i ≤ l ∧ p = lastAt h.lev i 0 pre) := fun hc => hil hc.1
      rw [hfw, if_neg h1]

theorem del_not_found (list : hopscotch_list_t) (cmp : Cmp) (h : Heap) (v : Elem) (m : Nat)
    (L : List Ptr) (env : Env) (hu : Uses list cmp m) (hrep : Rep m h L)
    (hok : ∀ p, p = 1 ∨ p ∈ L → (cmp (h.valOf p) v).1 = SUCCESS)
    (hstop : ltq cmp h v 1 = false)
    (hnf : matchLevel (eqq cmp h v) h.lev (split_at cmp h v m L).2 m = none) :
    hopscotch_list_del_el env list h v = none := by
  obtain ⟨fs, hfind, hlf, _, _⟩ := find_spec list cmp h v m L hu hrep hok hstop
  simp [hopscotch_list_del_el, hfind, hnf, hlf]

/-- The steps of a successful `hopscotch_list_del_el`, put together. -/
theorem del_compute (list : hopscotch_list_t) (h : Heap) (v : Elem)
    (fs : FindState) (l : Nat) (c : Ptr) (nd nd1 : hopscotch_node_t) (hl : Int)
    (h1 h3 h4 h5 h6 : Heap)
    (hfind : _list_find_el list h v = some (SUCCESS, fs))
    (hlf : fs.level_found = some l) (hsucc : fs.succ_nodes l = some c)
    (hnd : h.node c = some nd) (hcan : _list_can_del_el nd l = true)
    (hlock : pthread_mutex_lock no_failure h c = some (true, h1))
    (hnd1 : h1.node c = some nd1) (hmk : nd1.marked = false)
    (hloop : del_lock_loop no_failure fs.pred_nodes fs.succ_nodes (nd.level + 1) 0 none (-1)
      (h1.setNode c { nd1 with marked := true }) = some (LockOut.finished true hl h3))
    (hunlink : del_unlink_loop fs.pred_nodes c (nd.level + 1) h3 = some h4)
    (hun1 : pthread_mutex_unlock no_failure h4 c = some (true, h5))
    (hun2 : unlock_loop no_failure fs.pred_nodes (hl + 1).toNat 0 h5 = some (true, h6)) :
    hopscotch_list_del_el no_failure list h v = some (SUCCESS, some true, h6) := by
  simp only [hopscotch_list_del_el, hfind, hlf, hsucc, Option.some_bind, hnd, Option.map_some',
    hcan, ne_eq, and_true, hlock, hnd1, hmk, Bool.false_eq_true, if_false, hloop, hunlink, hun1,
    hun2]
  simp

theorem set_marked_obs (h : Heap) (p : Ptr) (nd : hopscotch_node_t) (hn : h.node p = some nd) :
    (∀ p', p' ≠ p → (h.setNode p { nd with marked := true }).shape p' = h.shape p') ∧
      (h.setNode p { nd with marked := true }).shape p =
        some (nd.val, nd.level, nd.fully_linked, true, nd.forward.length) ∧
      (∀ p', (h.setNode p { nd with marked := true }).held p' = h.held p') ∧
      (∀ p' i', (h.setNode p { nd with marked := true }).rdFwd p' i' = h.rdFwd p' i') := by
  refine ⟨?_, ?_, ?_, ?_⟩
  · intro p' hp
    simp [Heap.shape, Heap.setNode, node_set_other h p p' _ hp]
  · simp [Heap.shape, Heap.setNode, node_set_self h p nd _ hn]
  · intro p'
    by_cases hp : p' = p
    · subst hp
      simp [Heap.held, Heap.setNode, node_set_self h p' nd _ hn, hn]
    · simp [Heap.held, Heap.setNode, node_set_other h p p' _ hp]
  · intro p' i'
    by_cases hp : p' = p
    · subst hp
      simp [Heap.rdFwd, Heap.setNode, node_set_self h p' nd _ hn, hn]
    · simp [Heap.rdFwd, Heap.setNode, node_set_other h p p' _ hp]

/-- The node the Finder matched is a node of the represented list whose level
is the level of the match, and only lower nodes lie between the split and
it. -/
theorem match_node (cmp : Cmp) (h : Heap) (v : Elem) (m : Nat) (L : List Ptr)
    (hrep : Rep m h L) (heq1 : eqq cmp h v 1 = false) (l : Nat)
    (hml : matchLevel (eqq cmp h v) h.lev (split_at cmp h v m L).2 m = some l) :
    l < m ∧ firstAt h.lev l 1 (split_at cmp h v m L).2 ∈ L ∧
      eqq cmp h v (firstAt h.lev l 1 (split_at cmp h v m L).2) = true ∧
      h.lev (firstAt h.lev l 1 (split_at cmp h v m L).2) = l ∧
      ∃ seg rest2, (split_at cmp h v m L).2 =
          seg ++ firstAt h.lev l 1 (split_at cmp h v m L).2 :: rest2 ∧
        ∀ p ∈ seg, h.lev p < l := by
  obtain ⟨hlm, heq, hhigh⟩ := matchLevel_some h.lev _ _ _ _ hml
  set rest := (split_at cmp h v m L).2 with hrest
  set c := firstAt h.lev l 1 rest with hc
  have hmem : c ∈ rest ∧ l ≤ h.lev c := by
    rcases firstAt_mem_or h.lev l 1 rest with hm | ⟨_, he⟩
    · exact hm
    · rw [← hc] at he; rw [he, heq1] at heq; cases heq
  have hcL : c ∈ L := by
    have hx := List.mem_append_right (split_at cmp h v m L).1 hmem.1
    rwa [← split_at_append cmp h v m L] at hx
  have hlev : h.lev c = l := by
    obtain ⟨_, val, lvl, hlvl, hs⟩ := hrep.mem c hcL
    have hcl := lev_of_shape_some hs
    simp only at hcl
    by_contra hne
    have hgt : l + 1 ≤ h.lev c := by omega
    have := firstAt_raise h.lev l (l + 1) 1 rest (by omega) hmem.1 hgt
    have h2 := hhigh (l + 1) (by omega) (by omega)
    rw [this, heq] at h2
    cases h2
  exact ⟨hlm, hcL, heq, hlev, firstAt_split h.lev l 1 rest hmem.1 hmem.2⟩

theorem rep_shape_unmarked {m : Nat} {h : Heap} {L : List Ptr} (hrep : Rep m h L) (p : Ptr)
    (hp : p = 0 ∨ p = 1 ∨ p ∈ L) : ∃ s, h.shape p = some s ∧ s.2.2.2.1 = false := by
  rcases hp with rfl | rfl | hp
  · exact ⟨_, hrep.left, rfl⟩
  · exact ⟨_, hrep.right, rfl⟩
  · obtain ⟨_, val, lvl, _, hs⟩ := hrep.mem p hp
    exact ⟨_, hs, rfl⟩

/-- On a represented list, when the Finder reports a match,
`hopscotch_list_del_el` marks the matched node, unlinks it (and the lower nodes
between the split and it) and reports `deleted = true`. -/
theorem del_unlink (list : hopscotch_list_t) (cmp : Cmp) (h : Heap) (v : Elem) (m : Nat)
    (L : List Ptr) (hu : Uses list cmp m) (hrep : Rep m h L)
    (hok : ∀ p, p = 1 ∨ p ∈ L → (cmp (h.valOf p) v).1 = SUCCESS)
    (hstop : ltq cmp h v 1 = false) (heq1 : eqq cmp h v 1 = false) (l : Nat)
    (hml : matchLevel (eqq cmp h v) h.lev (split_at cmp h v m L).2 m = some l) :
    ∃ h' seg rest2,
      (split_at cmp h v m L).2 = seg ++ firstAt h.lev l 1 (split_at cmp h v m L).2 :: rest2 ∧
      (∀ p ∈ seg, h.lev p < l) ∧
      hopscotch_list_del_el no_failure list h v = some (SUCCESS, some true, h') ∧
      Rep m h' ((split_at cmp h v m L).1 ++ rest2) ∧
      (∀ p, p ≠ firstAt h.lev l 1 (split_at cmp h v m L).2 → h'.shape p = h.shape p) ∧
      ∃ s, h.shape (firstAt h.lev l 1 (split_at cmp h v m L).2) = some s ∧
        h'.shape (firstAt h.lev l 1 (split_at cmp h v m L).2) =
          some (s.1, s.2.1, s.2.2.1, true, s.2.2.2.2) := by
  obtain ⟨fs, hfind, hlf, harr, _⟩ := find_spec list cmp h v m L hu hrep hok hstop
  simp only [hml, Option.isSome_some, if_true] at hfind
  obtain ⟨hlm, hcL, _, hlevc, seg, rest2, hsplit, hseg⟩ :=
    match_node cmp h v m L hrep heq1 l hml
  set pre := (split_at cmp h v m L).1 with hpre
  set rest := (split_at cmp h v m L).2 with hrest
  set c := firstAt h.lev l 1 rest with hc
  set P : Nat → Ptr := fun i => lastAt h.lev i 0 pre with hPdef
  set S : Nat → Ptr := fun i => firstAt h.lev i 1 rest with hSdef
  have hL : L = pre ++ rest := split_at_append cmp h v m L
  have hlev0 : h.lev 0 = m - 1 := rep_lev_left hrep
  have hPS : ∀ i, i ≤ l → fs.pred_nodes i = some (P i) ∧ fs.succ_nodes i = some (S i) :=
    fun i hi => harr i (by omega)
  have hPmem : ∀ i, P i = 0 ∨ P i = 1 ∨ P i ∈ L := fun i => by
    rcases split_pred_mem cmp h v m L i with h0 | hm
    · exact Or.inl h0
    · exact Or.inr (Or.inr hm)
  have hnd : (pre ++ rest).Nodup := hL ▸ hrep.nodup
  have hcrest : c ∈ rest := by rw [hsplit]; simp
  have hPc : ∀ i, P i ≠ c := by
    intro i he
    rcases lastAt_mem_or h.lev i 0 pre with ⟨hm, _⟩ | ⟨_, h0⟩
    · have he' : lastAt h.lev i 0 pre = c := he
      rw [he'] at hm
      exact (List.nodup_append.1 hnd).2.2 hm hcrest
    · have hc0 : (0 : Ptr) ∈ L := by
        have : P i = 0 := h0
        rw [← this, he]; exact hcL
      have := (hrep.mem 0 hc0).1
      simp only [Ptr] at *; omega
  have hPlen : ∀ i, i < m → ∃ s, h.shape (P i) = some s ∧ i < s.2.2.2.2 := by
    intro i hi
    have hl : i ≤ h.lev (P i) := lastAt_level h.lev i 0 pre (by rw [hlev0]; omega)
    rcases hPmem i with h0 | h1 | hm
    · rw [h0]; exact ⟨_, hrep.left, hi⟩
    · rw [h1]; exact ⟨_, hrep.right, hi⟩
    · obtain ⟨_, val, lvl, _, hs⟩ := hrep.mem _ hm
      rw [lev_of_shape_some hs] at hl
      exact ⟨_, hs, Nat.lt_succ_of_le hl⟩
  -- the victim
  obtain ⟨_, cval, clvl, _, hcs⟩ := hrep.mem c hcL
  have hclvl : clvl = l := by rw [← hlevc, lev_of_shape_some hcs]
  subst hclvl
  obtain ⟨nd, hndc, _, hndl, hndf, hndm, hndlen⟩ := shape_node hcs
  simp only at hndl hndf hndm hndlen
  have hndfree : nd.lock = false := by rw [← held_of_node hndc]; exact hrep.free c
  have hcan : _list_can_del_el nd clvl = true := by
    simp [_list_can_del_el, hndl, hndf, hndm]
  obtain ⟨h1, hlock, hc1, hheld1⟩ := lock_ok h c nd hndc hndfree
  have hs1 : h1.shape c = some (cval, clvl, true, false, clvl + 1) := by
    rw [shape_of_calm_eq hc1]; exact hcs
  obtain ⟨nd1, hnd1, hnd1v, hnd1l, hnd1f, hnd1m, hnd1len⟩ := shape_node hs1
  simp only at hnd1v hnd1l hnd1f hnd1m hnd1len
  obtain ⟨hs2, hs2c, hh2, hr2⟩ := set_marked_obs h1 c nd1 hnd1
  set h2 := h1.setNode c { nd1 with marked := true } with h2def
  have hsh2 : ∀ p, p ≠ c → h2.shape p = h.shape p := fun p hp => by
    rw [hs2 p hp, shape_of_calm_eq hc1]
  have hfw2 : ∀ p i, h2.rdFwd p i = h.rdFwd p i := fun p i => by
    rw [hr2, rdFwd_of_calm_eq hc1]
  have hval : ∀ i, i ≤ clvl → ∃ pn, h2.calm.node (P i) = some pn ∧ pn.marked = false ∧
      pn.forward[i]? = some (some (S i)) := by
    intro i hi
    obtain ⟨s, hs, hsm⟩ := rep_shape_unmarked hrep (P i) (hPmem i)
    have hsc : h2.calm.shape (P i) = some s := by rw [shape_calm, hsh2 _ (hPc i)]; exact hs
    obtain ⟨pn, hpn, _, _, _, hpm, _⟩ := shape_node hsc
    refine ⟨pn, hpn, by rw [hpm]; exact hsm, ?_⟩
    apply forward_of_rdFwd hpn
    rw [rdFwd_calm, hfw2]
    exact split_link cmp h v m L hrep i (by omega)
  have hint : ∀ j k i, j ≤ k → k ≤ i → i ≤ clvl → P j = P i → P k = P i := by
    intro j k i hjk hki hit he
    exact lastAt_interval h.lev i j k 0 pre hjk hki (by rw [hlev0]; omega) he
  obtain ⟨hl, h3, hloop, hc3, hle, hheld3⟩ :=
    del_lock_loop_ok fs.pred_nodes fs.succ_nodes P S h2.calm (fun q => q = c) clvl hPS hval hint
      (fun i _ => hPc i) (clvl + 1) 0 none (-1) h2 (by omega) rfl (by simp) (by omega)
      (fun q hq => by
        rw [hh2, hheld1] at hq
        by_cases hqc : q = c
        · exact Or.inl hqc
        · rw [if_neg hqc, hrep.free q] at hq; cases hq)
  have hsh3 : ∀ p, p ≠ c → h3.shape p = h.shape p := fun p hp => by
    rw [shape_of_calm_eq hc3, hsh2 p hp]
  have hfw3 : ∀ p i, h3.rdFwd p i = h.rdFwd p i := fun p i => by
    rw [rdFwd_of_calm_eq hc3, hfw2]
  obtain ⟨h4, hunlink, hs4, hh4, _, hr4⟩ :=
    del_unlink_loop_obs fs.pred_nodes P c (clvl + 1) h3 (fun i hi => by
      refine ⟨(hPS i (by omega)).1, hPc i, ?_, ?_⟩
      · rw [hsh3 _ (hPc i)]; exact hPlen i (by omega)
      · rw [hfw3]
        simp only [Heap.rdFwd, hndc, Option.some_bind]
        have : i < nd.forward.length := by rw [hndlen]; exact hi
        exact ⟨_, List.getElem?_eq_getElem this⟩)
  have hs4c : h4.shape c = some (nd1.val, nd1.level, nd1.fully_linked, true, nd1.forward.length) := by
    rw [hs4, shape_of_calm_eq hc3, hs2c]
  obtain ⟨nd4, hnd4, _⟩ := shape_node hs4c
  obtain ⟨h5, hun1, hc5, hheld5⟩ := unlock_ok h4 c nd4 hnd4
  have hsh5 : ∀ p, p ≠ c → h5.shape p = h.shape p := fun p hp => by
    rw [shape_of_calm_eq hc5, hs4, hsh3 p hp]
  obtain ⟨h6, hun2, hc6, hh6⟩ :=
    unlock_loop_ok fs.pred_nodes P h5.calm (fun _ => False) (hl + 1).toNat (fun i hi => by
        refine ⟨(hPS i (by omega)).1, ?_⟩
        obtain ⟨s, hs, _⟩ := hPlen i (by omega)
        have : h5.calm.shape (P i) = some s := by
          rw [shape_calm, hsh5 _ (hPc i)]; exact hs
        obtain ⟨pn, hpn, _⟩ := shape_node this
        exact ⟨pn, hpn⟩)
      (hl + 1).toNat 0 h5 (by omega) rfl (fun q hq => by
        rw [hheld5] at hq
        by_cases hqc : q = c
        · rw [if_pos hqc] at hq; cases hq
        · rw [if_neg hqc, hh4] at hq
          rcases hheld3 q hq with hx | ⟨j, _, hjl, hjq⟩
          · exact absurd hx hqc
          · exact Or.inr ⟨j, by omega, by omega, hjq⟩)
  have hsh6 : ∀ p, p ≠ c → h6.shape p = h.shape p := fun p hp => by
    rw [shape_of_calm_eq hc6, hsh5 p hp]
  have hfree6 : ∀ p, h6.held p = false := fun p => by
    cases hp : h6.held p with
    | false => rfl
    | true => exact (hh6 p hp).elim
  have hfw6 : ∀ p i, h6.rdFwd p i =
      if i ≤ clvl ∧ p = lastAt h.lev i 0 pre then h.rdFwd c i else h.rdFwd p i := by
    intro p i
    rw [rdFwd_of_calm_eq hc6, rdFwd_of_calm_eq hc5, hr4, hfw3, hfw3]
    have e : (i < clvl + 1 ∧ p = P i) ↔ (i ≤ clvl ∧ p = lastAt h.lev i 0 pre) := by
      constructor
      · rintro ⟨x, y⟩; exact ⟨by omega, y⟩
      · rintro ⟨x, y⟩; exact ⟨by omega, y⟩
    simp only [e]
  have hs6c : h6.shape c = some (cval, clvl, true, true, clvl + 1) := by
    rw [shape_of_calm_eq hc6, shape_of_calm_eq hc5, hs4c, hnd1v, hnd1l, hnd1f, hnd1len]
  refine ⟨h6, seg, rest2, hsplit, hseg, ?_, ?_, hsh6, ⟨_, hcs, hs6c⟩⟩
  · rw [← hndl] at hloop hunlink
    exact del_compute list h v fs clvl c nd nd1 hl h1 h3 h4 h5 h6 hfind
      (by rw [hlf, hml]) (harr clvl hlm).2 hndc hcan hlock hnd1 hnd1m hloop hunlink hun1 hun2
  · exact rep_delete m h h6 L pre seg rest2 c clvl hrep (by rw [hL, hsplit]) hlevc hseg hsh6
      hfree6 hfw6

/-- C5 (a rejected add changes nothing): for every heap, list handle, element,
environment and random samples, whenever `hopscotch_list_add_el` returns
SUCCESS with `added = false`, the heap after the call is the heap before it: no
node was created, and no forward pointer, level, flag, lock or recorded
external call differs. -/
theorem C5_rejected_add_changes_nothing (env : Env) (rnd : Nat → ℚ) (list : hopscotch_list_t)
    (h h' : Heap) (v : Elem)
    (hadd : hopscotch_list_add_el env rnd list h v = some (SUCCESS, some false, h')) :
    h' = h := by
  unfold hopscotch_list_add_el at hadd
  simp only [] at hadd
  repeat' split at hadd
  all_goals first
    | (simp only [Option.some.injEq, Prod.mk.injEq] at hadd; exact hadd.2.2.symm)
    | (simp at hadd)

theorem C5_rejected_add_changes_nothing_witness :
    hopscotch_list_add_el no_failure (fun _ => 1) (new_list unset_opts) heap_after_add [104, 0] =
        some (SUCCESS, some false, heap_after_add) ∧
      heap_after_add = heap_after_add :=
  ⟨by decide!, C5_rejected_add_changes_nothing no_failure (fun _ => 1) (new_list unset_opts)
    heap_after_add heap_after_add [104, 0] (by decide!)⟩

/-! ## Insertion on the abstract list -/

section abstract_list5
variable (lt : Ptr → Bool) (lev : Ptr → Nat)

theorem reach_congr (lt' : Ptr → Bool) (lev' : Ptr → Nat) (n : Nat) (A : List Ptr)
    (hA : ∀ p ∈ A, lt' p = lt p ∧ lev' p = lev p) : reach lt' lev' n A = reach lt lev n A := by
  induction A with
  | nil => rfl
  | cons p ps ih =>
    simp only [reach, (hA p (by simp)).1, (hA p (by simp)).2,
      ih (fun q hq => hA q (by simp [hq]))]

theorem descend_congr (lt' : Ptr → Bool) (lev' : Ptr → Nat) (n : Nat) (pre rest : List Ptr)
    (hA : ∀ p ∈ rest, lt' p = lt p ∧ lev' p = lev p) :
    descend lt' lev' n (pre, rest) = descend lt lev n (pre, rest) := by
  induction n generalizing pre rest with
  | zero => rfl
  | succ n ih =>
    simp only [descend, reach_congr lt lev lt' lev' n rest hA]
    exact ih _ _ (fun p hp => hA p (List.mem_of_mem_drop hp))

/-- A node that does not compare below the query, put where the walk has
stopped short of, does not change how far the walk of level `n` gets. -/
theorem reach_insert (n : Nat) (new : Ptr) (hnew : lt new = false) (M R : List Ptr)
    (hle : reach lt lev n (M ++ R) ≤ M.length) :
    reach lt lev n (M ++ new :: R) = reach lt lev n (M ++ R) := by
  induction M with
  | nil =>
    have h0 : reach lt lev n R = 0 := by simpa using hle
    simp [reach, hnew, h0]
  | cons p ps ih =>
    simp only [List.cons_append, List.length_cons] at hle ⊢
    by_cases hp : n ≤ lev p
    · by_cases hl : lt p = true
      · have e1 : reach lt lev n (p :: (ps ++ R)) = reach lt lev n (ps ++ R) + 1 := by
          simp only [reach, hp, hl, if_true]
        have e2 : reach lt lev n (p :: (ps ++ new :: R)) = reach lt lev n (ps ++ new :: R) + 1 := by
          simp only [reach, hp, hl, if_true]
        rw [e1] at hle
        rw [e1, e2, ih (by omega)]
      · have hl' : lt p = false := by simpa using hl
        have e1 : reach lt lev n (p :: (ps ++ R)) = 0 := by
          simp [reach, hp, hl']
        have e2 : reach lt lev n (p :: (ps ++ new :: R)) = 0 := by
          simp [reach, hp, hl']
        rw [e1, e2]
    · have e1 : reach lt lev n (p :: (ps ++ R)) =
          if reach lt lev n (ps ++ R) = 0 then 0 else reach lt lev n (ps ++ R) + 1 := by
        simp only [reach, hp, if_false]
      have e2 : reach lt lev n (p :: (ps ++ new :: R)) =
          if reach lt lev n (ps ++ new :: R) = 0 then 0
          else reach lt lev n (ps ++ new :: R) + 1 := by
        simp only [reach, hp, if_false]
      rw [e1] at hle
      rw [e1, e2]
      by_cases h0 : reach lt lev n (ps ++ R) = 0
      · rw [ih (by omega)]
      · rw [if_neg h0] at hle
        rw [ih (by omega)]

theorem descend_insert (new : Ptr) (hnew : lt new = false) :
    ∀ (n : Nat) (A M R : List Ptr), descend lt lev n (A, M ++ R) = (A ++ M, R) →
      descend lt lev n (A, M ++ new :: R) = (A ++ M, new :: R) := by
  intro n
  induction n with
  | zero =>
    intro A M R h
    simp only [descend, Prod.mk.injEq] at h
    have hM : M = [] := by
      have := congrArg List.length h.2
      simp at this
      exact this
    subst hM
    simp [descend]
  | succ n ih =>
    intro A M R h
    set r := reach lt lev n (M ++ R) with hr
    have hstep : descend lt lev (n + 1) (A, M ++ R) =
        descend lt lev n (A ++ (M ++ R).take r, (M ++ R).drop r) := rfl
    rw [hstep] at h
    obtain ⟨mid, rest', hd, hsplit, _⟩ :=
      descend_spec lt lev n (A ++ (M ++ R).take r) ((M ++ R).drop r)
    rw [hd, Prod.mk.injEq] at h
    obtain ⟨h1, h2⟩ := h
    subst h2
    -- the walk of level n stays within M
    have hM : M = (M ++ rest').take r ++ mid := by
      rw [List.append_assoc] at h1
      exact (List.append_cancel_left h1).symm
    have hrle : r ≤ M.length := by
      have h3 := congrArg List.length hM
      have h4 : ((M ++ rest').take r).length = r := by
        rw [List.length_take]
        have := reach_le lt lev n (M ++ rest')
        omega
      rw [List.length_append, h4] at h3
      omega
    have hr' : reach lt lev n (M ++ new :: rest') = r :=
      reach_insert lt lev n new hnew M rest' hrle
    have hstep' : descend lt lev (n + 1) (A, M ++ new :: rest') =
        descend lt lev n (A ++ (M ++ new :: rest').take r, (M ++ new :: rest').drop r) := by
      simp only [descend, hr']
    have hmid : mid = M.drop r := by
      rw [List.take_append_of_le_length hrle] at hM
      have h6 : M.take r ++ M.drop r = M.take r ++ mid := by
        rw [List.take_append_drop]; exact hM
      exact (List.append_cancel_left h6).symm
    rw [hstep', List.take_append_of_le_length hrle, List.drop_append_of_le_length hrle]
    rw [List.take_append_of_le_length hrle, List.drop_append_of_le_length hrle, hmid] at hd
    have := ih (A ++ M.take r) (M.drop r) rest' hd
    rw [this, List.append_assoc, List.take_append_drop]

end abstract_list5

/-! ## Membership after an add -/

theorem rep_valOf_right {m : Nat} {h : Heap} {L : List Ptr} (hrep : Rep m h L) :
    h.valOf 1 = MAX_VAL := by
  obtain ⟨nd, hnd, hv, _⟩ := shape_node hrep.right
  rw [valOf_of_node hnd, hv]

theorem valOf_of_shape_some {h : Heap} {p : Ptr} {s : Elem × Nat × Bool × Bool × Nat}
    (hs : h.shape p = some s) : h.valOf p = s.1 := by
  obtain ⟨nd, hnd, hv, _⟩ := shape_node hs
  rw [valOf_of_node hnd, hv]

theorem stop_of_max (cmp : Cmp) (h : Heap) (v : Elem) (h1 : h.valOf 1 = MAX_VAL)
    (hmax : 0 < (cmp MAX_VAL v).2) : ltq cmp h v 1 = false ∧ eqq cmp h v 1 = false := by
  simp only [ltq, eqq, h1, decide_eq_false_iff_not]
  constructor <;> omega

/-- After `hopscotch_list_add_el` reported `added = true` for a value that the
comparator finds equal to itself, `hopscotch_list_contains_el` reports it. -/
theorem contains_after_add (list : hopscotch_list_t) (cmp : Cmp) (h h' : Heap) (v : Elem)
    (m : Nat) (L : List Ptr) (rnd : Nat → ℚ) (hu : Uses list cmp m) (hrep : Rep m h L)
    (hok : ∀ a, (cmp a v).1 = SUCCESS) (hmax : 0 < (cmp MAX_VAL v).2)
    (hself : (cmp v v).2 = 0)
    (ht : _list_rand_level rnd list.opts.rand_level_p list.opts.max_level < m)
    (hadd : hopscotch_list_add_el no_failure rnd list h v = some (SUCCESS, some true, h')) :
    hopscotch_list_contains_el list h' v = some (SUCCESS, true) := by
  obtain ⟨hstop, _⟩ := stop_of_max cmp h v (rep_valOf_right hrep) hmax
  have hnf : matchLevel (eqq cmp h v) h.lev (split_at cmp h v m L).2 m = none := by
    cases hml : matchLevel (eqq cmp h v) h.lev (split_at cmp h v m L).2 m with
    | none => rfl
    | some l =>
      have := add_found list cmp h v m L no_failure rnd hu hrep (fun p _ => hok _) hstop
        (by rw [hml]; rfl)
      rw [this] at hadd
      simp at hadd
  obtain ⟨h'', hadd', hrep', hshape, hshn⟩ :=
    add_link list cmp h v m L rnd hu hrep (fun p _ => hok _) hstop hnf ht
  rw [hadd'] at hadd
  simp only [Option.some.injEq, Prod.mk.injEq, true_and] at hadd
  subst hadd
  set t := _list_rand_level rnd list.opts.rand_level_p list.opts.max_level with htdef
  set pre := (split_at cmp h v m L).1 with hpre
  set rest := (split_at cmp h v m L).2 with hrest
  set new := h.nodes.length with hnew
  have hL : L = pre ++ rest := split_at_append cmp h v m L
  have hold : ∀ p ∈ L, p ≠ new := by
    intro p hp he
    have := rep_mem_lt hrep p (Or.inr (Or.inr hp))
    rw [he] at this; exact lt_irrefl _ this
  have hcongr : ∀ p ∈ L, ltq cmp h'' v p = ltq cmp h v p ∧ h''.lev p = h.lev p := by
    intro p hp
    have hs := hshape p (hold p hp)
    exact ⟨by simp only [ltq, valOf_of_shape hs], lev_of_shape hs⟩
  have hltn : ltq cmp h'' v new = false := by
    simp only [ltq, valOf_of_shape_some hshn, hself]; decide
  have heqn : eqq cmp h'' v new = true := by
    simp only [eqq, valOf_of_shape_some hshn, hself]; decide
  have hlevn : h''.lev new = t := lev_of_shape_some hshn
  have hd : descend (ltq cmp h'' v) h''.lev m ([], pre ++ rest) = ([] ++ pre, rest) := by
    rw [← hL, descend_congr (ltq cmp h v) h.lev (ltq cmp h'' v) h''.lev m [] L hcongr]
    rfl
  have hsplit' : split_at cmp h'' v m (pre ++ new :: rest) = (pre, new :: rest) := by
    have := descend_insert (ltq cmp h'' v) h''.lev new hltn m [] pre rest hd
    simpa [split_at] using this
  have hstop' := stop_of_max cmp h'' v (rep_valOf_right hrep') hmax
  rw [contains_spec list cmp h'' v m _ hu hrep' (fun p _ => hok _) hstop'.1, hsplit']
  cases hml : matchLevel (eqq cmp h'' v) h''.lev (new :: rest) m with
  | some l => rfl
  | none =>
    have := (matchLevel_none h''.lev (eqq cmp h'' v) (new :: rest) m).1 hml t ht
    simp [firstAt, hlevn, heqn] at this

/-! ## The fresh list -/

theorem ext_call_nodes (env : Env) (h : Heap) (e : Ev) : (ext_call env h e).2.nodes = h.nodes := by
  simp only [ext_call]; split_ifs <;> rfl

theorem list_new_success (env : Env) (opts : hopscotch_opts_t) (l : hopscotch_list_t)
    (o' : Option hopscotch_opts_t) (h : Heap)
    (hnew : hopscotch_list_new env none (some opts) = (SUCCESS, some l, o', h)) :
    l = { head := 0, opts := default_opts opts } ∧ o' = some (default_opts opts) ∧
      h.nodes = [sentinel_node (default_opts opts).max_level MIN_VAL (some 1),
        sentinel_node (default_opts opts).max_level MAX_VAL none] := by
  simp only [hopscotch_list_new] at hnew
  repeat' split at hnew
  all_goals first
    | (simp only [Prod.mk.injEq, Option.some.injEq] at hnew
       obtain ⟨_, h1, h2, h3⟩ := hnew
       subst h1 h2 h3
       exact ⟨rfl, rfl, by rw [ext_call_nodes]⟩)
    | (simp at hnew)

theorem new_heap_nodes (opts : hopscotch_opts_t) :
    (new_heap opts).nodes = [sentinel_node (default_opts opts).max_level MIN_VAL (some 1),
      sentinel_node (default_opts opts).max_level MAX_VAL none] := by
  simp [new_heap, hopscotch_list_new, ext_call_ok]

theorem default_max_level_pos (opts : hopscotch_opts_t) : 0 < (default_opts opts).max_level := by
  simp only [default_opts]
  split_ifs with h
  · decide
  · omega

theorem default_max_level_lt (opts : hopscotch_opts_t) (hm : opts.max_level < 256) :
    (default_opts opts).max_level < 256 := by
  simp only [default_opts]
  split_ifs with h
  · decide
  · exact hm

/-- A heap made of the two sentinels represents the empty list. -/
theorem rep_of_sentinels (m : Nat) (h : Heap) (h0 : 0 < m) (hm : m < 256)
    (hn : h.nodes = [sentinel_node m MIN_VAL (some 1), sentinel_node m MAX_VAL none]) :
    Rep m h [] := by
  have hlvl : (m + 255) % 256 = m - 1 := by omega
  have hn0 : h.node 0 = some (sentinel_node m MIN_VAL (some 1)) := by simp [Heap.node, hn]
  have hn1 : h.node 1 = some (sentinel_node m MAX_VAL none) := by simp [Heap.node, hn]
  constructor
  · simp [Heap.shape, hn0, sentinel_node, hlvl]
  · simp [Heap.shape, hn1, sentinel_node, hlvl]
  · intro i hi
    simp [Heap.rdFwd, hn1, sentinel_node, hi]
  · exact List.nodup_nil
  · intro p hp; simp at hp
  · intro p
    rcases Nat.lt_trichotomy p 1 with hlt | he | hgt
    · have : p = 0 := by simp only [Ptr] at *; omega
      subst this; simp [Heap.held, hn0, sentinel_node]
    · subst he; simp [Heap.held, hn1, sentinel_node]
    · apply held_none_of_ge
      rw [hn]; simp only [List.length_cons, List.length_nil]; simp only [Ptr] at *; omega
  · intro i hi
    refine ⟨fun _ => ?_, trivial⟩
    simp [Heap.rdFwd, hn0, sentinel_node, hi, firstAt]

theorem uses_new (opts : hopscotch_opts_t) (cmp : Cmp)
    (hc : (default_opts opts).cmp = some cmp) :
    Uses (new_list opts) cmp (default_opts opts).max_level := by
  refine ⟨rfl, hc, rfl, ?_⟩
  simp only [new_list, default_opts]
  split_ifs with h
  · rfl
  · cases hg : opts.gc_malloc with
    | none => simp [hg] at h
    | some a => rfl

theorem contains_fresh (list : hopscotch_list_t) (cmp : Cmp) (h : Heap) (v : Elem) (m : Nat)
    (hu : Uses list cmp m) (hrep : Rep m h [])
    (hok : (cmp MAX_VAL v).1 = SUCCESS) (hmax : 0 < (cmp MAX_VAL v).2) :
    hopscotch_list_contains_el list h v = some (SUCCESS, false) := by
  have h1 := rep_valOf_right hrep
  obtain ⟨hstop, heq⟩ := stop_of_max cmp h v h1 hmax
  rw [contains_spec list cmp h v m [] hu hrep (fun p hp => by
    rcases hp with rfl | hp
    · rw [h1]; exact hok
    · simp at hp) hstop]
  have hs : (split_at cmp h v m []).2 = [] := by
    have := split_at_append cmp h v m []
    exact (List.append_eq_nil.1 this.symm).2
  have : matchLevel (eqq cmp h v) h.lev (split_at cmp h v m []).2 m = none := by
    rw [matchLevel_none, hs]
    intro i _
    simpa [firstAt] using heq
  rw [this]; rfl

/-- C10 as stated fails in its last sentence for a comparator that does not
rank MAX above the query: with the comparator that finds any two elements
equal, `hopscotch_list_new` succeeds and `contains` reports `found = true` on
the fresh list (for the value `x`, bytes 120 0). -/
theorem C10_contains_true_on_fresh_list :
    (hopscotch_list_new no_failure none (some zero_cmp_opts)).1 = SUCCESS ∧
      hopscotch_list_contains_el (new_list zero_cmp_opts) (new_heap zero_cmp_opts) [120, 0] =
        some (SUCCESS, true) := by
  decide

/-- C10, amended: after a successful `hopscotch_list_new` whose effective
`max_level` is `m`, the list head is the left sentinel (node 0), whose value is
the MIN byte string, whose level is `m - 1`, which is fully linked and unmarked
and whose `forward[i]` is the right sentinel (node 1) for every `i < m`; the
right sentinel has the MAX byte string, level `m - 1`, is fully linked and
unmarked, and its `forward[i]` is NULL for every `i < m`.  Consequently
`contains(v)` reports false on the fresh list for every `v` that the effective
comparator ranks below MAX (`cmp(MAX, v)` succeeds with a positive sign), hence
for every `v` when the comparator is the default one. -/
theorem C10_initial_structure (env : Env) (opts : hopscotch_opts_t) (l : hopscotch_list_t)
    (o' : Option hopscotch_opts_t) (h : Heap) (hm : opts.max_level < 256)
    (hnew : hopscotch_list_new env none (some opts) = (SUCCESS, some l, o', h)) :
    l.head = 0 ∧
      (∃ left, h.node l.head = some left ∧ left.val = MIN_VAL ∧
        left.level = l.opts.max_level - 1 ∧ left.fully_linked = true ∧ left.marked = false ∧
        ∀ i, i < l.opts.max_level → left.forward[i]? = some (some 1)) ∧
      (∃ right, h.node 1 = some right ∧ right.val = MAX_VAL ∧
        right.level = l.opts.max_level - 1 ∧ right.fully_linked = true ∧ right.marked = false ∧
        ∀ i, i < l.opts.max_level → right.forward[i]? = some none) ∧
      (∀ cmp v, l.opts.cmp = some cmp → (cmp MAX_VAL v).1 = SUCCESS → 0 < (cmp MAX_VAL v).2 →
        hopscotch_list_contains_el l h v = some (SUCCESS, false)) ∧
      (opts.cmp = none → ∀ v, hopscotch_list_contains_el l h v = some (SUCCESS, false)) := by
  obtain ⟨hl, _, hn⟩ := list_new_success env opts l o' h hnew
  subst hl
  have h0 := default_max_level_pos opts
  have h256 := default_max_level_lt opts hm
  have hlvl : ((default_opts opts).max_level + 255) % 256 = (default_opts opts).max_level - 1 := by
    omega
  have hrep := rep_of_sentinels _ h h0 h256 hn
  have hcont : ∀ cmp v, (default_opts opts).cmp = some cmp → (cmp MAX_VAL v).1 = SUCCESS →
      0 < (cmp MAX_VAL v).2 →
      hopscotch_list_contains_el { head := 0, opts := default_opts opts } h v =
        some (SUCCESS, false) := fun cmp v hc hok hmax =>
    contains_fresh _ cmp h v _ (uses_new opts cmp hc) hrep hok hmax
  refine ⟨rfl, ⟨_, by simp only [Heap.node, hn]; rfl, rfl, hlvl, rfl, rfl, ?_⟩,
    ⟨_, by simp only [Heap.node, hn]; rfl, rfl, hlvl, rfl, rfl, ?_⟩, hcont, ?_⟩
  · intro i hi
    simp only [sentinel_node] at *
    simp [hi]
  · intro i hi
    simp only [sentinel_node] at *
    simp [hi]
  · intro hc v
    refine hcont _list_default_el_cmp v (by simp [default_opts, hc]) ?_ ?_
    · rw [default_cmp_MAX]
    · rw [default_cmp_MAX]; decide

theorem C10_initial_structure_witness :
    (new_list unset_opts).head = 0 ∧
      (∃ left, (new_heap unset_opts).node (new_list unset_opts).head = some left ∧
        left.val = MIN_VAL ∧
        left.level = (new_list unset_opts).opts.max_level - 1 ∧ left.fully_linked = true ∧
        left.marked = false ∧
        ∀ i, i < (new_list unset_opts).opts.max_level → left.forward[i]? = some (some 1)) ∧
      (∃ right, (new_heap unset_opts).node 1 = some right ∧ right.val = MAX_VAL ∧
        right.level = (new_list unset_opts).opts.max_level - 1 ∧ right.fully_linked = true ∧
        right.marked = false ∧
        ∀ i, i < (new_list unset_opts).opts.max_level → right.forward[i]? = some none) ∧
      (∀ cmp v, (new_list unset_opts).opts.cmp = some cmp → (cmp MAX_VAL v).1 = SUCCESS →
        0 < (cmp MAX_VAL v).2 →
        hopscotch_list_contains_el (new_list unset_opts) (new_heap unset_opts) v =
          some (SUCCESS, false)) ∧
      (unset_opts.cmp = none → ∀ v,
        hopscotch_list_contains_el (new_list unset_opts) (new_heap unset_opts) v =
          some (SUCCESS, false)) :=
  C10_initial_structure no_failure unset_opts (new_list unset_opts)
    (some (default_opts unset_opts)) (new_heap unset_opts) (by decide)
    (by simp [hopscotch_list_new, ext_call_ok, new_heap, new_list])

/-! ## Runs with the default comparator -/

theorem default_stop {m : Nat} {h : Heap} {L : List Ptr} (hrep : Rep m h L) (v : Elem) :
    ltq _list_default_el_cmp h v 1 = false ∧ eqq _list_default_el_cmp h v 1 = false :=
  stop_of_max _ h v (rep_valOf_right hrep) (by rw [default_cmp_MAX]; decide)

/-- With the default comparator every call on a represented list that has a
result (every add and contains has one) returns SUCCESS, writes its boolean and
leaves a represented list, whose nodes are nodes of the list before or the node
linked by this call. -/
theorem step_default (list : hopscotch_list_t) (m : Nat) (h : Heap) (L : List Ptr) (op : Op)
    (hu : Uses list _list_default_el_cmp m) (hrep : Rep m h L) (hlev : level_ok list op)
    (hret : ∀ v, op = Op.remove v → (step list h op).isSome = true) :
    ∃ b h' L', step list h op = some (SUCCESS, some b, h') ∧ Rep m h' L' ∧
      ∀ p ∈ L', (p ∈ L ∧ h'.valOf p = h.valOf p) ∨ (∃ rnd, op = Op.add (h'.valOf p) rnd) := by
  have hok : ∀ v p, p = 1 ∨ p ∈ L → (_list_default_el_cmp (h.valOf p) v).1 = SUCCESS :=
    fun v p _ => default_cmp_ok _ _
  cases op with
  | add v rnd =>
    obtain ⟨hstop, _⟩ := default_stop hrep v
    cases hml : matchLevel (eqq _list_default_el_cmp h v) h.lev
        (split_at _list_default_el_cmp h v m L).2 m with
    | some l =>
      refine ⟨false, h, L, ?_, hrep, fun p hp => Or.inl ⟨hp, rfl⟩⟩
      exact add_found list _ h v m L no_failure rnd hu hrep (hok v) hstop (by rw [hml]; rfl)
    | none =>
      have ht : _list_rand_level rnd list.opts.rand_level_p list.opts.max_level < m := by
        have := hlev; simp only [level_ok] at this; rw [← hu.max_level]; exact this
      obtain ⟨h', hadd, hrep', hshape, hshn⟩ :=
        add_link list _ h v m L rnd hu hrep (hok v) hstop hml ht
      refine ⟨true, h', _, hadd, hrep', ?_⟩
      intro p hp
      have hL := split_at_append _list_default_el_cmp h v m L
      have hcases : p = h.nodes.length ∨ p ∈ L := by
        rcases List.mem_append.1 hp with hp | hp
        · right; rw [hL]; exact List.mem_append_left _ hp
        · rcases List.mem_cons.1 hp with hp | hp
          · exact Or.inl hp
          · right; rw [hL]; exact List.mem_append_right _ hp
      rcases hcases with he | hm
      · right
        refine ⟨rnd, ?_⟩
        rw [he, valOf_of_shape_some hshn]
      · left
        have hne : p ≠ h.nodes.length := by
          intro he
          have := rep_mem_lt hrep p (Or.inr (Or.inr hm))
          rw [he] at this; exact lt_irrefl _ this
        exact ⟨hm, valOf_of_shape (hshape p hne)⟩
  | contains v =>
    obtain ⟨hstop, _⟩ := default_stop hrep v
    refine ⟨(matchLevel (eqq _list_default_el_cmp h v) h.lev
      (split_at _list_default_el_cmp h v m L).2 m).isSome, h, L, ?_, hrep,
      fun p hp => Or.inl ⟨hp, rfl⟩⟩
    simp only [step, contains_spec list _ h v m L hu hrep (hok v) hstop, Option.map_some']
  | remove v =>
    obtain ⟨hstop, heq1⟩ := default_stop hrep v
    cases hml : matchLevel (eqq _list_default_el_cmp h v) h.lev
        (split_at _list_default_el_cmp h v m L).2 m with
    | none =>
      have hn : step list h (Op.remove v) = none :=
        del_not_found list _ h v m L no_failure hu hrep (hok v) hstop hml
      have := hret v rfl
      rw [hn] at this
      cases this
    | some l =>
      obtain ⟨h', seg, rest2, hsplit, _, hdel, hrep', hshape, _⟩ :=
        del_unlink list _ h v m L hu hrep (hok v) hstop heq1 l hml
      refine ⟨true, h', _, hdel, hrep', ?_⟩
      intro p hp
      have hL := split_at_append _list_default_el_cmp h v m L
      have hnd : ((split_at _list_default_el_cmp h v m L).1 ++
          (split_at _list_default_el_cmp h v m L).2).Nodup := hL ▸ hrep.nodup
      rw [hsplit] at hnd
      have hpL : p ∈ L := by
        rw [hL, hsplit]
        rcases List.mem_append.1 hp with hp | hp
        · exact List.mem_append_left _ hp
        · exact List.mem_append_right _ (by simp [hp])
      have hne : p ≠ firstAt h.lev l 1 (split_at _list_default_el_cmp h v m L).2 := by
        intro he
        have h1 := List.nodup_append.1 hnd
        rcases List.mem_append.1 hp with hp | hp
        · exact h1.2.2 hp (by rw [he]; simp)
        · have h2 := List.nodup_append.1 h1.2.1
          exact (List.nodup_cons.1 h2.2.1).1 (he ▸ hp)
      exact Or.inl ⟨hpL, valOf_of_shape (hshape p hne)⟩

theorem run_isSome_cons (list : hopscotch_list_t) (h : Heap) (op : Op) (ops : List Op)
    (hr : (run list h (op :: ops)).isSome = true) :
    (step list h op).isSome = true ∧
      ∀ r b h1, step list h op = some (r, b, h1) → (run list h1 ops).isSome = true := by
  simp only [run] at hr
  cases hs : step list h op with
  | none => rw [hs] at hr; cases hr
  | some x =>
    obtain ⟨r, b, h1⟩ := x
    refine ⟨rfl, ?_⟩
    intro r' b' h1' he
    cases he
    rw [hs] at hr
    simp only at hr
    cases hrr : run list h1 ops with
    | none => rw [hrr] at hr; cases hr
    | some y => rfl

/-- With the default comparator, a sequence of calls on a represented list in
which every remove has a result returns SUCCESS throughout and leaves a
represented list. -/
theorem run_default (list : hopscotch_list_t) (m : Nat)
    (hu : Uses list _list_default_el_cmp m) :
    ∀ (ops : List Op) (h : Heap) (L : List Ptr), Rep m h L → (∀ op ∈ ops, level_ok list op) →
      (∀ v, Op.remove v ∈ ops → (run list h ops).isSome = true) →
      ∃ rs h' L', run list h ops = some (rs, h') ∧ Rep m h' L' ∧
        (∀ r ∈ rs, r.1 = SUCCESS ∧ r.2.isSome = true) ∧
        ∀ p ∈ L', (p ∈ L ∧ h'.valOf p = h.valOf p) ∨ (∃ rnd, Op.add (h'.valOf p) rnd ∈ ops) := by
  intro ops
  induction ops with
  | nil =>
    intro h L hrep _ _
    exact ⟨[], h, L, rfl, hrep, by simp, fun p hp => Or.inl ⟨hp, rfl⟩⟩
  | cons op ops ih =>
    intro h L hrep hlev hret
    obtain ⟨b, h1, L1, hstep, hrep1, hv1⟩ :=
      step_default list m h L op hu hrep (hlev op (by simp))
        (fun v hv => (run_isSome_cons list h op ops (hret v (by simp [hv]))).1)
    obtain ⟨rs, h2, L2, hrun, hrep2, hrs, hv2⟩ :=
      ih h1 L1 hrep1 (fun o ho => hlev o (by simp [ho]))
        (fun v hv => (run_isSome_cons list h op ops (hret v (by simp [hv]))).2 _ _ _ hstep)
    refine ⟨(SUCCESS, some b) :: rs, h2, L2, ?_, hrep2, ?_, ?_⟩
    · simp only [run, hstep, hrun]
    · intro r hr
      rcases List.mem_cons.1 hr with rfl | hr
      · exact ⟨rfl, rfl⟩
      · exact hrs r hr
    · intro p hp
      rcases hv2 p hp with ⟨hp1, hval⟩ | ⟨rnd, hmem⟩
      · rcases hv1 p hp1 with ⟨hp0, hval0⟩ | ⟨rnd, hop⟩
        · exact Or.inl ⟨hp0, hval.trans hval0⟩
        · right
          refine ⟨rnd, ?_⟩
          rw [hval, ← hop]; simp
      · exact Or.inr ⟨rnd, by simp [hmem]⟩

theorem rep_new (opts : hopscotch_opts_t) (hm : opts.max_level < 256) :
    Rep (default_opts opts).max_level (new_heap opts) [] :=
  rep_of_sentinels _ _ (default_max_level_pos opts) (default_max_level_lt opts hm)
    (new_heap_nodes opts)

theorem uses_new_default (opts : hopscotch_opts_t) (hc : opts.cmp = none) :
    Uses (new_list opts) _list_default_el_cmp (default_opts opts).max_level :=
  uses_new opts _ (by simp [default_opts, hc])

theorem default_cmp_self (v : Elem) (h1 : v ≠ MIN_VAL) (h2 : v ≠ MAX_VAL) :
    (_list_default_el_cmp v v).2 = 0 := by
  rw [default_cmp_plain v v h1 h2]
  exact memcmp_self v _

/-- C2 as stated fails for the sentinels' byte strings: on the fresh list of
`test.c`, `add` of the MIN byte string reports `added = true` (level 0 drawn),
and a directly following `contains` of it reports `found = false`. -/
theorem C2_sentinel_bytes_not_found :
    hopscotch_list_add_el no_failure (fun _ => 1) (new_list unset_opts) (new_heap unset_opts)
        MIN_VAL = some (SUCCESS, some true, heap_after_add_min) ∧
      hopscotch_list_contains_el (new_list unset_opts) heap_after_add_min MIN_VAL =
        some (SUCCESS, false) := by
  decide!

/-- C2, amended: for every list state reached by single-threaded calls (no
external call failing, levels drawn in `[0, max_level - 1]`) from
`hopscotch_list_new` with the default comparator, and for every element `v` of
any bytes and length other than the two sentinel byte strings: if
`hopscotch_list_add_el(v)` reports `added = true`, a directly following
`hopscotch_list_contains_el(v)` reports `found = true`. -/
theorem C2_membership_after_add (opts : hopscotch_opts_t) (hc : opts.cmp = none)
    (hm : opts.max_level < 256) (ops : List Op)
    (hlev : ∀ op ∈ ops, level_ok (new_list opts) op)
    (rs : List (hopscotch_res_t × Option Bool)) (h : Heap)
    (hrun : run (new_list opts) (new_heap opts) ops = some (rs, h))
    (v : Elem) (rnd : Nat → ℚ) (h' : Heap) (h1 : v ≠ MIN_VAL) (h2 : v ≠ MAX_VAL)
    (hl : level_ok (new_list opts) (Op.add v rnd))
    (hadd : hopscotch_list_add_el no_failure rnd (new_list opts) h v =
      some (SUCCESS, some true, h')) :
    hopscotch_list_contains_el (new_list opts) h' v = some (SUCCESS, true) := by
  have hu := uses_new_default opts hc
  obtain ⟨rs', h0, L, hrun', hrep, _, _⟩ :=
    run_default _ _ hu ops _ [] (rep_new opts hm) hlev (fun _ _ => by rw [hrun]; rfl)
  rw [hrun] at hrun'
  simp only [Option.some.injEq, Prod.mk.injEq] at hrun'
  obtain ⟨_, rfl⟩ := hrun'
  exact contains_after_add _ _ h h' v _ L rnd hu hrep (fun a => default_cmp_ok a v)
    (by rw [default_cmp_MAX]; decide) (default_cmp_self v h1 h2) hl hadd

theorem level_ok_zero (v : Elem) :
    level_ok (new_list unset_opts) (Op.add v (fun _ => 1)) := by
  show _list_rand_level (fun _ => 1) (new_list unset_opts).opts.rand_level_p
    (new_list unset_opts).opts.max_level < (new_list unset_opts).opts.max_level
  decide!

theorem C2_membership_after_add_witness :
    run (new_list unset_opts) (new_heap unset_opts) [Op.add [104, 0] (fun _ => 1)] =
        some ([(SUCCESS, some true)], heap_after_add) ∧
      hopscotch_list_add_el no_failure (fun _ => 1) (new_list unset_opts) heap_after_add [120, 0] =
        some (SUCCESS, some true, heap_after_two) ∧
      hopscotch_list_contains_el (new_list unset_opts) heap_after_two [120, 0] =
        some (SUCCESS, true) :=
  ⟨by decide!, by decide!,
    C2_membership_after_add unset_opts rfl (by decide) [Op.add [104, 0] (fun _ => 1)]
      (fun op hop => by
        rw [List.mem_singleton.1 hop]; exact level_ok_zero _)
      [(SUCCESS, some true)] heap_after_add (by decide!) [120, 0] (fun _ => 1) heap_after_two
      (by decide) (by decide) (level_ok_zero _) (by decide!)⟩

theorem default_cmp_zero (a b : Elem) (h : (_list_default_el_cmp a b).2 = 0) :
    a <+: b ∨ b <+: a := by
  by_cases h1 : a = MIN_VAL
  · rw [h1, default_cmp_MIN] at h; cases h
  · by_cases h2 : a = MAX_VAL
    · rw [h2, default_cmp_MAX] at h; cases h
    · rw [default_cmp_plain a b h1 h2] at h
      exact (memcmp_zero_iff_related a b).1 h

/-- C3 as stated fails for an element that is a byte-prefix of an added one:
after `add` of the two bytes `ab` (97 98), `contains` of the single byte `a`
(97), which differs in length from the only element added, reports
`found = true`. -/
theorem C3_prefix_is_found :
    ([97] : Elem).length ≠ ([97, 98] : Elem).length ∧
      (run (new_list unset_opts) (new_heap unset_opts)
        [Op.add [97, 98] (fun _ => 1), Op.contains [97]]).map (fun r => r.1) =
        some [(SUCCESS, some true), (SUCCESS, some true)] := by
  decide!

/-- C3, amended: with the default comparator, single-threaded and no external
call failing, after any sequence of add calls (levels drawn in
`[0, max_level - 1]`) and no remove, every add has returned SUCCESS and
`hopscotch_list_contains_el(w)` reports `found = false` for every byte string
`w` that differs from every added element within their common length, that is,
such that neither `w` is a byte-prefix of an added element nor an added element
a byte-prefix of `w`. -/
theorem C3_contains_only_added (opts : hopscotch_opts_t) (hc : opts.cmp = none)
    (hm : opts.max_level < 256) (adds : List (Elem × (Nat → ℚ)))
    (hlev : ∀ a ∈ adds, level_ok (new_list opts) (Op.add a.1 a.2)) :
    ∃ rs h, run (new_list opts) (new_heap opts) (adds.map (fun a => Op.add a.1 a.2)) =
        some (rs, h) ∧ (∀ r ∈ rs, r.1 = SUCCESS) ∧
      ∀ w, (∀ a ∈ adds, ¬ (a.1 <+: w) ∧ ¬ (w <+: a.1)) →
        hopscotch_list_contains_el (new_list opts) h w = some (SUCCESS, false) := by
  have hu := uses_new_default opts hc
  obtain ⟨rs, h, L, hrun, hrep, hrs, hvals⟩ :=
    run_default _ _ hu (adds.map (fun a => Op.add a.1 a.2)) _ [] (rep_new opts hm) (by
      intro op hop
      obtain ⟨a, ha, rfl⟩ := List.mem_map.1 hop
      exact hlev a ha) (by
      intro v hv
      obtain ⟨a, _, ha⟩ := List.mem_map.1 hv
      cases ha)
  refine ⟨rs, h, hrun, fun r hr => (hrs r hr).1, ?_⟩
  intro w hw
  obtain ⟨hstop, heq1⟩ := default_stop hrep w
  rw [contains_spec _ _ h w _ L hu hrep (fun p _ => default_cmp_ok _ _) hstop]
  cases hml : matchLevel (eqq _list_default_el_cmp h w) h.lev
      (split_at _list_default_el_cmp h w (default_opts opts).max_level L).2
      (default_opts opts).max_level with
  | none => rfl
  | some l =>
    exfalso
    obtain ⟨_, hcL, heq, _⟩ := match_node _ h w _ L hrep heq1 l hml
    rcases hvals _ hcL with ⟨hx, _⟩ | ⟨rnd, hmem⟩
    · simp at hx
    · obtain ⟨a, ha, hop⟩ := List.mem_map.1 hmem
      simp only [Op.add.injEq] at hop
      have hz : (_list_default_el_cmp a.1 w).2 = 0 := by
        rw [hop.1]
        simpa [eqq] using heq
      rcases default_cmp_zero a.1 w hz with hp | hp
      · exact (hw a ha).1 hp
      · exact (hw a ha).2 hp

theorem C3_contains_only_added_witness :
    unset_opts.cmp = none ∧ unset_opts.max_level < 256 ∧
      ∃ rs h, run (new_list unset_opts) (new_heap unset_opts)
          (([([104, 101, 108, 108, 111, 0], fun _ => 1), ([104, 111, 108, 97, 0], fun _ => 1)] :
              List (Elem × (Nat → ℚ))).map (fun a => Op.add a.1 a.2)) = some (rs, h) ∧
        (∀ r ∈ rs, r.1 = SUCCESS) ∧
        ∀ w, (∀ a ∈ ([([104, 101, 108, 108, 111, 0], fun _ => 1),
            ([104, 111, 108, 97, 0], fun _ => 1)] : List (Elem × (Nat → ℚ))),
            ¬ (a.1 <+: w) ∧ ¬ (w <+: a.1)) →
          hopscotch_list_contains_el (new_list unset_opts) h w = some (SUCCESS, false) :=
  ⟨rfl, by decide,
    C3_contains_only_added unset_opts rfl (by decide)
      [([104, 101, 108, 108, 111, 0], fun _ => 1), ([104, 111, 108, 97, 0], fun _ => 1)]
      (fun a ha => by
        simp only [List.mem_cons, List.mem_singleton, List.not_mem_nil, or_false] at ha
        rcases ha with rfl | rfl <;> exact level_ok_zero _)⟩
theorem lastOr_pairwise {R : Ptr → Ptr → Prop} : ∀ (A : List Ptr) (d : Ptr), A.Pairwise R →
    ∀ p ∈ A, p = lastOr d A ∨ R p (lastOr d A)
  | [], _, _, p, hp => by cases hp
  | a :: A, d, hA, p, hp => by
    rw [List.pairwise_cons] at hA
    show p = lastOr a A ∨ R p (lastOr a A)
    rcases List.mem_cons.1 hp with rfl | hp
    · by_cases hne : A = []
      · subst hne; exact Or.inl rfl
      · exact Or.inr (hA.1 _ (lastOr_mem p A hne))
    · exact lastOr_pairwise A a hA.2 p hp

theorem sorted_stop {cmp : Cmp} {U : Elem → Prop} {m : Nat} {h : Heap} {L : List Ptr}
    (hord : OrderedOn cmp U) (hrep : Rep m h L) {v : Elem} (hv : U v) :
    ltq cmp h v 1 = false ∧ eqq cmp h v 1 = false :=
  stop_of_max cmp h v (rep_valOf_right hrep) (hord.max v hv)

theorem sorted_ok {cmp : Cmp} {U : Elem → Prop} {m : Nat} {h : Heap} {L : List Ptr}
    (hord : OrderedOn cmp U) (hrep : Rep m h L) (hs : Sorted cmp U h L) {v : Elem} (hv : U v) :
    ∀ p, p = 1 ∨ p ∈ L → (cmp (h.valOf p) v).1 = SUCCESS := by
  intro p hp
  rcases hp with rfl | hp
  · exact hord.ok _ _ (Or.inr (rep_valOf_right hrep)) hv
  · exact hord.ok _ _ (Or.inl (hs.1 p hp)) hv

/-- On a sorted list the Finder leaves behind only nodes that compare below the
query, and no node ahead compares below it. -/
theorem sorted_split (cmp : Cmp) (U : Elem → Prop) (h : Heap) (v : Elem) (m : Nat) (L : List Ptr)
    (hord : OrderedOn cmp U) (hrep : Rep m h L) (hs : Sorted cmp U h L) (hv : U v) :
    (∀ p ∈ (split_at cmp h v m L).1, (cmp (h.valOf p) v).2 < 0) ∧
      (∀ q ∈ (split_at cmp h v m L).2, 0 ≤ (cmp (h.valOf q) v).2) := by
  have hL := split_at_append cmp h v m L
  obtain ⟨hfirst, hlast⟩ := descend_stop (ltq cmp h v) h.lev (sorted_stop hord hrep hv).1 m [] L
  have hlast := hlast (Or.inl rfl)
  change (split_at cmp h v m L).1 = [] ∨ ltq cmp h v (lastOr 0 (split_at cmp h v m L).1) = true
    at hlast
  change ∀ i, i < m → ltq cmp h v (firstAt h.lev i 1 (split_at cmp h v m L).2) = false at hfirst
  have hpw := hs.2
  rw [hL] at hpw
  have hin1 : ∀ p ∈ (split_at cmp h v m L).1, p ∈ L := fun p hp => by
    rw [hL]; exact List.mem_append_left _ hp
  have hin2 : ∀ p ∈ (split_at cmp h v m L).2, p ∈ L := fun p hp => by
    rw [hL]; exact List.mem_append_right _ hp
  obtain ⟨hp1, hp2, hp12⟩ := List.pairwise_append.1 hpw
  constructor
  · intro p hp
    rcases hlast with he | hl
    · rw [he] at hp; cases hp
    · have hne : (split_at cmp h v m L).1 ≠ [] := List.ne_nil_of_mem hp
      have hlm := lastOr_mem 0 _ hne
      have hl2 : (cmp (h.valOf (lastOr 0 (split_at cmp h v m L).1)) v).2 < 0 := by
        simpa [ltq] using hl
      rcases lastOr_pairwise _ 0 hp1 p hp with he | hr
      · rw [he]; exact hl2
      · exact hord.trans _ _ _ (hs.1 p (hin1 p hp)) (hs.1 _ (hin1 _ hlm)) hv hr hl2
  · intro q hq
    cases hrest : (split_at cmp h v m L).2 with
    | nil => rw [hrest] at hq; cases hq
    | cons r rest2 =>
      have hr : r ∈ (split_at cmp h v m L).2 := by rw [hrest]; simp
      have hm : 0 < m := by
        obtain ⟨_, val, lvl, hlvl, _⟩ := hrep.mem r (hin2 r hr)
        omega
      have h0 := hfirst 0 hm
      rw [hrest] at h0
      simp only [firstAt, Nat.zero_le, if_true] at h0
      have h0' : ¬ (cmp (h.valOf r) v).2 < 0 := by simpa [ltq] using h0
      rw [hrest] at hq hp2
      rcases List.mem_cons.1 hq with rfl | hq
      · omega
      · by_contra hlt
        have hrq := (List.pairwise_cons.1 hp2).1 q hq
        exact h0' (hord.trans _ _ _ (hs.1 r (hin2 r hr))
          (hs.1 q (hin2 q (by rw [hrest]; exact List.mem_cons_of_mem _ hq))) hv hrq
          (by omega))

/-- On a sorted list a match of the Finder is the first node ahead, and its
value is the query. -/
theorem sorted_match (cmp : Cmp) (U : Elem → Prop) (h : Heap) (v : Elem) (m : Nat) (L : List Ptr)
    (hord : OrderedOn cmp U) (hrep : Rep m h L) (hs : Sorted cmp U h L) (hv : U v) (l : Nat)
    (hml : matchLevel (eqq cmp h v) h.lev (split_at cmp h v m L).2 m = some l) :
    ∃ rest2, (split_at cmp h v m L).2 = firstAt h.lev l 1 (split_at cmp h v m L).2 :: rest2 ∧
      h.valOf (firstAt h.lev l 1 (split_at cmp h v m L).2) = v := by
  obtain ⟨_, hcL, heq, _, seg, rest2, hsplit, _⟩ :=
    match_node cmp h v m L hrep (sorted_stop hord hrep hv).2 l hml
  have hval : h.valOf (firstAt h.lev l 1 (split_at cmp h v m L).2) = v :=
    (hord.zero _ _ (hs.1 _ hcL) hv).1 (by simpa [eqq] using heq)
  refine ⟨rest2, ?_, hval⟩
  cases seg with
  | nil => simpa using hsplit
  | cons s seg2 =>
    exfalso
    have hL := split_at_append cmp h v m L
    have hpw := hs.2
    rw [hL] at hpw
    obtain ⟨_, hp2, _⟩ := List.pairwise_append.1 hpw
    have hsm : s ∈ (split_at cmp h v m L).2 := by rw [hsplit]; simp
    have h1 := (sorted_split cmp U h v m L hord hrep hs hv).2 s hsm
    rw [hsplit] at hp2
    have h2 := (List.pairwise_cons.1 hp2).1 (firstAt h.lev l 1 (split_at cmp h v m L).2)
      (by simp)
    rw [hval] at h2
    omega

/-- On a sorted list, when the Finder reports no match, no node carries the
query and the query compares below every node ahead. -/
theorem sorted_no_match (cmp : Cmp) (U : Elem → Prop) (h : Heap) (v : Elem) (m : Nat)
    (L : List Ptr) (hord : OrderedOn cmp U) (hrep : Rep m h L) (hs : Sorted cmp U h L) (hv : U v)
    (hml : matchLevel (eqq cmp h v) h.lev (split_at cmp h v m L).2 m = none) :
    (∀ p ∈ L, h.valOf p ≠ v) ∧
      ∀ q ∈ (split_at cmp h v m L).2, (cmp v (h.valOf q)).2 < 0 := by
  have hL := split_at_append cmp h v m L
  obtain ⟨hpre, hrest⟩ := sorted_split cmp U h v m L hord hrep hs hv
  have hvv : (cmp v v).2 = 0 := (hord.zero v v hv hv).2 rfl
  have hpw := hs.2
  rw [hL] at hpw
  obtain ⟨_, hp2, _⟩ := List.pairwise_append.1 hpw
  have hin2 : ∀ p ∈ (split_at cmp h v m L).2, p ∈ L := fun p hp => by
    rw [hL]; exact List.mem_append_right _ hp
  have hne : ∀ p ∈ L, h.valOf p ≠ v := by
    intro p hp he
    rw [hL] at hp
    rcases List.mem_append.1 hp with hp | hp
    · have := hpre p hp
      rw [he, hvv] at this; omega
    · cases hr : (split_at cmp h v m L).2 with
      | nil => rw [hr] at hp; cases hp
      | cons r rest2 =>
        have hrm : r ∈ (split_at cmp h v m L).2 := by rw [hr]; simp
        have hm : 0 < m := by
          obtain ⟨_, val, lvl, hlvl, _⟩ := hrep.mem r (hin2 r hrm)
          omega
        have h0 := (matchLevel_none h.lev _ _ _).1 hml 0 hm
        rw [hr] at h0
        simp only [firstAt, Nat.zero_le, if_true] at h0
        have h0' : (cmp (h.valOf r) v).2 ≠ 0 := by simpa [eqq] using h0
        rw [hr] at hp hp2
        rcases List.mem_cons.1 hp with rfl | hp
        · rw [he] at h0'; exact h0' hvv
        · have hrq := (List.pairwise_cons.1 hp2).1 p hp
          rw [he] at hrq
          have := hrest r hrm
          omega
  refine ⟨hne, fun q hq => ?_⟩
  have h1 := hrest q hq
  have h2 : (cmp (h.valOf q) v).2 ≠ 0 := fun h0 =>
    hne q (hin2 q hq) ((hord.zero _ _ (hs.1 q (hin2 q hq)) hv).1 h0)
  exact (hord.asymm _ _ hv (hs.1 q (hin2 q hq))).2 (by omega)
theorem sorted_congr {cmp : Cmp} {U : Elem → Prop} {h h' : Heap} {L : List Ptr}
    (hs : Sorted cmp U h L) (hval : ∀ p ∈ L, h'.valOf p = h.valOf p) : Sorted cmp U h' L := by
  refine ⟨fun p hp => by rw [hval p hp]; exact hs.1 p hp, ?_⟩
  refine hs.2.imp_of_mem ?_
  intro p q hp hq hr
  rw [hval p hp, hval q hq]; exact hr

theorem sorted_sublist {cmp : Cmp} {U : Elem → Prop} {h : Heap} {L L' : List Ptr}
    (hs : Sorted cmp U h L) (hsub : L'.Sublist L) : Sorted cmp U h L' :=
  ⟨fun p hp => hs.1 p (hsub.subset hp), hs.2.sublist hsub⟩

theorem sorted_insert {cmp : Cmp} {U : Elem → Prop} {h : Heap} {pre rest : List Ptr} {n : Ptr}
    (hs : Sorted cmp U h (pre ++ rest)) (hn : U (h.valOf n))
    (hpre : ∀ p ∈ pre, (cmp (h.valOf p) (h.valOf n)).2 < 0)
    (hrest : ∀ q ∈ rest, (cmp (h.valOf n) (h.valOf q)).2 < 0) :
    Sorted cmp U h (pre ++ n :: rest) := by
  obtain ⟨h1, h2, h12⟩ := List.pairwise_append.1 hs.2
  refine ⟨?_, ?_⟩
  · intro p hp
    rcases List.mem_append.1 hp with hp | hp
    · exact hs.1 p (List.mem_append_left _ hp)
    · rcases List.mem_cons.1 hp with rfl | hp
      · exact hn
      · exact hs.1 p (List.mem_append_right _ hp)
  · refine List.pairwise_append.2 ⟨h1, List.pairwise_cons.2 ⟨hrest, h2⟩, ?_⟩
    intro p hp q hq
    rcases List.mem_cons.1 hq with rfl | hq
    · exact hpre p hp
    · exact h12 p hp q hq

theorem sorted_val_ne {cmp : Cmp} {U : Elem → Prop} (hord : OrderedOn cmp U) {h : Heap}
    {pre rest : List Ptr} {c : Ptr} (hs : Sorted cmp U h (pre ++ c :: rest)) :
    ∀ p ∈ pre ++ rest, h.valOf p ≠ h.valOf c := by
  obtain ⟨_, h2, h12⟩ := List.pairwise_append.1 hs.2
  have hc : U (h.valOf c) := hs.1 c (by simp)
  have hcc : (cmp (h.valOf c) (h.valOf c)).2 = 0 := (hord.zero _ _ hc hc).2 rfl
  intro p hp he
  rcases List.mem_append.1 hp with hp | hp
  · have := h12 p hp c (by simp)
    rw [he, hcc] at this; omega
  · have := (List.pairwise_cons.1 h2).1 p hp
    rw [he, hcc] at this; omega
theorem toFinset_insert_mid (f : Ptr → Elem) (A B : List Ptr) (n : Ptr) :
    ((A ++ n :: B).map f).toFinset = insert (f n) ((A ++ B).map f).toFinset := by
  ext x
  simp only [List.map_append, List.map_cons, List.toFinset_append, List.toFinset_cons,
    Finset.mem_union, Finset.mem_insert]
  tauto

theorem toFinset_erase_mid (f : Ptr → Elem) (A B : List Ptr) (c : Ptr)
    (hne : ∀ p ∈ A ++ B, f p ≠ f c) :
    ((A ++ B).map f).toFinset = (((A ++ c :: B).map f).toFinset).erase (f c) := by
  rw [toFinset_insert_mid, Finset.erase_insert]
  rw [List.mem_toFinset, List.mem_map]
  rintro ⟨p, hp, he⟩
  exact hne p hp he

theorem step_sorted (list : hopscotch_list_t) (cmp : Cmp) (U : Elem → Prop) (m : Nat) (h : Heap)
    (L : List Ptr) (op : Op) (hord : OrderedOn cmp U) (hu : Uses list cmp m) (hrep : Rep m h L)
    (hs : Sorted cmp U h L) (hU : U op.elem) (hlev : level_ok list op)
    (hret : ∀ v, op = Op.remove v → (step list h op).isSome = true) :
    ∃ h' L', step list h op = some (SUCCESS, some (set_step (L.map h.valOf).toFinset op).1, h') ∧
      Rep m h' L' ∧ Sorted cmp U h' L' ∧
      (L'.map h'.valOf).toFinset = (set_step (L.map h.valOf).toFinset op).2 := by
  have hv : U op.elem := hU
  have hL := split_at_append cmp h op.elem m L
  obtain ⟨hstop, heq1⟩ := sorted_stop hord hrep hv
  have hok := sorted_ok hord hrep hs hv
  have hfound : ∀ l, matchLevel (eqq cmp h op.elem) h.lev (split_at cmp h op.elem m L).2 m =
      some l → op.elem ∈ (L.map h.valOf).toFinset := by
    intro l hml
    obtain ⟨rest2, _, hval⟩ := sorted_match cmp U h _ m L hord hrep hs hv l hml
    rw [List.mem_toFinset]
    exact List.mem_map.2 ⟨_, (match_node cmp h _ m L hrep heq1 l hml).2.1, hval⟩
  have hnone : matchLevel (eqq cmp h op.elem) h.lev (split_at cmp h op.elem m L).2 m = none →
      op.elem ∉ (L.map h.valOf).toFinset := by
    intro hml
    rw [List.mem_toFinset, List.mem_map]
    rintro ⟨p, hp, he⟩
    exact (sorted_no_match cmp U h _ m L hord hrep hs hv hml).1 p hp he
  cases op with
  | add v rnd =>
    simp only [Op.elem] at hv hL hstop heq1 hok hfound hnone
    cases hml : matchLevel (eqq cmp h v) h.lev (split_at cmp h v m L).2 m with
    | some l =>
      have hmem := hfound l hml
      refine ⟨h, L, ?_, hrep, hs, ?_⟩
      · simp only [step, set_step, hmem, not_true_eq_false, decide_False]
        exact add_found list cmp h v m L no_failure rnd hu hrep hok hstop (by rw [hml]; rfl)
      · simp only [set_step]; exact (Finset.insert_eq_of_mem hmem).symm
    | none =>
      have hnm := hnone hml
      obtain ⟨_, hrest⟩ := sorted_no_match cmp U h v m L hord hrep hs hv hml
      obtain ⟨hpre, _⟩ := sorted_split cmp U h v m L hord hrep hs hv
      have ht : _list_rand_level rnd list.opts.rand_level_p list.opts.max_level < m := by
        have := hlev; simp only [level_ok] at this; rw [← hu.max_level]; exact this
      obtain ⟨h', hadd, hrep', hshape, hshn⟩ :=
        add_link list cmp h v m L rnd hu hrep hok hstop hml ht
      have hvalL : ∀ p ∈ L, h'.valOf p = h.valOf p := fun p hp => by
        have hne : p ≠ h.nodes.length := by
          intro he
          have := rep_mem_lt hrep p (Or.inr (Or.inr hp))
          rw [he] at this; exact lt_irrefl _ this
        exact valOf_of_shape (hshape p hne)
      have hvaln : h'.valOf h.nodes.length = v := valOf_of_shape_some hshn
      have hs' : Sorted cmp U h' ((split_at cmp h v m L).1 ++ (split_at cmp h v m L).2) := by
        rw [← hL]; exact sorted_congr hs hvalL
      have hin1 : ∀ p ∈ (split_at cmp h v m L).1, p ∈ L := fun p hp => by
        rw [hL]; exact List.mem_append_left _ hp
      have hin2 : ∀ p ∈ (split_at cmp h v m L).2, p ∈ L := fun p hp => by
        rw [hL]; exact List.mem_append_right _ hp
      refine ⟨h', _, ?_, hrep', ?_, ?_⟩
      · simp only [step, set_step, hnm, not_false_eq_true, decide_True]; exact hadd
      · refine sorted_insert hs' (by rw [hvaln]; exact hv) ?_ ?_
        · intro p hp; rw [hvaln, hvalL p (hin1 p hp)]; exact hpre p hp
        · intro q hq; rw [hvaln, hvalL q (hin2 q hq)]; exact hrest q hq
      · simp only [set_step]
        rw [toFinset_insert_mid, hvaln, ← hL, List.map_congr_left hvalL]
  | contains v =>
    simp only [Op.elem] at hv hL hstop heq1 hok hfound hnone
    refine ⟨h, L, ?_, hrep, hs, rfl⟩
    simp only [step, contains_spec list cmp h v m L hu hrep hok hstop, Option.map_some',
      set_step]
    cases hml : matchLevel (eqq cmp h v) h.lev (split_at cmp h v m L).2 m with
    | some l => simp [hfound l hml]
    | none => simp [hnone hml]
  | remove v =>
    simp only [Op.elem] at hv hL hstop heq1 hok hfound hnone
    cases hml : matchLevel (eqq cmp h v) h.lev (split_at cmp h v m L).2 m with
    | none =>
      have hn : step list h (Op.remove v) = none :=
        del_not_found list cmp h v m L no_failure hu hrep hok hstop hml
      have := hret v rfl
      rw [hn] at this
      cases this
    | some l =>
      have hmem := hfound l hml
      obtain ⟨h', seg, rest2, hsplit, hseg, hdel, hrep', hshape, _⟩ :=
        del_unlink list cmp h v m L hu hrep hok hstop heq1 l hml
      obtain ⟨rest3, hsplit3, hval⟩ := sorted_match cmp U h v m L hord hrep hs hv l hml
      have hlevc := (match_node cmp h v m L hrep heq1 l hml).2.2.2.1
      have hseg0 : seg = [] := by
        cases seg with
        | nil => rfl
        | cons s seg2 =>
          exfalso
          have he := hsplit.symm.trans hsplit3
          simp only [List.cons_append, List.cons.injEq] at he
          have := hseg s (by simp)
          rw [he.1, hlevc] at this
          exact lt_irrefl _ this
      subst hseg0
      simp only [List.nil_append] at hsplit
      set c := firstAt h.lev l 1 (split_at cmp h v m L).2 with hc
      have hsL : Sorted cmp U h ((split_at cmp h v m L).1 ++ c :: rest2) := by
        rw [← hsplit, ← hL]; exact hs
      have hvne := sorted_val_ne hord hsL
      have hval2 : ∀ p ∈ (split_at cmp h v m L).1 ++ rest2, h'.valOf p = h.valOf p :=
        fun p hp => valOf_of_shape (hshape p (fun he => hvne p hp (by rw [he])))
      refine ⟨h', _, ?_, hrep', ?_, ?_⟩
      · simp only [step, set_step, hmem, decide_True]; exact hdel
      · exact sorted_congr (sorted_sublist hsL
          (List.Sublist.append_left (List.sublist_cons_self c rest2) _)) hval2
      · simp only [set_step]
        rw [List.map_congr_left hval2, toFinset_erase_mid h.valOf _ _ c hvne, hval, ← hsplit,
          ← hL]

/-- With a comparator that orders the elements in use, a sequence of calls on a
sorted represented list in which every remove has a result returns what the
set machine returns and leaves a sorted represented list holding the set
after. -/
theorem run_sorted (list : hopscotch_list_t) (cmp : Cmp) (U : Elem → Prop) (m : Nat)
    (hord : OrderedOn cmp U) (hu : Uses list cmp m) :
    ∀ (ops : List Op) (h : Heap) (L : List Ptr), Rep m h L → Sorted cmp U h L →
      (∀ op ∈ ops, U op.elem) → (∀ op ∈ ops, level_ok list op) →
      (∀ v, Op.remove v ∈ ops → (run list h ops).isSome = true) →
      ∃ h' L', run list h ops =
          some ((set_run (L.map h.valOf).toFinset ops).map (fun b => (SUCCESS, some b)), h') ∧
        Rep m h' L' ∧ Sorted cmp U h' L' ∧
        (L'.map h'.valOf).toFinset = set_after (L.map h.valOf).toFinset ops := by
  intro ops
  induction ops with
  | nil =>
    intro h L hrep hs _ _ _
    exact ⟨h, L, rfl, hrep, hs, rfl⟩
  | cons op ops ih =>
    intro h L hrep hs hU hlev hret
    obtain ⟨h1, L1, hstep, hrep1, hs1, hset1⟩ :=
      step_sorted list cmp U m h L op hord hu hrep hs (hU op (by simp)) (hlev op (by simp))
        (fun v hv => (run_isSome_cons list h op ops (hret v (by simp [hv]))).1)
    obtain ⟨h2, L2, hrun, hrep2, hs2, hset2⟩ :=
      ih h1 L1 hrep1 hs1 (fun o ho => hU o (by simp [ho])) (fun o ho => hlev o (by simp [ho]))
        (fun v hv => (run_isSome_cons list h op ops (hret v (by simp [hv]))).2 _ _ _ hstep)
    refine ⟨h2, L2, ?_, hrep2, hs2, ?_⟩
    · simp only [run, hstep, hrun, set_run, List.map_cons, hset1]
    · simp only [set_after]; rw [hset2, hset1]

theorem sorted_nil (cmp : Cmp) (U : Elem → Prop) (h : Heap) : Sorted cmp U h [] :=
  ⟨fun _ hp => (by cases hp), List.Pairwise.nil⟩

theorem memcmp_min_cons (x y : Nat) (xs ys : Elem) :
    memcmp (x :: xs) (y :: ys) (min (x :: xs).length (y :: ys).length) =
      if x = y then memcmp xs ys (min xs.length ys.length) else (x : Int) - (y : Int) := by
  have : min (x :: xs).length (y :: ys).length = min xs.length ys.length + 1 := by
    simp only [List.length_cons]; omega
  rw [this, memcmp]

theorem memcmp_min_nil_left (b : Elem) : memcmp [] b (min ([] : Elem).length b.length) = 0 := by
  simp [memcmp]

theorem memcmp_min_nil_right (a : Elem) : memcmp a [] (min a.length ([] : Elem).length) = 0 := by
  simp [memcmp]

theorem memcmp_asymm : ∀ a b : Elem,
    memcmp a b (min a.length b.length) < 0 ↔ 0 < memcmp b a (min b.length a.length)
  | [], b => by rw [memcmp_min_nil_left, memcmp_min_nil_right]
  | a, [] => by rw [memcmp_min_nil_left, memcmp_min_nil_right]
  | x :: xs, y :: ys => by
    rw [memcmp_min_cons, memcmp_min_cons]
    by_cases hxy : x = y
    · subst hxy; simp only [if_true]; exact memcmp_asymm xs ys
    · have hyx : ¬ y = x := fun e => hxy e.symm
      simp only [hxy, hyx, if_false]; omega

theorem memcmp_trans : ∀ a b c : Elem,
    memcmp a b (min a.length b.length) < 0 → memcmp b c (min b.length c.length) < 0 →
      memcmp a c (min a.length c.length) < 0
  | [], b, c => by rw [memcmp_min_nil_left]; intro h; omega
  | a, [], c => by rw [memcmp_min_nil_right]; intro h; omega
  | a, b, [] => by rw [memcmp_min_nil_right]; intro _ h; omega
  | x :: xs, y :: ys, z :: zs => by
    rw [memcmp_min_cons, memcmp_min_cons, memcmp_min_cons]
    by_cases hxy : x = y
    · subst hxy
      by_cases hxz : x = z
      · subst hxz; simp only [if_true]; exact memcmp_trans xs ys zs
      · simp only [hxz, if_true, if_false]; intro _ h; exact h
    · by_cases hyz : y = z
      · subst hyz; simp only [hxy, if_true, if_false]; intro h _; exact h
      · by_cases hxz : x = z
        · subst hxz; simp only [hxy, hyz, if_false]; intro h1 h2; omega
        · simp only [hxy, hyz, hxz, if_false]; intro h1 h2; omega

/-- The default comparator honours the contract on every set of elements
that holds neither sentinel byte string and no two distinct members of which
one is a byte-prefix of the other. -/
theorem default_ordered (U : Elem → Prop) (hmin : ¬ U MIN_VAL) (hmax : ¬ U MAX_VAL)
    (hpf : ∀ a b, U a → U b → a <+: b → a = b) : OrderedOn _list_default_el_cmp U := by
  have hplain : ∀ a b, U a → (_list_default_el_cmp a b).2 =
      memcmp a b (min a.length b.length) := fun a b ha => by
    rw [default_cmp_plain a b (fun e => hmin (e ▸ ha)) (fun e => hmax (e ▸ ha))]
  refine ⟨fun a b _ _ => default_cmp_ok a b, ?_, ?_, ?_, ?_⟩
  · intro a b ha hb
    rw [hplain a b ha, memcmp_zero_iff_related]
    constructor
    · rintro (h | h)
      · exact hpf a b ha hb h
      · exact (hpf b a hb ha h).symm
    · rintro rfl; exact Or.inl (List.prefix_refl _)
  · intro a b ha hb
    rw [hplain a b ha, hplain b a hb]; exact memcmp_asymm a b
  · intro a b c ha hb hc
    rw [hplain a b ha, hplain b c hb, hplain a c ha]; exact memcmp_trans a b c
  · intro b _; rw [default_cmp_MAX]; decide
theorem present_step_set (x : Elem) (S : Finset Elem) (op : Op) :
    present_step x (decide (x ∈ S)) (op, some (set_step S op).1) =
      decide (x ∈ (set_step S op).2) := by
  cases op with
  | add v rnd =>
    by_cases hv : v ∈ S
    · simp [present_step, set_step, hv]
    · by_cases hx : v = x
      · subst hx; simp [present_step, set_step, hv]
      · have hx2 : ¬ x = v := fun e => hx e.symm
        simp [present_step, set_step, hv, hx, hx2]
  | contains v => simp [present_step, set_step]
  | remove v =>
    by_cases hv : v ∈ S
    · by_cases hx : v = x
      · subst hx; simp [present_step, set_step, hv]
      · have hx2 : ¬ x = v := fun e => hx e.symm
        simp [present_step, set_step, hv, hx, hx2]
    · have hx : ¬ x = v ∨ x ∉ S := by
        by_cases e : x = v
        · right; rw [e]; exact hv
        · left; exact e
      by_cases hxs : x ∈ S
      · have hx2 : ¬ x = v := fun e => hv (e ▸ hxs)
        simp [present_step, set_step, hv, hx2, hxs]
      · simp [present_step, set_step, hv, hxs]

theorem present_fold (x : Elem) : ∀ (ops : List Op) (S : Finset Elem),
    (ops.zip ((set_run S ops).map some)).foldl (present_step x) (decide (x ∈ S)) =
      decide (x ∈ set_after S ops)
  | [], S => rfl
  | op :: ops, S => by
    simp only [set_run, List.map_cons, List.zip_cons_cons, List.foldl_cons, set_after]
    rw [present_step_set]
    exact present_fold x ops _
/-- A remove on a sorted represented list has a result exactly when its
element is one of the list: for an element the list does not hold, the Finder
writes no `level_found` and line 436 reads through it. -/
theorem remove_returns_iff (list : hopscotch_list_t) (cmp : Cmp) (U : Elem → Prop) (m : Nat)
    (h : Heap) (L : List Ptr) (v : Elem) (hord : OrderedOn cmp U) (hu : Uses list cmp m)
    (hrep : Rep m h L) (hs : Sorted cmp U h L) (hv : U v) :
    (step list h (Op.remove v)).isSome = true ↔ v ∈ (L.map h.valOf).toFinset := by
  obtain ⟨hstop, heq1⟩ := sorted_stop hord hrep hv
  have hok := sorted_ok hord hrep hs hv
  cases hml : matchLevel (eqq cmp h v) h.lev (split_at cmp h v m L).2 m with
  | none =>
    have hn : step list h (Op.remove v) = none :=
      del_not_found list cmp h v m L no_failure hu hrep hok hstop hml
    rw [hn]
    constructor
    · intro hc; cases hc
    · intro hmem
      exfalso
      rw [List.mem_toFinset, List.mem_map] at hmem
      obtain ⟨p, hp, he⟩ := hmem
      exact (sorted_no_match cmp U h _ m L hord hrep hs hv hml).1 p hp he
  | some l =>
    obtain ⟨h', _, _, _, _, hdel, _⟩ :=
      del_unlink list cmp h v m L hu hrep hok hstop heq1 l hml
    have hst : step list h (Op.remove v) = some (SUCCESS, some true, h') := hdel
    rw [hst]
    constructor
    · intro _
      obtain ⟨rest2, _, hval⟩ := sorted_match cmp U h _ m L hord hrep hs hv l hml
      rw [List.mem_toFinset]
      exact List.mem_map.2 ⟨_, (match_node cmp h _ m L hrep heq1 l hml).2.1, hval⟩
    · intro _; rfl

/-- Single-threaded, no external call failing, on the fresh list
`hopscotch_list_new` builds when no comparator is passed, with every drawn
level in `[0, max_level - 1]` and with elements taken from a set `U` that holds
neither sentinel byte string and no two distinct members of which one is a
byte-prefix of the other: a sequence of add / contains / remove calls in which
every remove has a result returns SUCCESS throughout, and the booleans written
are the ones a mathematical set gives, started empty (`set_run`). -/
theorem set_refinement (opts : hopscotch_opts_t) (hc : opts.cmp = none)
    (hm : opts.max_level < 256) (U : Elem → Prop) (hmin : ¬ U MIN_VAL)
    (hmax : ¬ U MAX_VAL) (hpf : ∀ a b, U a → U b → a <+: b → a = b) (ops : List Op)
    (hU : ∀ op ∈ ops, U op.elem) (hlev : ∀ op ∈ ops, level_ok (new_list opts) op)
    (hret : ∀ v, Op.remove v ∈ ops →
      (run (new_list opts) (new_heap opts) ops).isSome = true) :
    ∃ h, run (new_list opts) (new_heap opts) ops =
      some ((set_run ∅ ops).map (fun b => (SUCCESS, some b)), h) := by
  obtain ⟨h, L, hrun, _, _, _⟩ :=
    run_sorted (new_list opts) _list_default_el_cmp U _ (default_ordered U hmin hmax hpf)
      (uses_new_default opts hc) ops (new_heap opts) [] (rep_new opts hm)
      (sorted_nil _ U _) hU hlev hret
  exact ⟨h, hrun⟩

/-- In a state reached from `hopscotch_list_new` by calls on elements in use,
with a comparator that orders them, a remove of an element the set machine
does not hold has no result. -/
theorem remove_absent (opts : hopscotch_opts_t) (cmp : Cmp) (U : Elem → Prop)
    (hc : (default_opts opts).cmp = some cmp) (hm : opts.max_level < 256)
    (hord : OrderedOn cmp U) (ops : List Op) (hU : ∀ op ∈ ops, U op.elem)
    (hlev : ∀ op ∈ ops, level_ok (new_list opts) op)
    (rs : List (hopscotch_res_t × Option Bool)) (h : Heap)
    (hrun : run (new_list opts) (new_heap opts) ops = some (rs, h)) (x : Elem) (hx : U x)
    (habs : x ∉ set_after ∅ ops) :
    hopscotch_list_del_el no_failure (new_list opts) h x = none := by
  have hu := uses_new opts cmp hc
  obtain ⟨h1, L1, hrun1, hrep1, hs1, hset1⟩ :=
    run_sorted (new_list opts) cmp U _ hord hu ops (new_heap opts) [] (rep_new opts hm)
      (sorted_nil _ U _) hU hlev (fun _ _ => by rw [hrun]; rfl)
  rw [hrun] at hrun1
  simp only [Option.some.injEq, Prod.mk.injEq] at hrun1
  obtain ⟨_, hh⟩ := hrun1
  subst hh
  have hiff := remove_returns_iff (new_list opts) cmp U _ h L1 x hord hu hrep1 hs1 hx
  have hn : x ∉ (L1.map h.valOf).toFinset := by
    rw [hset1]
    simpa using habs
  cases hd : hopscotch_list_del_el no_failure (new_list opts) h x with
  | none => rfl
  | some r =>
    exfalso
    apply hn
    apply hiff.1
    show (hopscotch_list_del_el no_failure (new_list opts) h x).isSome = true
    rw [hd]; rfl

theorem test_set_prefix_free : ∀ a b, test_set a → test_set b → a <+: b → a = b := by
  rintro a b (rfl | rfl) (rfl | rfl) hp
  · rfl
  · exact absurd hp (by decide)
  · exact absurd hp (by decide)
  · rfl

theorem test_set_plain : ¬ test_set [] ∧ ¬ test_set MIN_VAL ∧ ¬ test_set MAX_VAL := by
  refine ⟨?_, ?_, ?_⟩ <;> (rintro (h | h) <;> exact absurd h (by decide))

theorem test_set_ordered : OrderedOn _list_default_el_cmp test_set :=
  default_ordered test_set test_set_plain.2.1 test_set_plain.2.2 test_set_prefix_free

/-- C1 fails on the code at a remove of an absent element.  On the fresh list
of `test.c` (default comparator, level 0 drawn), after `add("h")` has returned
SUCCESS with `added = true`, the set machine answers `remove("x")` with false;
`hopscotch_list_del_el("x")` has no result: the Finder writes no `level_found`
and line 436 reads `succ_nodes` through it.  The elements "h" and "x" are
non-empty, no sentinel byte string, and neither is a byte-prefix of the
other. -/
theorem C1_remove_of_absent_has_no_result :
    set_run ∅ [Op.add [104, 0] (fun _ => 1), Op.remove [120, 0]] = [true, false] ∧
      run (new_list unset_opts) (new_heap unset_opts) [Op.add [104, 0] (fun _ => 1)] =
        some ([(SUCCESS, some true)], heap_after_add) ∧
      step (new_list unset_opts) heap_after_add (Op.remove [120, 0]) = none ∧
      run (new_list unset_opts) (new_heap unset_opts)
        [Op.add [104, 0] (fun _ => 1), Op.remove [120, 0]] = none := by
  refine ⟨?_, ?_, ?_, ?_⟩ <;> decide!

/-- Single-threaded, no external call failing, for a comparator that honours
the contract `OrderedOn` on the elements in use, with levels drawn in
`[0, max_level - 1]`: in every state `h` reached from `hopscotch_list_new` by a
sequence of calls in which `x` is present (a previous `add(x)` reported true
and no `remove(x)` reported true since), `hopscotch_list_del_el(x)` returns
SUCCESS with `deleted = true` and a following `contains(x)` reports
`found = false`; a second `del_el(x)` has no result. -/
theorem remove_round_trip (opts : hopscotch_opts_t) (cmp : Cmp) (U : Elem → Prop)
    (hc : (default_opts opts).cmp = some cmp) (hm : opts.max_level < 256)
    (hord : OrderedOn cmp U) (ops : List Op) (hU : ∀ op ∈ ops, U op.elem)
    (hlev : ∀ op ∈ ops, level_ok (new_list opts) op)
    (rs : List (hopscotch_res_t × Option Bool)) (h : Heap)
    (hrun : run (new_list opts) (new_heap opts) ops = some (rs, h)) (x : Elem) (hx : U x)
    (hpres : present x (ops.zip (rs.map Prod.snd)) = true) :
    (∃ h', run (new_list opts) h [Op.remove x, Op.contains x] =
        some ([(SUCCESS, some true), (SUCCESS, some false)], h')) ∧
      run (new_list opts) h [Op.remove x, Op.contains x, Op.remove x] = none := by
  have hu := uses_new opts cmp hc
  obtain ⟨h1, L1, hrun1, hrep1, hs1, hset1⟩ :=
    run_sorted (new_list opts) cmp U _ hord hu ops (new_heap opts) [] (rep_new opts hm)
      (sorted_nil _ U _) hU hlev (fun _ _ => by rw [hrun]; rfl)
  rw [hrun] at hrun1
  simp only [Option.some.injEq, Prod.mk.injEq] at hrun1
  obtain ⟨hrs, hh⟩ := hrun1
  subst hh
  have hmem : x ∈ (L1.map h.valOf).toFinset := by
    rw [hset1]
    have hf := present_fold x ops ∅
    rw [hrs, List.map_map] at hpres
    have he : (Prod.snd ∘ fun b => (SUCCESS, some b)) = (some : Bool → Option Bool) := rfl
    rw [he] at hpres
    simp only [present, List.map_nil, List.toFinset_nil] at hpres
    simp only [List.map_nil, List.toFinset_nil]
    simp only [Finset.not_mem_empty, decide_False] at hf
    rw [hpres] at hf
    exact of_decide_eq_true hf.symm
  have hsome := (remove_returns_iff (new_list opts) cmp U _ h L1 x hord hu hrep1 hs1 hx).2 hmem
  obtain ⟨h2, L2, hstep2, hrep2, hs2, hset2⟩ :=
    step_sorted (new_list opts) cmp U _ h L1 (Op.remove x) hord hu hrep1 hs1 hx trivial
      (fun _ _ => hsome)
  obtain ⟨h3, L3, hstep3, hrep3, hs3, hset3⟩ :=
    step_sorted (new_list opts) cmp U _ h2 L2 (Op.contains x) hord hu hrep2 hs2 hx trivial
      (fun _ hv => by cases hv)
  have hx2 : x ∉ (L2.map h2.valOf).toFinset := by
    rw [hset2]; simp [set_step]
  have hx3 : x ∉ (L3.map h3.valOf).toFinset := by
    rw [hset3]; simpa [set_step] using hx2
  have hnone : step (new_list opts) h3 (Op.remove x) = none := by
    cases hd : step (new_list opts) h3 (Op.remove x) with
    | none => rfl
    | some r =>
      exfalso
      apply hx3
      apply (remove_returns_iff (new_list opts) cmp U _ h3 L3 x hord hu hrep3 hs3 hx).1
      rw [hd]; rfl
  simp only [set_step, hmem, decide_True] at hstep2
  simp only [set_step, hx2, decide_False] at hstep3
  refine ⟨⟨h3, ?_⟩, ?_⟩
  · simp only [run, hstep2, hstep3]
  · simp only [run, hstep2, hstep3, hnone]

/-- C4 fails on the code at its third call.  The state `heap_after_two` is
reached on the fresh list of `test.c` (default comparator, level 0 drawn) by
`add("h")`, `add("x")`, both reporting true, so "h" is present.  There
`hopscotch_list_del_el("h")` returns SUCCESS with `deleted = true` and the
following `contains("h")` reports `found = false`, as the claim says; the
second `del_el("h")`, for which the claim says `deleted = false`, has no result:
the Finder writes no `level_found` and line 436 reads `succ_nodes` through
it. -/
theorem C4_second_remove_has_no_result :
    run (new_list unset_opts) (new_heap unset_opts)
        [Op.add [104, 0] (fun _ => 1), Op.add [120, 0] (fun _ => 1)] =
        some ([(SUCCESS, some true), (SUCCESS, some true)], heap_after_two) ∧
      present [104, 0] ([Op.add [104, 0] (fun _ => 1), Op.add [120, 0] (fun _ => 1)].zip
        [some true, some true]) = true ∧
      (run (new_list unset_opts) heap_after_two [Op.remove [104, 0], Op.contains [104, 0]]).map
        Prod.fst = some [(SUCCESS, some true), (SUCCESS, some false)] ∧
      run (new_list unset_opts) heap_after_two
        [Op.remove [104, 0], Op.contains [104, 0], Op.remove [104, 0]] = none := by
  refine ⟨?_, ?_, ?_, ?_⟩ <;> decide!

/-- The walk along `forward[i]` from a node of level at least `i` of a chained
list meets the nodes of level at least `i` after it, in order, then the end
node `1`, whose pointer is NULL. -/
theorem chain_spec (h : Heap) (i : Nat) (h1 : h.rdFwd 1 i = some none) :
    ∀ (A : List Ptr) (p : Ptr) (fuel : Nat), Chained h i 1 (p :: A) → i ≤ h.lev p →
      A.length + 2 ≤ fuel →
      chain h i fuel p = some (p :: A.filter (fun q => decide (i ≤ h.lev q)) ++ [1])
  | [], p, fuel, hc, hp, hf => by
    obtain ⟨f, rfl⟩ : ∃ f, fuel = f + 2 := ⟨fuel - 2, by simp only [List.length_nil] at hf; omega⟩
    have hpf := hc.1 hp
    simp only [firstAt] at hpf
    simp only [chain, hpf, h1, Option.map_some', List.filter_nil, List.cons_append,
      List.nil_append]
  | q :: A, p, fuel, hc, hp, hf => by
    obtain ⟨f, rfl⟩ : ∃ f, fuel = f + 1 := ⟨fuel - 1, by simp only [List.length_cons] at hf; omega⟩
    have hpf := hc.1 hp
    by_cases hq : i ≤ h.lev q
    · simp only [firstAt, hq, if_true] at hpf
      have ih := chain_spec h i h1 A q f hc.2 hq (by simp only [List.length_cons] at hf; omega)
      simp only [chain, hpf, ih, Option.map_some', List.filter_cons, hq, decide_True, if_true,
        List.cons_append]
    · simp only [firstAt, hq, if_false] at hpf
      have hc2 : Chained h i 1 (p :: A) := ⟨fun _ => hpf, hc.2.2⟩
      have ih := chain_spec h i h1 A p (f + 1) hc2 hp
        (by simp only [List.length_cons] at hf; omega)
      rw [ih]
      simp only [List.filter_cons, hq, decide_False, Bool.false_eq_true, if_false]

theorem rep_valOf_left {m : Nat} {h : Heap} {L : List Ptr} (hrep : Rep m h L) :
    h.valOf 0 = MIN_VAL := valOf_of_shape_some hrep.left

/-- On a represented, sorted list the chain of every level runs from the left
sentinel through nodes whose values ascend strictly and ends at the right
sentinel. -/
theorem chain_sorted (cmp : Cmp) (U : Elem → Prop) (m : Nat) (h : Heap) (L : List Ptr)
    (hext : Extremes cmp U) (hrep : Rep m h L) (hs : Sorted cmp U h L) (i : Nat) (hi : i < m) :
    ∃ ps, chain h i h.nodes.length 0 = some (0 :: ps ++ [1]) ∧
      List.Chain' (fun p q => (cmp (h.valOf p) (h.valOf q)).2 < 0) (0 :: ps ++ [1]) := by
  have hlev0 : i ≤ h.lev 0 := by rw [rep_lev_left hrep]; omega
  have hch := chain_spec h i (hrep.right_null i hi) L 0 h.nodes.length (hrep.link i hi) hlev0
    (rep_length hrep)
  refine ⟨_, hch, ?_⟩
  have hsub : (L.filter (fun q => decide (i ≤ h.lev q))).Sublist L := List.filter_sublist _
  have hs2 := sorted_sublist hs hsub
  apply List.Pairwise.chain'
  refine List.pairwise_append.2 ⟨List.pairwise_cons.2 ⟨?_, hs2.2⟩, List.pairwise_singleton _ _, ?_⟩
  · intro q hq
    rw [rep_valOf_left hrep]
    exact hext.min _ (hs2.1 q hq)
  · intro p hp q hq
    rw [List.mem_singleton] at hq
    subst hq
    rw [rep_valOf_right hrep]
    rcases List.mem_cons.1 hp with rfl | hp
    · rw [rep_valOf_left hrep]; exact hext.ends
    · exact hext.max _ (hs2.1 p hp)
/-- C6 (order invariant).  Single-threaded, no external call failing, for a
comparator that honours the contract `OrderedOn` on the elements in use and
ranks the sentinels' values as strict extremes (`Extremes`), with levels drawn
in `[0, max_level - 1]`: every sequence of calls on the list of
`hopscotch_list_new` in which each remove has a result (a sequence without
remove always has one) returns, and in the state it reaches, for every level
`i < max_level`, the walk that starts at the list head (the left sentinel) and
follows `forward[i]` visits nodes each of which compares below its `forward[i]`
successor, and ends, on a NULL pointer, at node 1, the right sentinel, whose
value is the MAX byte string. -/
theorem C6_order_invariant (opts : hopscotch_opts_t) (cmp : Cmp) (U : Elem → Prop)
    (hc : (default_opts opts).cmp = some cmp) (hm : opts.max_level < 256)
    (hord : OrderedOn cmp U) (hext : Extremes cmp U) (ops : List Op)
    (hU : ∀ op ∈ ops, U op.elem) (hlev : ∀ op ∈ ops, level_ok (new_list opts) op)
    (hret : ∀ v, Op.remove v ∈ ops →
      (run (new_list opts) (new_heap opts) ops).isSome = true) (i : Nat)
    (hi : i < (new_list opts).opts.max_level) :
    ∃ rs h ps, run (new_list opts) (new_heap opts) ops = some (rs, h) ∧
      chain h i h.nodes.length (new_list opts).head =
        some ((new_list opts).head :: ps ++ [1]) ∧
      h.valOf (new_list opts).head = MIN_VAL ∧ h.valOf 1 = MAX_VAL ∧
      List.Chain' (fun p q => (cmp (h.valOf p) (h.valOf q)).2 < 0)
        ((new_list opts).head :: ps ++ [1]) := by
  obtain ⟨h, L, hrun, hrep, hs, _⟩ :=
    run_sorted (new_list opts) cmp U _ hord (uses_new opts cmp hc) ops (new_heap opts) []
      (rep_new opts hm) (sorted_nil _ U _) hU hlev hret
  obtain ⟨ps, hch, hsorted⟩ := chain_sorted cmp U _ h L hext hrep hs i hi
  exact ⟨_, h, ps, hrun, hch, rep_valOf_left hrep, rep_valOf_right hrep, hsorted⟩

theorem digit_set_ordered : OrderedOn _list_default_el_cmp digit_set := by
  refine default_ordered digit_set ?_ ?_ ?_
  · rintro (h | h) <;> exact absurd h (by decide)
  · rintro (h | h) <;> exact absurd h (by decide)
  · rintro a b (rfl | rfl) (rfl | rfl) hp
    · rfl
    · exact absurd hp (by decide)
    · exact absurd hp (by decide)
    · rfl

theorem digit_set_extremes : Extremes _list_default_el_cmp digit_set := by
  refine ⟨fun b _ => ?_, ?_, ?_⟩
  · rw [default_cmp_MIN]; decide
  · rintro a (rfl | rfl) <;> decide
  · rw [default_cmp_MIN]; decide

theorem C6_order_invariant_witness :
    ∃ rs h ps, run (new_list unset_opts) (new_heap unset_opts)
        [Op.add [50, 0] (fun _ => 1), Op.add [49, 0] (fun _ => 1), Op.remove [50, 0],
          Op.add [50, 0] (fun _ => 1)] = some (rs, h) ∧
      chain h 0 h.nodes.length (new_list unset_opts).head =
        some ((new_list unset_opts).head :: ps ++ [1]) ∧
      h.valOf (new_list unset_opts).head = MIN_VAL ∧ h.valOf 1 = MAX_VAL ∧
      List.Chain' (fun p q => (_list_default_el_cmp (h.valOf p) (h.valOf q)).2 < 0)
        ((new_list unset_opts).head :: ps ++ [1]) :=
  C6_order_invariant unset_opts _list_default_el_cmp digit_set rfl (by decide)
    digit_set_ordered digit_set_extremes _
    (fun op hop => by
      simp only [List.mem_cons, List.mem_singleton, List.not_mem_nil, or_false] at hop
      rcases hop with rfl | rfl | rfl | rfl
      · exact Or.inr rfl
      · exact Or.inl rfl
      · exact Or.inr rfl
      · exact Or.inr rfl)
    (fun op hop => by
      simp only [List.mem_cons, List.mem_singleton, List.not_mem_nil, or_false] at hop
      rcases hop with rfl | rfl | rfl | rfl
      · exact level_ok_zero _
      · exact level_ok_zero _
      · trivial
      · exact level_ok_zero _)
    (fun _ _ => by decide!) 0 (by decide)
/-- C11 (option defaulting).  Whatever the environment, `hopscotch_list_new`
called with a NULL `*list` and options `o` leaves in `*opts` the effective
options `e`: a NULL `cmp` has become the default comparator, `max_level = 0`
has become 16, `rand_level_p = 0` has become 0.5 and a NULL `gc.malloc` has
become the default allocator, while every option supplied non-NULL / non-zero
is kept; when the call returns SUCCESS the new list carries exactly `e`, and
the call does return SUCCESS when no external call fails. -/
theorem C11_option_defaulting (env : Env) (o : hopscotch_opts_t) :
    ∃ e, (hopscotch_list_new env none (some o)).2.2.1 = some e ∧
      (o.cmp = none → e.cmp = some _list_default_el_cmp) ∧ (o.cmp ≠ none → e.cmp = o.cmp) ∧
      (o.max_level = 0 → e.max_level = 16) ∧ (o.max_level ≠ 0 → e.max_level = o.max_level) ∧
      (o.rand_level_p = 0 → e.rand_level_p = 1 / 2) ∧
      (o.rand_level_p ≠ 0 → e.rand_level_p = o.rand_level_p) ∧
      (o.gc_malloc = none → e.gc_malloc = some Allocator.GC_malloc) ∧
      (o.gc_malloc ≠ none → e.gc_malloc = o.gc_malloc) ∧
      (∀ l, (hopscotch_list_new env none (some o)).1 = SUCCESS →
        (hopscotch_list_new env none (some o)).2.1 = some l → l.opts = e) ∧
      (hopscotch_list_new no_failure none (some o)).1 = SUCCESS ∧
      (hopscotch_list_new no_failure none (some o)).2.1 = some { head := 0, opts := e } := by
  refine ⟨default_opts o, ?_, ?_, ?_, ?_, ?_, ?_, ?_, ?_, ?_, ?_, ?_, ?_⟩
  · simp only [hopscotch_list_new]
    repeat' split
    all_goals rfl
  · intro h; simp [default_opts, h]
  · intro h
    cases hc : o.cmp with
    | none => exact absurd hc h
    | some c => simp [default_opts, hc]
  · intro h; simp [default_opts, h, HOPSCOTCH_VAL_LIST_DEFAULT_MAX_LEVEL]
  · intro h; simp [default_opts, h]
  · intro h; simp [default_opts, h, HOPSCOTCH_VAL_LIST_DEFAULT_RAND_LEVEL_P]
  · intro h; simp [default_opts, h]
  · intro h; simp [default_opts, h]
  · intro h
    cases hc : o.gc_malloc with
    | none => exact absurd hc h
    | some c => simp [default_opts, hc]
  · intro l h1 h2
    have hx : hopscotch_list_new env none (some o) =
        (SUCCESS, some l, (hopscotch_list_new env none (some o)).2.2.1,
          (hopscotch_list_new env none (some o)).2.2.2) := by
      rw [← h1, ← h2]
    rw [(list_new_success env o l _ _ hx).1]
  · rfl
  · rfl
theorem code_eq_zero (r : hopscotch_res_t) : r.code = 0 ↔ r = SUCCESS := by
  cases r <;> simp [hopscotch_res_t.code]

theorem list_new_cases (env : Env) (o : hopscotch_opts_t) :
    (hopscotch_list_new env none (some o)).2.1 =
      if (hopscotch_list_new env none (some o)).1 = SUCCESS then
        some { head := 0, opts := default_opts o }
      else none := by
  simp only [hopscotch_list_new]
  repeat' split
  all_goals first
    | rfl
    | (exfalso; simp_all)

/-- C12 (argument validation of `hopscotch_list_new`).  Whatever the
environment: when `*list` is not NULL the call returns
`LIST_NEW_INVALID_LIST_PTR`, whatever `opts` is, and when `*list` is NULL and
`opts` is NULL it returns `LIST_NEW_INVALID_OPTS_PTR`, in both cases leaving
`*list` and `*opts` as they were and touching no memory; a return of 0 (SUCCESS)
happens only for a NULL `*list` and a non-NULL `opts`, and `*list` then holds the
new list (whose head is the left sentinel, with the effective options); on every
non-zero return `*list` holds its previous value. -/
theorem C12_argument_validation (env : Env) :
    (∀ l opts, hopscotch_list_new env (some l) opts =
        (LIST_NEW_INVALID_LIST_PTR, some l, opts, Heap.empty)) ∧
      hopscotch_list_new env none none = (LIST_NEW_INVALID_OPTS_PTR, none, none, Heap.empty) ∧
      (∀ list opts, (hopscotch_list_new env list opts).1.code = 0 →
        list = none ∧ ∃ o, opts = some o ∧
          (hopscotch_list_new env list opts).2.1 = some { head := 0, opts := default_opts o }) ∧
      (∀ list opts, (hopscotch_list_new env list opts).1.code ≠ 0 →
        (hopscotch_list_new env list opts).2.1 = list) := by
  refine ⟨fun l opts => rfl, rfl, ?_, ?_⟩
  · intro list opts hz
    rw [code_eq_zero] at hz
    cases list with
    | some l => cases hz
    | none =>
      cases opts with
      | none => cases hz
      | some o =>
        refine ⟨rfl, o, rfl, ?_⟩
        rw [list_new_cases, if_pos hz]
  · intro list opts hz
    rw [Ne, code_eq_zero] at hz
    cases list with
    | some l => rfl
    | none =>
      cases opts with
      | none => rfl
      | some o =>
        rw [list_new_cases, if_neg hz]
/-- C13 (failure atomicity of the mutators), failing inputs.  On the fresh list
of `test.c`, `add("h")` whose node allocation fails (the second external call
of the add, the first being the lock of the left sentinel) returns
`MEM_ALLOC_FAIL` and leaves the mutex of the left sentinel held, which was free
before.  On the list holding "h" (node 2), `remove("h")` whose lock of the
predecessor fails (its second external call) returns `PTHREAD_MUTEX_LOCK_FAIL`
and leaves node 2 marked and its mutex held, which was unmarked and free
before. -/
theorem C13_failure_leaves_lock_and_mark :
    (hopscotch_list_add_el (fail_at 8) (draws 0) (new_list unset_opts) (new_heap unset_opts)
        [104, 0]).map (fun r => (r.1, r.2.1, r.2.2.held 0)) =
        some (MEM_ALLOC_FAIL, none, true) ∧
      (new_heap unset_opts).log.length = 7 ∧ (new_heap unset_opts).held 0 = false ∧
      (hopscotch_list_del_el (fail_at 13) (new_list unset_opts) heap_after_add
        [104, 0]).map (fun r => (r.1, r.2.1, r.2.2.held 2)) =
        some (PTHREAD_MUTEX_LOCK_FAIL, none, true) ∧
      (hopscotch_list_del_el (fail_at 13) (new_list unset_opts) heap_after_add
        [104, 0]).bind (fun r => r.2.2.shape 2) = some ([104, 0], 0, true, true, 1) ∧
      heap_after_add.log.length = 12 ∧ heap_after_add.held 2 = false ∧
      heap_after_add.shape 2 = some ([104, 0], 0, true, false, 1) := by
  refine ⟨?_, ?_, ?_, ?_, ?_, ?_, ?_, ?_⟩ <;> decide!

/-- C14 (comparator failure is propagated), failing input.  With the
comparator `failing_cmp`, on the list that holds "b" (level 0) before "v"
(level 1): the Finder called for "v" matches "v" at level 1 and then, at
level 0, gets `MEM_ALLOC_FAIL` from the comparator and returns it; yet
`hopscotch_list_contains_el("v")` returns SUCCESS with `found = true` and
`hopscotch_list_add_el("v")` returns SUCCESS with `added = false`. -/
theorem C14_comparator_failure_is_swallowed :
    (_list_find_el (new_list failing_cmp_opts) failing_heap [118, 0]).map
        (fun r => (r.1, r.2.level_found)) = some (MEM_ALLOC_FAIL, some 1) ∧
      hopscotch_list_contains_el (new_list failing_cmp_opts) failing_heap [118, 0] =
        some (SUCCESS, true) ∧
      (hopscotch_list_add_el no_failure (draws 0) (new_list failing_cmp_opts) failing_heap
        [118, 0]).map (fun r => (r.1, r.2.1)) = some (SUCCESS, some false) := by
  refine ⟨?_, ?_, ?_⟩ <;> decide!

/-- C20 (lock balance), failing input.  On the list of `test.c` holding "1"
with level 1 (node 2), `add("2")` with level 2 drawn has node 2 as predecessor
at the levels 0 and 1 and the left sentinel at level 2: it returns SUCCESS with
`added = true` after locking node 2 once and unlocking it twice (the releasing
loop unlocks `pred_nodes[b]` for every level `b`), the second time while the
mutex is not held. -/
theorem C20_shared_predecessor_unlocked_twice :
    (hopscotch_list_add_el no_failure (draws 2) (new_list unset_opts) leveled_heap
        [50, 0]).map (fun r => (r.1, r.2.1, call_log leveled_heap r.2.2)) =
      some (SUCCESS, some true,
        [Ev.lock 2, Ev.lock 0, Ev.malloc, Ev.mutex_init, Ev.malloc, Ev.unlock 2, Ev.unlock 2,
          Ev.unlock 0]) := by
  decide!
/-- On a represented list the node a remove selects is a node of the list. -/
theorem del_victim_mem (list : hopscotch_list_t) (cmp : Cmp) (h : Heap) (v : Elem) (m : Nat)
    (L : List Ptr) (hu : Uses list cmp m) (hrep : Rep m h L)
    (hok : ∀ p, p = 1 ∨ p ∈ L → (cmp (h.valOf p) v).1 = SUCCESS)
    (hstop : ltq cmp h v 1 = false) (heq1 : eqq cmp h v 1 = false) (c : Ptr)
    (hc : del_victim list h v = some c) :
    ∃ l, matchLevel (eqq cmp h v) h.lev (split_at cmp h v m L).2 m = some l ∧
      c = firstAt h.lev l 1 (split_at cmp h v m L).2 ∧ c ∈ L := by
  obtain ⟨fs, hfind, hlf, harr, _⟩ := find_spec list cmp h v m L hu hrep hok hstop
  simp only [del_victim, hfind, hlf] at hc
  cases hml : matchLevel (eqq cmp h v) h.lev (split_at cmp h v m L).2 m with
  | none =>
    simp [hml] at hc
  | some l =>
    obtain ⟨hlm, hcL, _⟩ := match_node cmp h v m L hrep heq1 l hml
    refine ⟨l, rfl, ?_⟩
    simp only [hml, (harr l hlm).2, Option.some_bind] at hc
    have : c = firstAt h.lev l 1 (split_at cmp h v m L).2 := by
      revert hc
      cases (h.node (firstAt h.lev l 1 (split_at cmp h v m L).2)).map
          (fun el => _list_can_del_el el l) with
      | none => intro hc; simp at hc
      | some can =>
        intro hc
        cases can with
        | false => simp at hc
        | true => simp at hc; exact hc.symm
    exact ⟨this, this ▸ hcL⟩
theorem rep_chain {m : Nat} {h : Heap} {L : List Ptr} (hrep : Rep m h L) (i : Nat) (hi : i < m) :
    chain h i h.nodes.length 0 =
      some (0 :: L.filter (fun q => decide (i ≤ h.lev q)) ++ [1]) :=
  chain_spec h i (hrep.right_null i hi) L 0 h.nodes.length (hrep.link i hi)
    (by rw [rep_lev_left hrep]; omega) (rep_length hrep)

/-- C17 (sentinel immutability).  With the default comparator, single-threaded,
no external call failing, levels drawn in `[0, max_level - 1]`: every sequence
of add / contains / remove calls with arbitrary element bytes in which each
remove has a result (a sequence without remove always has one) returns, and in
the state it reaches the list head is still node 0, the left sentinel, and node
1 still the right sentinel: both carry their byte string, level
`max_level - 1`, `fully_linked = true`, `marked = false` and `max_level`
forward pointers; those of the right sentinel are all NULL, and the chain of
every level still runs from the left sentinel to the right sentinel, its last
node; and no remove call made in that state selects a sentinel as
`node_to_del`, whatever the element. -/
theorem C17_sentinel_immutability (opts : hopscotch_opts_t) (hc : opts.cmp = none)
    (hm : opts.max_level < 256) (ops : List Op)
    (hlev : ∀ op ∈ ops, level_ok (new_list opts) op)
    (hret : ∀ v, Op.remove v ∈ ops →
      (run (new_list opts) (new_heap opts) ops).isSome = true) :
    ∃ rs h, run (new_list opts) (new_heap opts) ops = some (rs, h) ∧
      (new_list opts).head = 0 ∧
      h.shape 0 = some (MIN_VAL, (new_list opts).opts.max_level - 1, true, false,
        (new_list opts).opts.max_level) ∧
      h.shape 1 = some (MAX_VAL, (new_list opts).opts.max_level - 1, true, false,
        (new_list opts).opts.max_level) ∧
      (∀ i, i < (new_list opts).opts.max_level → h.rdFwd 1 i = some none ∧
        ∃ ps, chain h i h.nodes.length (new_list opts).head = some (0 :: ps ++ [1])) ∧
      ∀ v, del_victim (new_list opts) h v ≠ some 0 ∧
        del_victim (new_list opts) h v ≠ some 1 := by
  have hu := uses_new_default opts hc
  obtain ⟨rs, h, L, hrun, hrep, _, _⟩ :=
    run_default _ _ hu ops _ [] (rep_new opts hm) hlev hret
  refine ⟨rs, h, hrun, rfl, hrep.left, hrep.right,
    fun i hi => ⟨hrep.right_null i hi, _, rep_chain hrep i hi⟩, ?_⟩
  intro v
  obtain ⟨hstop, heq1⟩ := default_stop hrep v
  have hmem : ∀ c, del_victim (new_list opts) h v = some c → 2 ≤ c := by
    intro c hcv
    obtain ⟨_, _, _, hcL⟩ := del_victim_mem _ _ h v _ L hu hrep
      (fun p _ => default_cmp_ok _ _) hstop heq1 c hcv
    exact (hrep.mem c hcL).1
  constructor
  · intro h0; exact absurd (hmem 0 h0) (by decide)
  · intro h1; exact absurd (hmem 1 h1) (by decide)

theorem C17_sentinel_immutability_witness :
    ∃ rs h, run (new_list unset_opts) (new_heap unset_opts)
        [Op.add MIN_VAL (fun _ => 1), Op.add MAX_VAL (fun _ => 1), Op.add [] (fun _ => 1),
          Op.remove MAX_VAL, Op.contains MIN_VAL, Op.contains []] = some (rs, h) ∧
      (new_list unset_opts).head = 0 ∧
      h.shape 0 = some (MIN_VAL, (new_list unset_opts).opts.max_level - 1, true, false,
        (new_list unset_opts).opts.max_level) ∧
      h.shape 1 = some (MAX_VAL, (new_list unset_opts).opts.max_level - 1, true, false,
        (new_list unset_opts).opts.max_level) ∧
      (∀ i, i < (new_list unset_opts).opts.max_level → h.rdFwd 1 i = some none ∧
        ∃ ps, chain h i h.nodes.length (new_list unset_opts).head = some (0 :: ps ++ [1])) ∧
      ∀ v, del_victim (new_list unset_opts) h v ≠ some 0 ∧
        del_victim (new_list unset_opts) h v ≠ some 1 :=
  C17_sentinel_immutability unset_opts rfl (by decide) _
    (fun op hop => by
      simp only [List.mem_cons, List.mem_singleton, List.not_mem_nil, or_false] at hop
      rcases hop with rfl | rfl | rfl | rfl | rfl | rfl
      · exact level_ok_zero _
      · exact level_ok_zero _
      · exact level_ok_zero _
      · trivial
      · trivial
      · trivial)
    (fun _ _ => by decide!)

theorem level_ok_draws (k : Nat) (hk : k < 16) (v : Elem) :
    level_ok (new_list unset_opts) (Op.add v (draws k)) := by
  show _list_rand_level (draws k) (new_list unset_opts).opts.rand_level_p
    (new_list unset_opts).opts.max_level < (new_list unset_opts).opts.max_level
  interval_cases k <;> decide!

/-- On a represented, sorted list a remove of a value the Finder matches
unlinks the first node ahead of the split, and nothing else. -/
theorem del_sorted (list : hopscotch_list_t) (cmp : Cmp) (U : Elem → Prop) (h : Heap) (v : Elem)
    (m : Nat) (L : List Ptr) (hord : OrderedOn cmp U) (hu : Uses list cmp m)
    (hrep : Rep m h L) (hs : Sorted cmp U h L) (hv : U v) (l : Nat)
    (hml : matchLevel (eqq cmp h v) h.lev (split_at cmp h v m L).2 m = some l) :
    ∃ h' c rest2 s, (split_at cmp h v m L).2 = c :: rest2 ∧
      L = (split_at cmp h v m L).1 ++ c :: rest2 ∧
      hopscotch_list_del_el no_failure list h v = some (SUCCESS, some true, h') ∧
      Rep m h' ((split_at cmp h v m L).1 ++ rest2) ∧
      (∀ p, p ≠ c → h'.shape p = h.shape p) ∧
      h.shape c = some s ∧ h'.shape c = some (s.1, s.2.1, s.2.2.1, true, s.2.2.2.2) ∧
      s.1 = v ∧ s.2.1 = l ∧ s.2.2.2.1 = false ∧ l < m := by
  obtain ⟨hstop, heq1⟩ := sorted_stop hord hrep hv
  have hok := sorted_ok hord hrep hs hv
  obtain ⟨h', seg, rest2, hsplit, hseg, hdel, hrep', hshape, s, hsc, hsc'⟩ :=
    del_unlink list cmp h v m L hu hrep hok hstop heq1 l hml
  obtain ⟨rest3, hsplit3, hval⟩ := sorted_match cmp U h v m L hord hrep hs hv l hml
  obtain ⟨hlm, hcL, _, hlevc, _⟩ := match_node cmp h v m L hrep heq1 l hml
  have hseg0 : seg = [] := by
    cases seg with
    | nil => rfl
    | cons a seg2 =>
      exfalso
      have he := hsplit.symm.trans hsplit3
      simp only [List.cons_append, List.cons.injEq] at he
      have := hseg a (by simp)
      rw [he.1, hlevc] at this
      exact lt_irrefl _ this
  subst hseg0
  simp only [List.nil_append] at hsplit
  have hL := split_at_append cmp h v m L
  obtain ⟨_, val, lvl, _, hs0⟩ := hrep.mem _ hcL
  have hss : s = (val, lvl, true, false, lvl + 1) := by
    rw [hsc] at hs0; exact Option.some.inj hs0
  refine ⟨h', _, rest2, s, hsplit, ?_, hdel, hrep', hshape, hsc, hsc', ?_, ?_, ?_, hlm⟩
  · rw [← hsplit]; exact hL
  · rw [← valOf_of_shape_some hsc]; exact hval
  · rw [← lev_of_shape_some hsc]; exact hlevc
  · rw [hss]
theorem chain_erase (lev lev' : Ptr → Nat) (hlev : ∀ p, lev' p = lev p) (A B : List Ptr)
    (c : Ptr) (hc0 : c ≠ 0) (hc1 : c ≠ 1) (hcA : c ∉ A) (hcB : c ∉ B) (i : Nat) :
    (0 :: (A ++ c :: B).filter (fun q => decide (i ≤ lev q)) ++ [1]).erase c =
        0 :: (A ++ B).filter (fun q => decide (i ≤ lev' q)) ++ [1] ∧
      (lev c < i → c ∉ 0 :: (A ++ c :: B).filter (fun q => decide (i ≤ lev q)) ++ [1]) := by
  have hf : (fun q => decide (i ≤ lev' q)) = (fun q => decide (i ≤ lev q)) := by
    funext q; rw [hlev]
  rw [hf]
  have hnA : c ∉ 0 :: A.filter (fun q => decide (i ≤ lev q)) := by
    intro hmem
    rcases List.mem_cons.1 hmem with h0 | hm
    · exact hc0 h0
    · exact hcA (List.mem_filter.1 hm).1
  have hnB : c ∉ B.filter (fun q => decide (i ≤ lev q)) ++ [1] := by
    intro hmem
    rcases List.mem_append.1 hmem with hm | hm
    · exact hcB (List.mem_filter.1 hm).1
    · exact hc1 (List.mem_singleton.1 hm)
  by_cases hi : i ≤ lev c
  · refine ⟨?_, fun hlt => absurd hi (by omega)⟩
    simp only [List.filter_append, List.filter_cons, hi, decide_True, if_true]
    have e : 0 :: (A.filter (fun q => decide (i ≤ lev q)) ++
        c :: B.filter (fun q => decide (i ≤ lev q))) ++ [1] =
        (0 :: A.filter (fun q => decide (i ≤ lev q))) ++
          c :: (B.filter (fun q => decide (i ≤ lev q)) ++ [1]) := by simp
    rw [e, List.erase_append_right _ hnA, List.erase_cons_head]
    simp
  · have e : (A ++ c :: B).filter (fun q => decide (i ≤ lev q)) =
        (A ++ B).filter (fun q => decide (i ≤ lev q)) := by
      simp only [List.filter_append, List.filter_cons, hi, decide_False, Bool.false_eq_true,
        if_false]
    have hn : c ∉ 0 :: (A ++ B).filter (fun q => decide (i ≤ lev q)) ++ [1] := by
      intro hmem
      rw [List.filter_append] at hmem
      rcases List.mem_append.1 hmem with hm | hm
      · rcases List.mem_cons.1 hm with h0 | hm
        · exact hc0 h0
        · rcases List.mem_append.1 hm with hm | hm
          · exact hcA (List.mem_filter.1 hm).1
          · exact hcB (List.mem_filter.1 hm).1
      · exact hc1 (List.mem_singleton.1 hm)
    rw [e]
    exact ⟨List.erase_of_not_mem hn, fun _ => hn⟩
/-- C19 (remove unlinks exactly the victim).  Single-threaded, no external call
failing, for a comparator that honours the contract `OrderedOn` on the elements
in use: in every state `h` reached from `hopscotch_list_new` by a sequence of
calls, when `hopscotch_list_del_el(v)` returns SUCCESS with `deleted = true`
there is a victim node `c`, carrying `v`, unmarked before the call, such that
the Finder's `succ_nodes[i]` is `c` for every level `i ≤ c.level`; after the
call the chain of every level is the previous chain with `c` erased (`c` is on
no chain above its level, which are thus unchanged), `c` is marked and keeps its
value, level and `fully_linked`, every other node keeps value, level and flags,
and no mutex is held. -/
theorem C19_remove_unlinks_victim (opts : hopscotch_opts_t) (cmp : Cmp) (U : Elem → Prop)
    (hc : (default_opts opts).cmp = some cmp) (hm : opts.max_level < 256)
    (hord : OrderedOn cmp U) (ops : List Op) (hU : ∀ op ∈ ops, U op.elem)
    (hlev : ∀ op ∈ ops, level_ok (new_list opts) op)
    (rs : List (hopscotch_res_t × Option Bool)) (h : Heap)
    (hrun : run (new_list opts) (new_heap opts) ops = some (rs, h)) (v : Elem) (hv : U v)
    (h' : Heap)
    (hdel : hopscotch_list_del_el no_failure (new_list opts) h v =
      some (SUCCESS, some true, h')) :
    ∃ c code fs s, _list_find_el (new_list opts) h v = some (code, fs) ∧
      h.shape c = some s ∧ s.1 = v ∧ s.2.2.2.1 = false ∧
      (∀ i, i ≤ s.2.1 → fs.succ_nodes i = some c) ∧
      (∀ i, i < (new_list opts).opts.max_level →
        ∃ ch, chain h i h.nodes.length (new_list opts).head = some ch ∧
          chain h' i h'.nodes.length (new_list opts).head = some (ch.erase c) ∧
          (s.2.1 < i → c ∉ ch)) ∧
      h'.shape c = some (s.1, s.2.1, s.2.2.1, true, s.2.2.2.2) ∧
      (∀ p, p ≠ c → h'.shape p = h.shape p) ∧ (∀ p, h'.held p = false) := by
  have hu := uses_new opts cmp hc
  obtain ⟨h1, L, hrun1, hrep, hs, _⟩ :=
    run_sorted (new_list opts) cmp U _ hord hu ops (new_heap opts) [] (rep_new opts hm)
      (sorted_nil _ U _) hU hlev (fun _ _ => by rw [hrun]; rfl)
  rw [hrun] at hrun1
  simp only [Option.some.injEq, Prod.mk.injEq] at hrun1
  obtain ⟨_, hh⟩ := hrun1
  subst hh
  obtain ⟨hstop, heq1⟩ := sorted_stop hord hrep hv
  have hok := sorted_ok hord hrep hs hv
  cases hml : matchLevel (eqq cmp h v) h.lev (split_at cmp h v _ L).2 _ with
  | none =>
    have := del_not_found (new_list opts) cmp h v _ L no_failure hu hrep hok hstop hml
    rw [this] at hdel
    cases hdel
  | some l =>
    obtain ⟨h2, c, rest2, s, hsplit, hL, hdel2, hrep2, hshape, hsc, hsc2, hs1, hs2, hs3, hlm⟩ :=
      del_sorted (new_list opts) cmp U h v _ L hord hu hrep hs hv l hml
    rw [hdel2] at hdel
    simp only [Option.some.injEq, Prod.mk.injEq, true_and] at hdel
    subst hdel
    obtain ⟨fs, hfind, _, harr, _⟩ := find_spec (new_list opts) cmp h v _ L hu hrep hok hstop
    have hcL : c ∈ L := by rw [hL]; simp
    have hnd := hrep.nodup
    rw [hL] at hnd
    have hnd1 := List.nodup_append.1 hnd
    have hcA : c ∉ (split_at cmp h v (default_opts opts).max_level L).1 := fun hx =>
      hnd1.2.2 hx (by simp)
    have hcB : c ∉ rest2 := (List.nodup_cons.1 hnd1.2.1).1
    have hc2 : 2 ≤ c := (hrep.mem c hcL).1
    have hlev' : ∀ p, h2.lev p = h.lev p := by
      intro p
      by_cases hp : p = c
      · rw [hp, lev_of_shape_some hsc2, lev_of_shape_some hsc]
      · exact lev_of_shape (hshape p hp)
    refine ⟨c, _, fs, s, hfind, hsc, hs1, hs3, ?_, ?_, hsc2, hshape, hrep2.free⟩
    · intro i hi
      rw [(harr i (by omega)).2, hsplit]
      have : i ≤ h.lev c := by rw [lev_of_shape_some hsc]; exact hi
      simp only [firstAt, this, if_true]
    · intro i hi
      have hce := chain_erase h.lev h2.lev hlev' _ rest2 c
        (by intro e; rw [e] at hc2; exact absurd hc2 (by decide))
        (by intro e; rw [e] at hc2; exact absurd hc2 (by decide)) hcA hcB i
      refine ⟨_, rep_chain hrep i hi, ?_, ?_⟩
      · show chain h2 i h2.nodes.length 0 = _
        rw [rep_chain hrep2 i hi]
        congr 1
        rw [← hce.1, ← hL]
      · intro hlt
        have := hce.2 (by rw [lev_of_shape_some hsc]; exact hlt)
        rw [← hL] at this
        exact this
theorem C19_remove_unlinks_victim_witness :
    (∃ c code fs s, _list_find_el (new_list unset_opts) heap_after_two [104, 0] =
        some (code, fs) ∧
      heap_after_two.shape c = some s ∧ s.1 = [104, 0] ∧ s.2.2.2.1 = false ∧
      (∀ i, i ≤ s.2.1 → fs.succ_nodes i = some c) ∧
      (∀ i, i < (new_list unset_opts).opts.max_level →
        ∃ ch, chain heap_after_two i heap_after_two.nodes.length (new_list unset_opts).head =
            some ch ∧
          chain heap_after_remove i heap_after_remove.nodes.length (new_list unset_opts).head =
            some (ch.erase c) ∧
          (s.2.1 < i → c ∉ ch)) ∧
      heap_after_remove.shape c = some (s.1, s.2.1, s.2.2.1, true, s.2.2.2.2) ∧
      (∀ p, p ≠ c → heap_after_remove.shape p = heap_after_two.shape p) ∧
      (∀ p, heap_after_remove.held p = false)) ∧
    chain heap_after_two 0 heap_after_two.nodes.length 0 = some [0, 2, 3, 1] ∧
    chain heap_after_remove 0 heap_after_remove.nodes.length 0 = some [0, 3, 1] ∧
    heap_after_remove.valOf 3 = [120, 0] :=
  ⟨C19_remove_unlinks_victim unset_opts _list_default_el_cmp test_set rfl (by decide)
    test_set_ordered [Op.add [104, 0] (fun _ => 1), Op.add [120, 0] (fun _ => 1)]
    (fun op hop => by
      simp only [List.mem_cons, List.mem_singleton, List.not_mem_nil, or_false] at hop
      rcases hop with rfl | rfl
      · exact Or.inl rfl
      · exact Or.inr rfl)
    (fun op hop => by
      simp only [List.mem_cons, List.mem_singleton, List.not_mem_nil, or_false] at hop
      rcases hop with rfl | rfl <;> exact level_ok_zero _)
    [(SUCCESS, some true), (SUCCESS, some true)] heap_after_two (by decide!)
    [104, 0] (Or.inl rfl) heap_after_remove (by decide!),
    by decide!, by decide!, by decide!⟩
/-- C16, counterexample to the claim as worded: in `crossed_heap` the chain of
each of the two levels ascends strictly under the default comparator and ends
at the right sentinel, whose value compares above every query; for the query
"7" the last node of the level-0 chain that compares below is node 3 ("3"), yet
`_list_find_el` writes node 2, which is not on the level-0 chain, to
`pred_nodes[0]`. -/
theorem C16_chains_may_cross :
    chain crossed_heap 1 crossed_heap.nodes.length crossed_list.head = some [0, 2, 1] ∧
      chain crossed_heap 0 crossed_heap.nodes.length crossed_list.head = some [0, 3, 1] ∧
      List.Chain' (fun p q => (_list_default_el_cmp (crossed_heap.valOf p)
        (crossed_heap.valOf q)).2 < 0) [0, 2, 1] ∧
      List.Chain' (fun p q => (_list_default_el_cmp (crossed_heap.valOf p)
        (crossed_heap.valOf q)).2 < 0) [0, 3, 1] ∧
      (∀ v, 0 < (_list_default_el_cmp (crossed_heap.valOf 1) v).2) ∧
      (_list_find_el crossed_list crossed_heap [55, 0]).map
        (fun r => (r.1, r.2.pred_nodes 0, r.2.succ_nodes 0)) =
        some (LIST__FIND_EL_VAL_NOT_FOUND, some 2, some 1) ∧
      lastBelow _list_default_el_cmp crossed_heap [55, 0] crossed_list.head [3, 1] = 3 := by
  refine ⟨by decide!, by decide!, ?_, ?_, ?_, by decide!, by decide!⟩
  · simp only [List.chain'_cons, List.chain'_singleton, and_true]
    refine ⟨?_, ?_⟩ <;> decide!
  · simp only [List.chain'_cons, List.chain'_singleton, and_true]
    refine ⟨?_, ?_⟩ <;> decide!
  intro v
  have : crossed_heap.valOf 1 = MAX_VAL := by decide!
  rw [this, default_cmp_MAX]
  decide

theorem lastBelow_append (cmp : Cmp) (h : Heap) (v : Elem) : ∀ (A B : List Ptr) (d : Ptr),
    lastBelow cmp h v d (A ++ B) = lastBelow cmp h v (lastBelow cmp h v d A) B
  | [], _, _ => rfl
  | a :: A, B, d => by
    simp only [List.cons_append, lastBelow]
    split
    · exact lastBelow_append cmp h v A B a
    · exact lastBelow_append cmp h v A B d

theorem lastBelow_none (cmp : Cmp) (h : Heap) (v : Elem) : ∀ (B : List Ptr) (d : Ptr),
    (∀ q ∈ B, ¬ (cmp (h.valOf q) v).2 < 0) → lastBelow cmp h v d B = d
  | [], _, _ => rfl
  | b :: B, d, hB => by
    simp only [lastBelow, hB b (by simp), if_false]
    exact lastBelow_none cmp h v B d (fun q hq => hB q (List.mem_cons_of_mem _ hq))

theorem lastBelow_filter (cmp : Cmp) (h : Heap) (v : Elem) (i : Nat) : ∀ (A : List Ptr) (d : Ptr),
    (∀ p ∈ A, (cmp (h.valOf p) v).2 < 0) →
      lastBelow cmp h v d (A.filter (fun q => decide (i ≤ h.lev q))) = lastAt h.lev i d A
  | [], _, _ => rfl
  | a :: A, d, hA => by
    have ha := hA a (by simp)
    have hA' : ∀ p ∈ A, (cmp (h.valOf p) v).2 < 0 := fun p hp => hA p (List.mem_cons_of_mem _ hp)
    by_cases hi : i ≤ h.lev a
    · simp only [List.filter_cons, hi, decide_True, if_true, lastBelow, ha, lastAt]
      exact lastBelow_filter cmp h v i A a hA'
    · simp only [List.filter_cons, hi, decide_False, Bool.false_eq_true, if_false, lastAt]
      exact lastBelow_filter cmp h v i A d hA'
/-- The Finder's postcondition on a represented, sorted list. -/
theorem find_sorted (list : hopscotch_list_t) (cmp : Cmp) (U : Elem → Prop) (h : Heap) (v : Elem)
    (m : Nat) (L : List Ptr) (hord : OrderedOn cmp U) (hu : Uses list cmp m) (hrep : Rep m h L)
    (hs : Sorted cmp U h L) (hv : U v) :
    ∃ code fs, _list_find_el list h v = some (code, fs) ∧
      (∀ i, i < m → ∃ ch pred succ, chain h i h.nodes.length list.head = some (list.head :: ch) ∧
        pred = lastBelow cmp h v list.head ch ∧ fs.pred_nodes i = some pred ∧
        h.rdFwd pred i = some (some succ) ∧ fs.succ_nodes i = some succ) ∧
      ((code = SUCCESS ∧ ∃ l succ, fs.level_found = some l ∧ l < m ∧
          fs.succ_nodes l = some succ ∧ (cmp (h.valOf succ) v).2 = 0 ∧
          ∀ i succ2, l < i → i < m → fs.succ_nodes i = some succ2 →
            (cmp (h.valOf succ2) v).2 ≠ 0) ∨
        (code = LIST__FIND_EL_VAL_NOT_FOUND ∧ fs.level_found = none ∧
          ∀ i succ2, i < m → fs.succ_nodes i = some succ2 → (cmp (h.valOf succ2) v).2 ≠ 0)) := by
  obtain ⟨hstop, heq1⟩ := sorted_stop hord hrep hv
  have hok := sorted_ok hord hrep hs hv
  obtain ⟨fs, hfind, hlf, harr, _⟩ := find_spec list cmp h v m L hu hrep hok hstop
  obtain ⟨hpre, hrest⟩ := sorted_split cmp U h v m L hord hrep hs hv
  have hL := split_at_append cmp h v m L
  refine ⟨_, fs, hfind, ?_, ?_⟩
  · intro i hi
    refine ⟨L.filter (fun q => decide (i ≤ h.lev q)) ++ [1],
      lastAt h.lev i 0 (split_at cmp h v m L).1, _, ?_, ?_, (harr i hi).1,
      split_link cmp h v m L hrep i hi, (harr i hi).2⟩
    · rw [hu.head]; exact rep_chain hrep i hi
    · rw [hu.head]
      have e : L.filter (fun q => decide (i ≤ h.lev q)) ++ [1] =
          (split_at cmp h v m L).1.filter (fun q => decide (i ≤ h.lev q)) ++
            ((split_at cmp h v m L).2.filter (fun q => decide (i ≤ h.lev q)) ++ [1]) := by
        rw [← List.append_assoc, ← List.filter_append, ← hL]
      rw [e, lastBelow_append, lastBelow_filter cmp h v i _ 0 hpre]
      symm
      apply lastBelow_none
      intro q hq
      rcases List.mem_append.1 hq with hq | hq
      · have := hrest q (List.mem_filter.1 hq).1
        omega
      · rw [List.mem_singleton.1 hq, rep_valOf_right hrep]
        have := hord.max v hv
        omega
  · cases hml : matchLevel (eqq cmp h v) h.lev (split_at cmp h v m L).2 m with
    | none =>
      right
      refine ⟨by simp [hml], by rw [hlf, hml], ?_⟩
      intro i succ2 hi hsucc
      have := (matchLevel_none h.lev _ _ _).1 hml i hi
      rw [(harr i hi).2] at hsucc
      rw [← Option.some.inj hsucc]
      simpa [eqq] using this
    | some l =>
      left
      obtain ⟨hlm, heq, hhigh⟩ := matchLevel_some h.lev _ _ _ _ hml
      refine ⟨by simp [hml], l, _, by rw [hlf, hml], hlm, (harr l hlm).2, ?_, ?_⟩
      · simpa [eqq] using heq
      · intro i succ2 hli hi hsucc
        have := hhigh i hli hi
        rw [(harr i hi).2] at hsucc
        rw [← Option.some.inj hsucc]
        simpa [eqq] using this
/-- C16, amended: single-threaded, no external call failing, for a comparator
that honours the contract `OrderedOn` on the elements in use, in every state
reached from `hopscotch_list_new` by a sequence of calls (levels drawn in
`[0, max_level - 1]`) and for every query `v` among the elements in use,
`_list_find_el` returns and writes, for every level `i < max_level`,
`pred_nodes[i]` = the last node of the level-`i` chain after the left sentinel
whose value compares below `v`, the left sentinel when there is none, and
`succ_nodes[i] = pred_nodes[i]->forward[i]`; it returns SUCCESS with
`level_found` the highest level whose `succ_nodes` entry compares equal to `v`
when there is such a level, and `FIND_EL_VAL_NOT_FOUND`, writing no
`level_found`, when no level has a successor comparing equal to `v`. -/
theorem C16_finder_postcondition (opts : hopscotch_opts_t) (cmp : Cmp) (U : Elem → Prop)
    (hc : (default_opts opts).cmp = some cmp) (hm : opts.max_level < 256)
    (hord : OrderedOn cmp U) (ops : List Op) (hU : ∀ op ∈ ops, U op.elem)
    (hlev : ∀ op ∈ ops, level_ok (new_list opts) op)
    (rs : List (hopscotch_res_t × Option Bool)) (h : Heap)
    (hrun : run (new_list opts) (new_heap opts) ops = some (rs, h)) (v : Elem) (hv : U v) :
    ∃ code fs, _list_find_el (new_list opts) h v = some (code, fs) ∧
      (∀ i, i < (new_list opts).opts.max_level → ∃ ch pred succ,
        chain h i h.nodes.length (new_list opts).head = some ((new_list opts).head :: ch) ∧
        pred = lastBelow cmp h v (new_list opts).head ch ∧ fs.pred_nodes i = some pred ∧
        h.rdFwd pred i = some (some succ) ∧ fs.succ_nodes i = some succ) ∧
      ((code = SUCCESS ∧ ∃ l succ, fs.level_found = some l ∧
          l < (new_list opts).opts.max_level ∧
          fs.succ_nodes l = some succ ∧ (cmp (h.valOf succ) v).2 = 0 ∧
          ∀ i succ2, l < i → i < (new_list opts).opts.max_level →
            fs.succ_nodes i = some succ2 → (cmp (h.valOf succ2) v).2 ≠ 0) ∨
        (code = LIST__FIND_EL_VAL_NOT_FOUND ∧ fs.level_found = none ∧
          ∀ i succ2, i < (new_list opts).opts.max_level → fs.succ_nodes i = some succ2 →
            (cmp (h.valOf succ2) v).2 ≠ 0)) := by
  have hu := uses_new opts cmp hc
  obtain ⟨h1, L, hrun1, hrep, hs, _⟩ :=
    run_sorted (new_list opts) cmp U _ hord hu ops (new_heap opts) [] (rep_new opts hm)
      (sorted_nil _ U _) hU hlev (fun _ _ => by rw [hrun]; rfl)
  rw [hrun] at hrun1
  simp only [Option.some.injEq, Prod.mk.injEq] at hrun1
  obtain ⟨_, hh⟩ := hrun1
  subst hh
  exact find_sorted (new_list opts) cmp U h v _ L hord hu hrep hs hv

theorem C16_finder_postcondition_witness :
    ∃ code fs, _list_find_el (new_list unset_opts) heap_after_two [120, 0] = some (code, fs) ∧
      (∀ i, i < (new_list unset_opts).opts.max_level → ∃ ch pred succ,
        chain heap_after_two i heap_after_two.nodes.length (new_list unset_opts).head =
          some ((new_list unset_opts).head :: ch) ∧
        pred = lastBelow _list_default_el_cmp heap_after_two [120, 0]
          (new_list unset_opts).head ch ∧
        fs.pred_nodes i = some pred ∧
        heap_after_two.rdFwd pred i = some (some succ) ∧ fs.succ_nodes i = some succ) ∧
      ((code = SUCCESS ∧ ∃ l succ, fs.level_found = some l ∧
          l < (new_list unset_opts).opts.max_level ∧
          fs.succ_nodes l = some succ ∧
          (_list_default_el_cmp (heap_after_two.valOf succ) [120, 0]).2 = 0 ∧
          ∀ i succ2, l < i → i < (new_list unset_opts).opts.max_level →
            fs.succ_nodes i = some succ2 →
            (_list_default_el_cmp (heap_after_two.valOf succ2) [120, 0]).2 ≠ 0) ∨
        (code = LIST__FIND_EL_VAL_NOT_FOUND ∧ fs.level_found = none ∧
          ∀ i succ2, i < (new_list unset_opts).opts.max_level → fs.succ_nodes i = some succ2 →
            (_list_default_el_cmp (heap_after_two.valOf succ2) [120, 0]).2 ≠ 0)) :=
  C16_finder_postcondition unset_opts _list_default_el_cmp test_set rfl (by decide)
    test_set_ordered [Op.add [104, 0] (fun _ => 1), Op.add [120, 0] (fun _ => 1)]
    (fun op hop => by
      simp only [List.mem_cons, List.mem_singleton, List.not_mem_nil, or_false] at hop
      rcases hop with rfl | rfl
      · exact Or.inl rfl
      · exact Or.inr rfl)
    (fun op hop => by
      simp only [List.mem_cons, List.mem_singleton, List.not_mem_nil, or_false] at hop
      rcases hop with rfl | rfl <;> exact level_ok_zero _)
    [(SUCCESS, some true), (SUCCESS, some true)] heap_after_two (by decide!)
    [120, 0] (Or.inr rfl)
/-- The last two phases of an add, run without interruption, are the rest of
the call after its locking loop. -/
theorem add_link_release_eq (env : Env) (list : hopscotch_list_t) (fr : AddFrame) (h1 : Heap)
    (val : Elem) :
    (match add_link_phase env list fr h1 val with
      | none => none
      | some (Sum.inl r) => some r
      | some (Sum.inr h6) =>
        add_release_phase env fr (fr.highest_level_locked + 1).toNat 0 h6) =
      (match list.opts.gc_malloc with
        | none => none
        | some _ =>
          let a1 := ext_call env h1 Ev.malloc
          if !a1.1 then some (MEM_ALLOC_FAIL, none, a1.2)
          else
            let new_node : Ptr := a1.2.nodes.length
            let nn : hopscotch_node_t :=
              { forward := [], fully_linked := false, level := fr.top_level % 256, lock := false,
                marked := false, val := val }
            let a2 := ext_call env { a1.2 with nodes := a1.2.nodes ++ [nn] } Ev.mutex_init
            if !a2.1 then some (PTHREAD_MUTEX_INIT_FAIL, none, a2.2)
            else
              let a3 := ext_call env a2.2 Ev.malloc
              if !a3.1 then some (MEM_ALLOC_FAIL, none, a3.2)
              else
                let h4 := a3.2.setNode new_node
                  { nn with forward := List.replicate (fr.top_level + 1) none }
                match add_link_loop fr.pred_nodes fr.succ_nodes new_node (fr.top_level + 1) 0
                    h4 with
                | none => none
                | some h5 =>
                  match h5.node new_node with
                  | none => none
                  | some n5 =>
                    let h6 := h5.setNode new_node { n5 with fully_linked := true }
                    match unlock_loop env fr.pred_nodes (fr.highest_level_locked + 1).toNat 0
                        h6 with
                    | none => none
                    | some (false, h7) => some (PTHREAD_MUTEX_UNLOCK_FAIL, some true, h7)
                    | some (true, h7) => some (SUCCESS, some true, h7)) := by
  unfold add_link_phase add_release_phase
  cases list.opts.gc_malloc with
  | none => rfl
  | some g =>
    simp only
    generalize ext_call env h1 Ev.malloc = a1
    obtain ⟨b1, g1⟩ := a1
    cases b1
    · rfl
    · simp only [Bool.not_true, Bool.false_eq_true, if_false]
      generalize ext_call env _ Ev.mutex_init = a2
      obtain ⟨b2, g2⟩ := a2
      cases b2
      · rfl
      · simp only [Bool.not_true, Bool.false_eq_true, if_false]
        generalize ext_call env g2 Ev.malloc = a3
        obtain ⟨b3, g3⟩ := a3
        cases b3
        · rfl
        · simp only [Bool.not_true, Bool.false_eq_true, if_false]
          generalize add_link_loop fr.pred_nodes fr.succ_nodes _ (fr.top_level + 1) 0 _ = r5
          cases r5 with
          | none => rfl
          | some h5 =>
            simp only
            generalize h5.node g1.nodes.length = r6
            cases r6 with
            | none => rfl
            | some n5 => rfl

/-- The phases of an add, run without interruption, are the whole call. -/
theorem add_phases_eq (env : Env) (rnd : Nat → ℚ) (list : hopscotch_list_t) (h : Heap)
    (val : Elem) : add_phases env rnd list h val = hopscotch_list_add_el env rnd list h val := by
  unfold add_phases add_lock_phase hopscotch_list_add_el
  simp only
  generalize _list_find_el list h val = r
  cases r with
  | none => rfl
  | some x =>
    obtain ⟨t, fs⟩ := x
    simp only
    by_cases ht : t ≠ LIST__FIND_EL_VAL_NOT_FOUND
    · rw [if_pos ht, if_pos ht]
      generalize (fs.level_found.bind fs.succ_nodes).bind h.node = r2
      cases r2 with
      | none => rfl
      | some nf =>
        simp only
        cases nf.marked <;> cases nf.fully_linked <;> rfl
    · rw [if_neg ht, if_neg ht]
      generalize add_lock_loop env fs.pred_nodes fs.succ_nodes _ 0 none (-1) h = r3
      cases r3 with
      | none => rfl
      | some lo =>
        cases lo with
        | lock_fail h1 => rfl
        | finished valid hl h1 =>
          cases valid with
          | false =>
            simp only
            generalize unlock_loop env fs.pred_nodes (hl + 1).toNat 0 h1 = r4
            cases r4 with
            | none => rfl
            | some y =>
              obtain ⟨b, h2⟩ := y
              cases b <;> rfl
          | true =>
            simp only
            exact add_link_release_eq env list _ h1 val
theorem set_run_append : ∀ (p q : List Op) (S : Finset Elem),
    set_run S (p ++ q) = set_run S p ++ set_run (set_after S p) q
  | [], _, _ => rfl
  | op :: p, q, S => by
    rw [List.cons_append]
    show _ :: set_run _ (p ++ q) = _ :: (_ ++ _)
    rw [set_run_append p q]
    rfl

theorem set_after_mem_of_add (x : Elem) : ∀ (p : List Op) (S : Finset Elem),
    (∀ op ∈ p, ∀ v, op ≠ Op.remove v) → (x ∈ S ∨ ∃ rnd, Op.add x rnd ∈ p) →
      x ∈ set_after S p
  | [], S, _, hx => by
    rcases hx with hx | ⟨rnd, hm⟩
    · exact hx
    · cases hm
  | op :: p, S, hp, hx => by
    refine set_after_mem_of_add x p _ (fun o ho => hp o (List.mem_cons_of_mem _ ho)) ?_
    cases op with
    | add v rnd =>
      rcases hx with hx | ⟨rnd2, hm⟩
      · exact Or.inl (by simp [set_step, hx])
      · rcases List.mem_cons.1 hm with he | hm
        · cases he; exact Or.inl (by simp [set_step])
        · exact Or.inr ⟨rnd2, hm⟩
    | contains v =>
      rcases hx with hx | ⟨rnd2, hm⟩
      · exact Or.inl hx
      · rcases List.mem_cons.1 hm with he | hm
        · cases he
        · exact Or.inr ⟨rnd2, hm⟩
    | remove v => exact absurd rfl (hp _ (by simp) v)

/-- The three phases of the releasing loop, run in pieces, are the whole
loop. -/
theorem add_release_split (env : Env) (fr : AddFrame) : ∀ (a b s : Nat) (h : Heap),
    add_release_phase env fr (a + b) s h =
      match unlock_loop env fr.pred_nodes a s h with
      | none => none
      | some (false, h1) => some (PTHREAD_MUTEX_UNLOCK_FAIL, some true, h1)
      | some (true, h1) => add_release_phase env fr b (s + a) h1
  | 0, b, s, h => by simp [unlock_loop]
  | a + 1, b, s, h => by
    have e : a + 1 + b = (a + b) + 1 := by omega
    rw [e]
    unfold add_release_phase
    simp only [unlock_loop]
    cases fr.pred_nodes s with
    | none => rfl
    | some p =>
      simp only
      cases pthread_mutex_unlock env h p with
      | none => rfl
      | some y =>
        obtain ⟨ok, h1⟩ := y
        cases ok with
        | false => rfl
        | true =>
          simp only
          have ih := add_release_split env fr a b (s + 1) h1
          unfold add_release_phase at ih
          have e2 : s + (a + 1) = s + 1 + a := by omega
          rw [e2]
          exact ih

/-- C15 (concurrent linearizability), failing execution.  In the execution
`lost_insert` the calls `add("2")`, `add("15")` and `add("17")`, made by three
threads on the list holding "1", all return SUCCESS with `added = true`; a
`contains("17")` made after they have returned reports `found = false` (and
`contains("15")` reports true).  No remove is made, and whatever the order in
which a sequential set that holds only "1" takes the three adds, it
answers true to the `contains("17")` that follows them: the execution has no
linearization. -/
theorem C15_interleaved_adds_lose_an_element :
    lost_insert = some [(SUCCESS, some true), (SUCCESS, some true), (SUCCESS, some true),
        (SUCCESS, some false), (SUCCESS, some true)] ∧
      ∀ p ∈ [Op.add [50, 0] (draws 2), Op.add [49, 53, 0] (draws 0),
          Op.add [49, 55, 0] (draws 0)].permutations,
        (set_run {[49, 0]} (p ++ [Op.contains [49, 55, 0]])).getLast? = some true := by
  refine ⟨by decide!, ?_⟩
  intro p hp
  have hperm := List.mem_permutations.1 hp
  rw [set_run_append]
  simp only [set_run, set_step, List.getLast?_append, List.getLast?_singleton]
  have hmem : [49, 55, 0] ∈ set_after {[49, 0]} p := by
    apply set_after_mem_of_add
    · intro op hop v he
      have := hperm.mem_iff.1 hop
      subst he
      simp at this
    · right
      exact ⟨draws 0, hperm.mem_iff.2 (by simp)⟩
  simp [hmem]
theorem rep_heap_after_add : Rep 16 heap_after_add [2] := by
  have hu : Uses (new_list unset_opts) _list_default_el_cmp 16 :=
    uses_new_default unset_opts rfl
  have hrep := rep_new unset_opts (by decide)
  obtain ⟨hstop, _⟩ := default_stop hrep [104, 0]
  obtain ⟨h', hadd, hrep', _⟩ :=
    add_link (new_list unset_opts) _list_default_el_cmp (new_heap unset_opts) [104, 0] 16 []
      (fun _ => 1) hu hrep (fun p _ => default_cmp_ok _ _) hstop (by decide!)
      (level_ok_zero [104, 0])
  have he : heap_after_add = h' := by
    simp only [heap_after_add, hadd]
  rw [he]
  exact hrep'

theorem rep_heap_after_two : Rep 16 heap_after_two [2, 3] := by
  have hu : Uses (new_list unset_opts) _list_default_el_cmp 16 :=
    uses_new_default unset_opts rfl
  have hrep := rep_heap_after_add
  obtain ⟨hstop, _⟩ := default_stop hrep [120, 0]
  obtain ⟨h', hadd, hrep', _⟩ :=
    add_link (new_list unset_opts) _list_default_el_cmp heap_after_add [120, 0] 16 [2]
      (fun _ => 1) hu hrep (fun p _ => default_cmp_ok _ _) hstop (by decide!)
      (level_ok_zero [120, 0])
  have he : heap_after_two = h' := by
    simp only [heap_after_two, hadd]
  rw [he]
  have hs : split_at _list_default_el_cmp heap_after_add [120, 0] 16 [2] = ([2], []) := by
    decide!
  have hl : heap_after_add.nodes.length = 3 := by decide!
  rw [hs, hl] at hrep'
  exact hrep'
/-! ## The Finder on chains that end at the right sentinel -/

theorem chain_mono (h : Heap) (i : Nat) : ∀ (F : Nat) (p : Ptr) (ch : List Ptr),
    chain h i F p = some ch → chain h i (F + 1) p = some ch
  | 0, _, _, hc => by cases hc
  | F + 1, p, ch, hc => by
    rw [chain] at hc
    rw [chain]
    cases hr : h.rdFwd p i with
    | none => rw [hr] at hc; cases hc
    | some x =>
      cases x with
      | none => rw [hr] at hc; exact hc
      | some q =>
        rw [hr] at hc
        simp only at hc
        cases hq : chain h i F q with
        | none => rw [hq] at hc; cases hc
        | some tl =>
          rw [hq] at hc
          simp only [chain_mono h i F q tl hq]
          exact hc

theorem chain_head (h : Heap) (i : Nat) (F : Nat) (p : Ptr) (ch : List Ptr)
    (hc : chain h i F p = some ch) : ∃ tl, ch = p :: tl := by
  cases F with
  | zero => cases hc
  | succ F =>
    rw [chain] at hc
    cases hr : h.rdFwd p i with
    | none => rw [hr] at hc; cases hc
    | some x =>
      cases x with
      | none =>
        rw [hr] at hc
        simp only [Option.some.injEq] at hc
        exact ⟨[], hc.symm⟩
      | some q =>
        rw [hr] at hc
        simp only at hc
        cases hq : chain h i F q with
        | none => rw [hq] at hc; cases hc
        | some tl =>
          rw [hq] at hc
          simp only [Option.map_some', Option.some.injEq] at hc
          exact ⟨tl, hc.symm⟩

/-- The last node of a chain is the one whose pointer is NULL. -/
theorem chain_last (h : Heap) (i : Nat) : ∀ (F : Nat) (p : Ptr) (ch : List Ptr),
    chain h i F p = some ch → ∃ r, ch.getLast? = some r ∧ h.rdFwd r i = some none
  | 0, _, _, hc => by cases hc
  | F + 1, p, ch, hc => by
    rw [chain] at hc
    cases hr : h.rdFwd p i with
    | none => rw [hr] at hc; cases hc
    | some x =>
      cases x with
      | none =>
        rw [hr] at hc
        simp only [Option.some.injEq] at hc
        subst hc
        exact ⟨p, rfl, hr⟩
      | some q =>
        rw [hr] at hc
        simp only at hc
        cases hq : chain h i F q with
        | none => rw [hq] at hc; cases hc
        | some tl =>
          rw [hq] at hc
          simp only [Option.map_some', Option.some.injEq] at hc
          subst hc
          obtain ⟨r, hl, hn⟩ := chain_last h i F q tl hq
          obtain ⟨tl2, rfl⟩ := chain_head h i F q tl hq
          exact ⟨r, by rw [List.getLast?_cons_cons]; exact hl, hn⟩

theorem chain_right_null (h : Heap) (i F : Nat) (p : Ptr) (ps : List Ptr)
    (hc : chain h i F p = some (ps ++ [1])) : h.rdFwd 1 i = some none := by
  obtain ⟨r, hl, hn⟩ := chain_last h i F p _ hc
  simp only [List.getLast?_append, List.getLast?_singleton] at hl
  have he : r = 1 := by
    cases hl
    rfl
  rw [← he]; exact hn

/-- A chain that goes on after its first node: the first pointer is not NULL
and the rest is the chain from the node it designates. -/
theorem chain_step (h : Heap) (i F : Nat) (p : Ptr) (ps : List Ptr)
    (hc : chain h i F p = some (p :: ps ++ [1])) :
    ∃ F1 first, F = F1 + 1 ∧ h.rdFwd p i = some (some first) ∧
      chain h i F1 first = some (ps ++ [1]) := by
  cases F with
  | zero => cases hc
  | succ F =>
    rw [chain] at hc
    cases hr : h.rdFwd p i with
    | none => rw [hr] at hc; cases hc
    | some x =>
      cases x with
      | none =>
        rw [hr] at hc
        simp at hc
      | some q =>
        rw [hr] at hc
        simp only at hc
        cases hq : chain h i F q with
        | none => rw [hq] at hc; cases hc
        | some tl =>
          rw [hq] at hc
          simp only [Option.map_some', Option.some.injEq] at hc
          have ht : tl = ps ++ [1] := List.tail_eq_of_cons_eq hc
          exact ⟨F, q, rfl, rfl, by rw [← ht]; exact hq⟩

theorem linked_ne_right (h : Heap) (i F : Nat) (p : Ptr) (ps : List Ptr)
    (hc : chain h i F p = some (p :: ps ++ [1])) : p ≠ 1 := by
  intro he
  obtain ⟨F1, first, _, hrd, _⟩ := chain_step h i F p ps hc
  have hn := chain_right_null h i F p (p :: ps) hc
  rw [he] at hrd
  rw [hrd] at hn
  cases hn

theorem node_of_valOf_max (h : Heap) (p : Ptr) (hmax : h.valOf p = MAX_VAL) :
    ∃ cn, h.node p = some cn ∧ cn.val = MAX_VAL := by
  simp only [Heap.valOf] at hmax
  cases hn : h.node p with
  | none => rw [hn] at hmax; exact absurd hmax (by decide)
  | some cn => rw [hn] at hmax; exact ⟨cn, rfl, hmax⟩

/-- With the default comparator the inner loop of the Finder, entered on a
chain that ends at the right sentinel, stops on a node of that chain, at the
right sentinel at the latest, and has followed only pointers of the chain. -/
theorem walk_along_chain (h : Heap) (v : Elem) (i : Nat) (hmax : h.valOf 1 = MAX_VAL) :
    ∀ (F : Nat) (pred q : Ptr) (ps : List Ptr), chain h i F q = some (ps ++ [1]) →
      ∃ pred1 curr, find_walk _list_default_el_cmp h v i (F + 1) pred q =
          some (Except.ok (pred1, curr)) ∧
        (h.node curr).isSome = true ∧
        ¬ (_list_default_el_cmp (h.valOf curr) v).2 < 0 ∧
        (curr = 1 ∨ curr ∈ ps) ∧
        ((pred1 = pred ∧ curr = q) ∨ (pred1 ∈ ps ∧ h.rdFwd pred1 i = some (some curr)))
  | 0, _, _, _, hc => by cases hc
  | F + 1, pred, q, ps, hc => by
    by_cases hq1 : q = 1
    · subst hq1
      obtain ⟨cn, hcn, hv⟩ := node_of_valOf_max h 1 hmax
      refine ⟨pred, 1, ?_, by rw [hcn]; rfl, ?_, Or.inl rfl, Or.inl ⟨rfl, rfl⟩⟩
      · rw [find_walk, hcn]
        simp only [hv, default_cmp_MAX]
        simp
      · rw [hmax, default_cmp_MAX]; decide
    · obtain ⟨tl0, htl0⟩ := chain_head h i _ q _ hc
      have hps : ∃ tl, ps = q :: tl := by
        cases ps with
        | nil =>
          simp only [List.nil_append, List.cons.injEq] at htl0
          exact absurd htl0.1.symm hq1
        | cons a tl =>
          simp only [List.cons_append, List.cons.injEq] at htl0
          exact ⟨tl, by rw [htl0.1]⟩
      obtain ⟨tl, rfl⟩ := hps
      obtain ⟨F1, first, hF, hrd, hc1⟩ := chain_step h i _ q tl hc
      have hF1 : F1 = F := by omega
      subst hF1
      have hnode : ∃ cn, h.node q = some cn ∧ cn.forward[i]? = some (some first) := by
        simp only [Heap.rdFwd] at hrd
        cases hn : h.node q with
        | none => rw [hn] at hrd; cases hrd
        | some cn => rw [hn] at hrd; exact ⟨cn, rfl, hrd⟩
      obtain ⟨cn, hcn, hfw⟩ := hnode
      have hval : h.valOf q = cn.val := by simp only [Heap.valOf, hcn]
      by_cases hlt : (_list_default_el_cmp cn.val v).2 < 0
      · obtain ⟨pred1, curr, hw, hnc, hnl, hcur, hpr⟩ :=
          walk_along_chain h v i hmax F1 q first tl hc1
        refine ⟨pred1, curr, ?_, hnc, hnl, ?_, Or.inr ?_⟩
        · rw [find_walk, hcn]
          simp only [default_cmp_ok, ne_eq, not_true_eq_false, if_false, hlt, if_true, hfw]
          exact hw
        · rcases hcur with hc | hc
          · exact Or.inl hc
          · exact Or.inr (List.mem_cons_of_mem _ hc)
        · rcases hpr with ⟨hp, hcq⟩ | ⟨hp, hr⟩
          · rw [hp, hcq]
            exact ⟨List.mem_cons_self _ _, hrd⟩
          · exact ⟨List.mem_cons_of_mem _ hp, hr⟩
      · refine ⟨pred, q, ?_, by rw [hcn]; rfl, by rw [hval]; exact hlt,
          Or.inr (List.mem_cons_self _ _), Or.inl ⟨rfl, rfl⟩⟩
        rw [find_walk, hcn]
        simp only [default_cmp_ok, ne_eq, not_true_eq_false, if_false, hlt]

/-- With the default comparator the level loop of the Finder, entered at level
`n - 1` on a node linked at that level, returns, and at every level below `n`
it stopped on a chain that ends at the right sentinel. -/
theorem find_levels_linked (h : Heap) (v : Elem) (S : Nat → Ptr → Prop)
    (hmax : h.valOf 1 = MAX_VAL) (hdown : ∀ i p, S (i + 1) p → S i p)
    (hends : ∀ i p, S i p → ∃ ps, chain h i h.nodes.length p = some (p :: ps ++ [1]) ∧
      ∀ q ∈ ps, S i q) :
    ∀ (n : Nat) (pred : Ptr) (st : FindState), (∀ k, n = k + 1 → S k pred) →
      ∃ code st1, find_levels _list_default_el_cmp h v n pred st = some (code, st1) ∧
        (code = SUCCESS ∨ code = LIST__FIND_EL_VAL_NOT_FOUND) ∧
        (∀ i, n ≤ i → st1.pred_nodes i = st.pred_nodes i ∧
          st1.succ_nodes i = st.succ_nodes i) ∧
        ∀ i, i < n → ∃ p s, st1.pred_nodes i = some p ∧ st1.succ_nodes i = some s ∧ S i p ∧
          h.rdFwd p i = some (some s) ∧ (s = 1 ∨ S i s) ∧
          ¬ (_list_default_el_cmp (h.valOf s) v).2 < 0
  | 0, pred, st, _ => by
    refine ⟨_, st, rfl, ?_, fun i _ => ⟨rfl, rfl⟩, fun i hi => absurd hi (by omega)⟩
    cases st.val_found
    · right; rfl
    · left; rfl
  | n + 1, pred, st, hS => by
    have hSn : S n pred := hS n rfl
    obtain ⟨ps, hch, hps⟩ := hends n pred hSn
    obtain ⟨F1, first, hF, hrd, hc1⟩ := chain_step h n _ pred ps hch
    have hc2 : chain h n h.nodes.length first = some (ps ++ [1]) := by
      rw [hF]; exact chain_mono h n F1 first _ hc1
    obtain ⟨pred1, curr, hw, hnc, hnl, hcur, hpr⟩ :=
      walk_along_chain h v n hmax h.nodes.length pred first ps hc2
    obtain ⟨cn, hcn⟩ := Option.isSome_iff_exists.1 hnc
    have hS1 : S n pred1 := by
      rcases hpr with ⟨hp, _⟩ | ⟨hp, _⟩
      · rw [hp]; exact hSn
      · exact hps pred1 hp
    have hrd1 : h.rdFwd pred1 n = some (some curr) := by
      rcases hpr with ⟨hp, hq⟩ | ⟨_, hr⟩
      · rw [hp, hq]; exact hrd
      · exact hr
    have hScur : curr = 1 ∨ S n curr := by
      rcases hcur with hc | hc
      · exact Or.inl hc
      · exact Or.inr (hps curr hc)
    obtain ⟨code, st1, hfl, hcode, hkeep, hlow⟩ :=
      find_levels_linked h v S hmax hdown hends n pred1
        { (if !st.val_found && (_list_default_el_cmp cn.val v).2 == 0 then
            { st with val_found := true, level_found := some n }
          else st) with
          pred_nodes := Function.update
            (if !st.val_found && (_list_default_el_cmp cn.val v).2 == 0 then
              { st with val_found := true, level_found := some n }
            else st).pred_nodes n (some pred1),
          succ_nodes := Function.update
            (if !st.val_found && (_list_default_el_cmp cn.val v).2 == 0 then
              { st with val_found := true, level_found := some n }
            else st).succ_nodes n (some curr) }
        (fun k hk => hdown k pred1 (hk ▸ hS1))
    have hpn : ∀ i, (if !st.val_found && (_list_default_el_cmp cn.val v).2 == 0 then
              { st with val_found := true, level_found := some n }
            else st).pred_nodes i = st.pred_nodes i := by
      intro i; split <;> rfl
    have hsn : ∀ i, (if !st.val_found && (_list_default_el_cmp cn.val v).2 == 0 then
              { st with val_found := true, level_found := some n }
            else st).succ_nodes i = st.succ_nodes i := by
      intro i; split <;> rfl
    refine ⟨code, st1, ?_, hcode, ?_, ?_⟩
    · rw [find_levels, hrd]
      simp only [hw, hcn, default_cmp_ok, ne_eq, not_true_eq_false, if_false]
      exact hfl
    · intro i hi
      obtain ⟨h1, h2⟩ := hkeep i (by omega)
      have hne : i ≠ n := by omega
      rw [h1, h2]
      simp only [Function.update_noteq hne, hpn, hsn, and_self]
    · intro i hi
      by_cases hin : i < n
      · exact hlow i hin
      · have hie : i = n := by omega
        subst hie
        obtain ⟨h1, h2⟩ := hkeep i (le_refl _)
        refine ⟨pred1, curr, ?_, ?_, hS1, hrd1, hScur, hnl⟩
        · rw [h1]; simp only [Function.update_same]
        · rw [h2]; simp only [Function.update_same]

/-- C21 (Finder termination on sentinel-terminated lists).  With the default
comparator, for every memory and list handle in which each level's forward
chain is finite and ends at the right sentinel (node 1, carrying the MAX byte
string), and for every query `v` of any bytes and length: `_list_find_el`
returns, with SUCCESS or `FIND_EL_VAL_NOT_FOUND`; at every level
`i < max_level` its inner loop stopped at `succ_nodes[i]`, from which the chain
of level `i` still runs to the right sentinel (it stopped at or before it) and
which does not compare below `v`, and it reached it through `forward[i]` of
`pred_nodes[i]`, which is not the right sentinel: no NULL pointer was followed.

The chains are given by `S`: `S i p` says that node `p`, which is not the right
sentinel, is linked at level `i`.  The left sentinel is linked at every level
below `max_level`, a node linked at level `i + 1` is linked at level `i`, and
the forward chain of level `i` from a node linked at level `i`, the left
sentinel first, is finite, runs through nodes linked at level `i` and ends at
the right sentinel.  No flag, mutex or order of the values is asked for. -/
theorem C21_finder_terminates (list : hopscotch_list_t) (h : Heap) (S : Nat → Ptr → Prop)
    (v : Elem) (hcmp : list.opts.cmp = some _list_default_el_cmp)
    (hmax : h.valOf 1 = MAX_VAL)
    (hhead : ∀ i, i < list.opts.max_level → S i list.head)
    (hdown : ∀ i p, S (i + 1) p → S i p)
    (hends : ∀ i p, S i p → ∃ ps, chain h i h.nodes.length p = some (p :: ps ++ [1]) ∧
      ∀ q ∈ ps, S i q) :
    ∃ code fs, _list_find_el list h v = some (code, fs) ∧
      (code = SUCCESS ∨ code = LIST__FIND_EL_VAL_NOT_FOUND) ∧
      ∀ i, i < list.opts.max_level → ∃ pred succ ps,
        fs.pred_nodes i = some pred ∧ fs.succ_nodes i = some succ ∧ pred ≠ 1 ∧
        h.rdFwd pred i = some (some succ) ∧
        chain h i h.nodes.length succ = some (ps ++ [1]) ∧
        ¬ (_list_default_el_cmp (h.valOf succ) v).2 < 0 := by
  obtain ⟨code, fs, hfl, hcode, _, hlow⟩ :=
    find_levels_linked h v S hmax hdown hends list.opts.max_level list.head
      { val_found := false, level_found := none,
        pred_nodes := fun _ => none, succ_nodes := fun _ => none }
      (fun k hk => hhead k (by omega))
  refine ⟨code, fs, ?_, hcode, ?_⟩
  · simp only [_list_find_el, hcmp]
    exact hfl
  · intro i hi
    obtain ⟨p, s, hp, hs, hSp, hrd, hSs, hnl⟩ := hlow i hi
    obtain ⟨ps, hch, _⟩ := hends i p hSp
    have hpne := linked_ne_right h i _ p ps hch
    have hnull := chain_right_null h i _ p (p :: ps) hch
    obtain ⟨F1, _, hF, _, _⟩ := chain_step h i _ p ps hch
    rcases hSs with h1 | hSs
    · refine ⟨p, s, [], hp, hs, hpne, hrd, ?_, hnl⟩
      rw [h1, hF, chain, hnull]
      rfl
    · obtain ⟨ps2, hch2, _⟩ := hends i s hSs
      exact ⟨p, s, s :: ps2, hp, hs, hpne, hrd, hch2, hnl⟩

/-- A list represented in the sense of `Rep` has its chains linked as
`C21_finder_terminates` asks: the left sentinel and the nodes of level at least
`i` are linked at level `i`. -/
theorem rep_linked {m : Nat} {h : Heap} {L : List Ptr} (hrep : Rep m h L) :
    (∀ i, i < m → (i < m ∧ ((0 : Ptr) = 0 ∨ (0 : Ptr) ∈ L) ∧ i ≤ h.lev 0)) ∧
      (∀ i p, (i + 1 < m ∧ (p = 0 ∨ p ∈ L) ∧ i + 1 ≤ h.lev p) →
        (i < m ∧ (p = 0 ∨ p ∈ L) ∧ i ≤ h.lev p)) ∧
      ∀ i p, (i < m ∧ (p = 0 ∨ p ∈ L) ∧ i ≤ h.lev p) →
        ∃ ps, chain h i h.nodes.length p = some (p :: ps ++ [1]) ∧
          ∀ q ∈ ps, (i < m ∧ (q = 0 ∨ q ∈ L) ∧ i ≤ h.lev q) := by
  refine ⟨?_, ?_, ?_⟩
  · intro i hi
    exact ⟨hi, Or.inl rfl, by rw [rep_lev_left hrep]; omega⟩
  · rintro i p ⟨h1, h2, h3⟩
    exact ⟨by omega, h2, by omega⟩
  · rintro i p ⟨hi, hp, hl⟩
    rcases hp with rfl | hp
    · refine ⟨_, rep_chain hrep i hi, ?_⟩
      intro q hq
      obtain ⟨hqL, hql⟩ := List.mem_filter.1 hq
      exact ⟨hi, Or.inr hqL, of_decide_eq_true hql⟩
    · obtain ⟨A, B, rfl⟩ := List.append_of_mem hp
      have hch := hrep.link i hi
      rw [← List.cons_append, chained_append] at hch
      have hlen := rep_length hrep
      simp only [List.length_append, List.length_cons] at hlen
      refine ⟨_, chain_spec h i (hrep.right_null i hi) B p h.nodes.length hch.2 hl
        (by omega), ?_⟩
      intro q hq
      obtain ⟨hqB, hql⟩ := List.mem_filter.1 hq
      exact ⟨hi, Or.inr (List.mem_append_right _ (List.mem_cons_of_mem _ hqB)),
        of_decide_eq_true hql⟩

/-- Every state reached from `hopscotch_list_new` with the default comparator
by single-threaded calls on arbitrary element bytes has its chains linked as
`rep_linked` says: the Finder returns there for every query. -/
theorem reachable_linked (opts : hopscotch_opts_t) (hc : opts.cmp = none)
    (hm : opts.max_level < 256) (ops : List Op)
    (hlev : ∀ op ∈ ops, level_ok (new_list opts) op)
    (rs : List (hopscotch_res_t × Option Bool)) (h : Heap)
    (hrun : run (new_list opts) (new_heap opts) ops = some (rs, h)) :
    ∃ S : Nat → Ptr → Prop, h.valOf 1 = MAX_VAL ∧
      (∀ i, i < (new_list opts).opts.max_level → S i (new_list opts).head) ∧
      (∀ i p, S (i + 1) p → S i p) ∧
      ∀ i p, S i p → ∃ ps, chain h i h.nodes.length p = some (p :: ps ++ [1]) ∧
        ∀ q ∈ ps, S i q := by
  have hu := uses_new_default opts hc
  obtain ⟨rs', h0, L, hrun', hrep, _, _⟩ :=
    run_default _ _ hu ops _ [] (rep_new opts hm) hlev (fun _ _ => by rw [hrun]; rfl)
  rw [hrun] at hrun'
  simp only [Option.some.injEq, Prod.mk.injEq] at hrun'
  obtain ⟨_, rfl⟩ := hrun'
  obtain ⟨h1, h2, h3⟩ := rep_linked hrep
  exact ⟨fun i p => i < (default_opts opts).max_level ∧ (p = 0 ∨ p ∈ L) ∧ i ≤ h.lev p,
    rep_valOf_right hrep, h1, h2, h3⟩

theorem C21_finder_terminates_witness :
    (∃ code fs, _list_find_el crossed_list crossed_heap [55, 0] = some (code, fs) ∧
      (code = SUCCESS ∨ code = LIST__FIND_EL_VAL_NOT_FOUND) ∧
      ∀ i, i < crossed_list.opts.max_level → ∃ pred succ ps,
        fs.pred_nodes i = some pred ∧ fs.succ_nodes i = some succ ∧ pred ≠ 1 ∧
        crossed_heap.rdFwd pred i = some (some succ) ∧
        chain crossed_heap i crossed_heap.nodes.length succ = some (ps ++ [1]) ∧
        ¬ (_list_default_el_cmp (crossed_heap.valOf succ) [55, 0]).2 < 0) ∧
    (∃ code fs, _list_find_el (new_list unset_opts) heap_after_two MAX_VAL = some (code, fs) ∧
      (code = SUCCESS ∨ code = LIST__FIND_EL_VAL_NOT_FOUND) ∧
      ∀ i, i < (new_list unset_opts).opts.max_level → ∃ pred succ ps,
        fs.pred_nodes i = some pred ∧ fs.succ_nodes i = some succ ∧ pred ≠ 1 ∧
        heap_after_two.rdFwd pred i = some (some succ) ∧
        chain heap_after_two i heap_after_two.nodes.length succ = some (ps ++ [1]) ∧
        ¬ (_list_default_el_cmp (heap_after_two.valOf succ) MAX_VAL).2 < 0) :=
  ⟨C21_finder_terminates crossed_list crossed_heap
      (fun i p => (i = 0 ∧ (p = 0 ∨ p = 2 ∨ p = 3)) ∨ (i = 1 ∧ (p = 0 ∨ p = 2)))
      [55, 0] rfl (by decide)
      (fun i hi => by
        have h2 : i < 2 := hi
        interval_cases i
        · exact Or.inl ⟨rfl, Or.inl rfl⟩
        · exact Or.inr ⟨rfl, Or.inl rfl⟩)
      (fun i p hS => by
        rcases hS with ⟨h0, _⟩ | ⟨h1, hp⟩
        · exact absurd h0 (by omega)
        · have hi : i = 0 := by omega
          rcases hp with hp | hp
          · exact Or.inl ⟨hi, Or.inl hp⟩
          · exact Or.inl ⟨hi, Or.inr (Or.inl hp)⟩)
      (fun i p hS => by
        rcases hS with ⟨rfl, rfl | rfl | rfl⟩ | ⟨rfl, rfl | rfl⟩
        · exact ⟨[3], by decide, by simp⟩
        · exact ⟨[], by decide, by simp⟩
        · exact ⟨[], by decide, by simp⟩
        · exact ⟨[2], by decide, by simp⟩
        · exact ⟨[], by decide, by simp⟩),
    C21_finder_terminates (new_list unset_opts) heap_after_two
      (fun i p => i < 16 ∧ (p = 0 ∨ p ∈ [2, 3]) ∧ i ≤ heap_after_two.lev p)
      MAX_VAL rfl (rep_valOf_right rep_heap_after_two)
      (rep_linked rep_heap_after_two).1 (rep_linked rep_heap_after_two).2.1
      (rep_linked rep_heap_after_two).2.2⟩

theorem rep_chain_flags {m : Nat} {h : Heap} {L : List Ptr} (hrep : Rep m h L) (i : Nat)
    (hi : i < m) :
    ∃ ch, chain h i h.nodes.length 0 = some ch ∧
      ∀ p ∈ ch, ∃ s, h.shape p = some s ∧ s.2.2.1 = true ∧ s.2.2.2.1 = false := by
  refine ⟨_, rep_chain hrep i hi, ?_⟩
  intro p hp
  rcases List.mem_append.1 hp with hp | hp
  · rcases List.mem_cons.1 hp with rfl | hp
    · exact ⟨_, hrep.left, rfl, rfl⟩
    · obtain ⟨_, val, lvl, _, hs⟩ := hrep.mem p (List.mem_filter.1 hp).1
      exact ⟨_, hs, rfl, rfl⟩
  · rw [List.mem_singleton.1 hp]
    exact ⟨_, hrep.right, rfl, rfl⟩

/-- Single-threaded, no external call failing, for a comparator that honours
the contract `OrderedOn` on the elements in use, with levels drawn in
`[0, max_level - 1]`: in every state `h` reached from `hopscotch_list_new` by a
sequence of calls, every node on the chain of any level is fully linked and
unmarked; one pass of the body of the `while (true)` of
`hopscotch_list_add_el` (for any element in use and any level drawn in range)
ends in a return, with SUCCESS and a boolean, and so does one pass of
`hopscotch_list_del_el` for an element the list holds, with `deleted = true`;
for an element in use that the list does not hold `hopscotch_list_del_el` has
no result. -/
theorem writer_one_pass (opts : hopscotch_opts_t) (cmp : Cmp) (U : Elem → Prop)
    (hc : (default_opts opts).cmp = some cmp) (hm : opts.max_level < 256)
    (hord : OrderedOn cmp U) (ops : List Op) (hU : ∀ op ∈ ops, U op.elem)
    (hlev : ∀ op ∈ ops, level_ok (new_list opts) op)
    (rs : List (hopscotch_res_t × Option Bool)) (h : Heap)
    (hrun : run (new_list opts) (new_heap opts) ops = some (rs, h)) :
    (∀ i, i < (new_list opts).opts.max_level →
      ∃ ch, chain h i h.nodes.length (new_list opts).head = some ch ∧
        ∀ p ∈ ch, ∃ s, h.shape p = some s ∧ s.2.2.1 = true ∧ s.2.2.2.1 = false) ∧
      (∀ v rnd, U v → level_ok (new_list opts) (Op.add v rnd) →
        ∃ b h', hopscotch_list_add_el no_failure rnd (new_list opts) h v =
          some (SUCCESS, some b, h')) ∧
      (∀ v, U v → v ∈ set_after ∅ ops →
        ∃ h', hopscotch_list_del_el no_failure (new_list opts) h v =
          some (SUCCESS, some true, h')) ∧
      (∀ v, U v → v ∉ set_after ∅ ops →
        hopscotch_list_del_el no_failure (new_list opts) h v = none) := by
  have hu := uses_new opts cmp hc
  obtain ⟨h1, L, hrun1, hrep, hs, hset⟩ :=
    run_sorted (new_list opts) cmp U _ hord hu ops (new_heap opts) [] (rep_new opts hm)
      (sorted_nil _ U _) hU hlev (fun _ _ => by rw [hrun]; rfl)
  rw [hrun] at hrun1
  simp only [Option.some.injEq, Prod.mk.injEq] at hrun1
  obtain ⟨_, hh⟩ := hrun1
  subst hh
  have hset2 : (L.map h.valOf).toFinset = set_after ∅ ops := by
    rw [hset]; rfl
  refine ⟨fun i hi => rep_chain_flags hrep i hi, ?_, ?_, ?_⟩
  · intro v rnd hv hl
    obtain ⟨h', _, hstep, _⟩ :=
      step_sorted (new_list opts) cmp U _ h L (Op.add v rnd) hord hu hrep hs hv hl
        (fun _ he => by cases he)
    exact ⟨_, h', hstep⟩
  · intro v hv hmem
    rw [← hset2] at hmem
    have hsome := (remove_returns_iff (new_list opts) cmp U _ h L v hord hu hrep hs hv).2 hmem
    obtain ⟨h', _, hstep, _⟩ :=
      step_sorted (new_list opts) cmp U _ h L (Op.remove v) hord hu hrep hs hv trivial
        (fun _ _ => hsome)
    simp only [set_step, hmem, decide_True] at hstep
    exact ⟨h', hstep⟩
  · intro v hv hmem
    exact remove_absent opts cmp U hc hm hord ops hU hlev rs h hrun v hv hmem

/-- C22 fails on the code for a remove of an absent element.  The state
`heap_after_add` is reached on the fresh list of `test.c` (default comparator,
level 0 drawn) by `add("h")`.  There every node of the level-0 chain is fully
linked and unmarked, one pass of `hopscotch_list_add_el("x")` returns SUCCESS
with `added = true` and one pass of `hopscotch_list_del_el("h")` returns
SUCCESS with `deleted = true`, as the claim says; but
`hopscotch_list_del_el("x")` has no result: the Finder writes no `level_found`
and line 436 reads `succ_nodes` through it. -/
theorem C22_remove_of_absent_does_not_return :
    run (new_list unset_opts) (new_heap unset_opts) [Op.add [104, 0] (fun _ => 1)] =
        some ([(SUCCESS, some true)], heap_after_add) ∧
      chain heap_after_add 0 heap_after_add.nodes.length (new_list unset_opts).head =
        some [0, 2, 1] ∧
      [0, 2, 1].map (fun p => (heap_after_add.shape p).map (fun s => (s.2.2.1, s.2.2.2.1))) =
        [some (true, false), some (true, false), some (true, false)] ∧
      (hopscotch_list_add_el no_failure (fun _ => 1) (new_list unset_opts) heap_after_add
        [120, 0]).map (fun r => (r.1, r.2.1)) = some (SUCCESS, some true) ∧
      (hopscotch_list_del_el no_failure (new_list unset_opts) heap_after_add [104, 0]).map
        (fun r => (r.1, r.2.1)) = some (SUCCESS, some true) ∧
      hopscotch_list_del_el no_failure (new_list unset_opts) heap_after_add [120, 0] = none := by
  refine ⟨?_, ?_, ?_, ?_, ?_, ?_⟩ <;> decide!

/-- C23 (contains is read-only).  `_list_find_el` and
`hopscotch_list_contains_el` are functions of the memory: they store to the
caller's `level_found`, `pred_nodes`, `succ_nodes` and `found` only.  For every
memory `h`, list handle and element `v`: a call of
`hopscotch_list_contains_el` that returns returns SUCCESS and leaves the memory
as it was, the forward pointers, value, level, `fully_linked`, `marked` and
mutex of every node and the record of external calls included (no lock or
unlock was made); and it does return on every list that is a skip list in the
sense of `Rep` when the comparator returns SUCCESS on the values of the list
and ranks the right sentinel's value above `v`. -/
theorem C23_contains_is_read_only (list : hopscotch_list_t) (h : Heap) (v : Elem) :
    (∀ r b h', step list h (Op.contains v) = some (r, b, h') →
        h' = h ∧ call_log h h' = [] ∧ r = SUCCESS ∧
          ∃ f, hopscotch_list_contains_el list h v = some (SUCCESS, f) ∧ b = some f) ∧
      (∀ cmp m L, Uses list cmp m → Rep m h L →
        (∀ p, p = 1 ∨ p ∈ L → (cmp (h.valOf p) v).1 = SUCCESS) → 0 < (cmp MAX_VAL v).2 →
        ∃ b, step list h (Op.contains v) = some (SUCCESS, some b, h)) := by
  constructor
  · intro r b h' hstep
    simp only [step] at hstep
    cases hc : hopscotch_list_contains_el list h v with
    | none => rw [hc] at hstep; cases hstep
    | some x =>
      obtain ⟨r0, f⟩ := x
      rw [hc] at hstep
      simp only [Option.map_some', Option.some.injEq, Prod.mk.injEq] at hstep
      obtain ⟨h1, h2, h3⟩ := hstep
      subst h1 h2 h3
      have hr : r0 = SUCCESS := by
        simp only [hopscotch_list_contains_el] at hc
        repeat' split at hc
        all_goals (cases hc <;> rfl)
      subst hr
      refine ⟨rfl, ?_, rfl, f, rfl, rfl⟩
      simp [call_log]
  · intro cmp m L hu hrep hok hmax
    have hstop := (stop_of_max cmp h v (rep_valOf_right hrep) hmax).1
    refine ⟨(matchLevel (eqq cmp h v) h.lev (split_at cmp h v m L).2 m).isSome, ?_⟩
    simp only [step, contains_spec list cmp h v m L hu hrep hok hstop, Option.map_some']
/-- C24 (remove never uses an unset `level_found`), failing input.  On the
fresh list of `test.c` (`max_level` 16), `hopscotch_list_del_el("h")`: the
Finder returns `FIND_EL_VAL_NOT_FOUND` and writes no `level_found`; line 436
nevertheless reads `succ_nodes[level_found]` and hands it to the eligibility
check: with 200 in the uninitialised `_level_found` the index is 200, beyond
the 16 entries of `succ_nodes`, and with 3 it is the entry of level 3, the right
sentinel, which the check then dereferences.  The call has no result. -/
theorem C24_unset_level_found_is_read :
    (_list_find_el (new_list unset_opts) (new_heap unset_opts) [104, 0]).map
        (fun r => (r.1, r.2.level_found)) = some (LIST__FIND_EL_VAL_NOT_FOUND, none) ∧
      (new_list unset_opts).opts.max_level = 16 ∧
      del_eligibility_read 200 (new_list unset_opts) (new_heap unset_opts) [104, 0] =
        some (200, none) ∧
      del_eligibility_read 3 (new_list unset_opts) (new_heap unset_opts) [104, 0] =
        some (3, some 1) ∧
      hopscotch_list_del_el no_failure (new_list unset_opts) (new_heap unset_opts) [104, 0] =
        none := by
  refine ⟨by decide!, by decide!, by decide!, by decide!, by decide!⟩

theorem same_call_elem {a b : Op} (hs : same_call a b) : a.elem = b.elem := by
  cases a <;> cases b <;> simp only [same_call] at hs <;> exact hs

theorem set_step_same {a b : Op} (hs : same_call a b) (S : Finset Elem) :
    set_step S a = set_step S b := by
  cases a <;> cases b <;> simp only [same_call] at hs <;> (subst hs; rfl)

theorem set_run_same : ∀ (ops1 ops2 : List Op), List.Forall₂ same_call ops1 ops2 →
    ∀ S, set_run S ops1 = set_run S ops2 ∧ set_after S ops1 = set_after S ops2
  | [], [], _, _ => ⟨rfl, rfl⟩
  | a :: ops1, b :: ops2, hs, S => by
    rw [List.forall₂_cons] at hs
    obtain ⟨h1, h2⟩ := set_run_same ops1 ops2 hs.2 (set_step S b).2
    simp only [set_run, set_after, set_step_same hs.1 S, h1, h2, and_self]
  | [], _ :: _, hs, _ => by cases hs
  | _ :: _, [], hs, _ => by cases hs

theorem same_call_mem : ∀ (ops1 ops2 : List Op), List.Forall₂ same_call ops1 ops2 →
    ∀ b ∈ ops2, ∃ a ∈ ops1, same_call a b
  | [], [], _, b, hb => by cases hb
  | a :: ops1, c :: ops2, hs, b, hb => by
    rw [List.forall₂_cons] at hs
    rcases List.mem_cons.1 hb with rfl | hb
    · exact ⟨a, by simp, hs.1⟩
    · obtain ⟨x, hx, hxb⟩ := same_call_mem ops1 ops2 hs.2 b hb
      exact ⟨x, List.mem_cons_of_mem _ hx, hxb⟩
  | [], _ :: _, hs, _, _ => by cases hs
  | _ :: _, [], _, _, hb => by cases hb

/-- Two lists that ascend strictly under an ordered comparator and hold the
same elements are equal. -/
theorem sorted_vals_unique {cmp : Cmp} {U : Elem → Prop} (hord : OrderedOn cmp U) :
    ∀ (A B : List Elem), (∀ a ∈ A, U a) → (∀ b ∈ B, U b) →
      A.Pairwise (fun a b => (cmp a b).2 < 0) → B.Pairwise (fun a b => (cmp a b).2 < 0) →
      A.toFinset = B.toFinset → A = B
  | [], B, _, _, _, _, he => by
    have : B.toFinset = ∅ := by rw [← he]; rfl
    exact (List.toFinset_eq_empty_iff B).1 this |>.symm
  | a :: A, [], _, _, _, _, he => by
    have : (a :: A).toFinset = ∅ := by rw [he]; rfl
    exact absurd ((List.toFinset_eq_empty_iff _).1 this) (by simp)
  | a :: A, b :: B, hA, hB, pA, pB, he => by
    rw [List.pairwise_cons] at pA pB
    have ha : U a := hA a (by simp)
    have hb : U b := hB b (by simp)
    have irr : ∀ x, U x → ¬ (cmp x x).2 < 0 := fun x hx hlt => by
      have := (hord.zero x x hx hx).2 rfl
      omega
    have hab : a = b := by
      by_contra hne
      have h1 : a ∈ (b :: B).toFinset := by rw [← he]; simp
      have h2 : b ∈ (a :: A).toFinset := by rw [he]; simp
      simp only [List.toFinset_cons, Finset.mem_insert, List.mem_toFinset] at h1 h2
      have hba : (cmp b a).2 < 0 := by
        rcases h1 with h1 | h1
        · exact absurd h1 hne
        · exact pB.1 a h1
      have hab : (cmp a b).2 < 0 := by
        rcases h2 with h2 | h2
        · exact absurd h2.symm hne
        · exact pA.1 b h2
      have := (hord.asymm a b ha hb).1 hab
      omega
    subst hab
    have naA : a ∉ A.toFinset := fun hm =>
      irr a ha (pA.1 a (List.mem_toFinset.1 hm))
    have naB : a ∉ B.toFinset := fun hm =>
      irr a ha (pB.1 a (List.mem_toFinset.1 hm))
    have he2 : A.toFinset = B.toFinset := by
      have := congrArg (fun s => s.erase a) he
      simpa [List.toFinset_cons, Finset.erase_insert naA, Finset.erase_insert naB] using this
    rw [sorted_vals_unique hord A B (fun x hx => hA x (List.mem_cons_of_mem _ hx))
      (fun x hx => hB x (List.mem_cons_of_mem _ hx)) pA.2 pB.2 he2]
theorem rep_chain_zero {m : Nat} {h : Heap} {L : List Ptr} (hrep : Rep m h L) (hm : 0 < m) :
    chain h 0 h.nodes.length 0 = some (0 :: L ++ [1]) ∧
      (0 :: L ++ [1]).map h.valOf = MIN_VAL :: L.map h.valOf ++ [MAX_VAL] := by
  constructor
  · rw [rep_chain hrep 0 hm]
    have : L.filter (fun q => decide (0 ≤ h.lev q)) = L := by
      apply List.filter_eq_self.2
      intro a _
      simp
    rw [this]
  · simp only [List.map_append, List.map_cons, List.map_nil, List.cons_append,
      rep_valOf_left hrep, rep_valOf_right hrep]

/-- Single-threaded, no external call failing, for a comparator that honours
the contract `OrderedOn` on the elements in use: for two sequences of add /
contains / remove calls that are the same calls on the same elements and differ
at most in the levels drawn (all in `[0, max_level - 1]`), when both runs on the
list of `hopscotch_list_new` have a result, every call returns the same code
and the same boolean in both, and the level-0 chains reached, followed from the
left sentinel to the right sentinel, hold the same sequence of values. -/
theorem results_independent_of_levels (opts : hopscotch_opts_t) (cmp : Cmp)
    (U : Elem → Prop) (hc : (default_opts opts).cmp = some cmp) (hm : opts.max_level < 256)
    (hord : OrderedOn cmp U) (ops1 ops2 : List Op) (hsame : List.Forall₂ same_call ops1 ops2)
    (hU : ∀ op ∈ ops1, U op.elem) (hlev1 : ∀ op ∈ ops1, level_ok (new_list opts) op)
    (hlev2 : ∀ op ∈ ops2, level_ok (new_list opts) op)
    (hret1 : (run (new_list opts) (new_heap opts) ops1).isSome = true)
    (hret2 : (run (new_list opts) (new_heap opts) ops2).isSome = true) :
    ∃ rs h1 h2 ch1 ch2, run (new_list opts) (new_heap opts) ops1 = some (rs, h1) ∧
      run (new_list opts) (new_heap opts) ops2 = some (rs, h2) ∧
      chain h1 0 h1.nodes.length (new_list opts).head = some ch1 ∧
      chain h2 0 h2.nodes.length (new_list opts).head = some ch2 ∧
      ch1.map h1.valOf = ch2.map h2.valOf := by
  have hu := uses_new opts cmp hc
  have hU2 : ∀ op ∈ ops2, U op.elem := by
    intro op hop
    obtain ⟨a, ha, hab⟩ := same_call_mem ops1 ops2 hsame op hop
    rw [← same_call_elem hab]
    exact hU a ha
  obtain ⟨h1, L1, hrun1, hrep1, hs1, hset1⟩ :=
    run_sorted (new_list opts) cmp U _ hord hu ops1 (new_heap opts) [] (rep_new opts hm)
      (sorted_nil _ U _) hU hlev1 (fun _ _ => hret1)
  obtain ⟨h2, L2, hrun2, hrep2, hs2, hset2⟩ :=
    run_sorted (new_list opts) cmp U _ hord hu ops2 (new_heap opts) [] (rep_new opts hm)
      (sorted_nil _ U _) hU2 hlev2 (fun _ _ => hret2)
  obtain ⟨e1, e2⟩ := set_run_same ops1 ops2 hsame ((List.map (new_heap opts).valOf []).toFinset)
  have hpos := default_max_level_pos opts
  obtain ⟨hc1, hv1⟩ := rep_chain_zero hrep1 hpos
  obtain ⟨hc2, hv2⟩ := rep_chain_zero hrep2 hpos
  have hvals : L1.map h1.valOf = L2.map h2.valOf := by
    apply sorted_vals_unique hord
    · intro a ha
      obtain ⟨p, hp, rfl⟩ := List.mem_map.1 ha
      exact hs1.1 p hp
    · intro a ha
      obtain ⟨p, hp, rfl⟩ := List.mem_map.1 ha
      exact hs2.1 p hp
    · exact List.pairwise_map.2 hs1.2
    · exact List.pairwise_map.2 hs2.2
    · rw [hset1, hset2, e2]
  refine ⟨_, h1, h2, _, _, hrun1, ?_, hc1, hc2, ?_⟩
  · rw [hrun2, e1]
  · rw [hv1, hv2, hvals]

/-- C25 fails on the code for a sequence with a remove of an absent element.
The two runs `add("h")`; `remove("x")` on the fresh list of `test.c` (default
comparator) differ only in the level drawn for "h" (0 and 3, both in range).
In both `add("h")` returns SUCCESS with `added = true`; the call `remove("x")`,
for which the claim says the same code and boolean in both runs, has a result
in neither: the Finder writes no `level_found` and line 436 reads `succ_nodes`
through it. -/
theorem C25_absent_remove_in_both_runs :
    List.Forall₂ same_call [Op.add [104, 0] (draws 0), Op.remove [120, 0]]
        [Op.add [104, 0] (draws 3), Op.remove [120, 0]] ∧
      level_ok (new_list unset_opts) (Op.add [104, 0] (draws 0)) ∧
      level_ok (new_list unset_opts) (Op.add [104, 0] (draws 3)) ∧
      (run (new_list unset_opts) (new_heap unset_opts) [Op.add [104, 0] (draws 0)]).map
        Prod.fst = some [(SUCCESS, some true)] ∧
      (run (new_list unset_opts) (new_heap unset_opts) [Op.add [104, 0] (draws 3)]).map
        Prod.fst = some [(SUCCESS, some true)] ∧
      run (new_list unset_opts) (new_heap unset_opts)
        [Op.add [104, 0] (draws 0), Op.remove [120, 0]] = none ∧
      run (new_list unset_opts) (new_heap unset_opts)
        [Op.add [104, 0] (draws 3), Op.remove [120, 0]] = none := by
  refine ⟨List.Forall₂.cons rfl (List.Forall₂.cons rfl List.Forall₂.nil),
    level_ok_draws 0 (by decide) _, level_ok_draws 3 (by decide) _, ?_, ?_, ?_, ?_⟩ <;> decide!

end Hopscotch
